import Mathlib

/-!
# Tempesta TLS debugging routines (`tls/debug.c`)

A shallow embedding of the formatters of `tls/debug.c` and the properties of
their output.

Conventions of the embedding.

* Text is `List Char`; a C string argument is read up to its first NUL (`cstr`).
* Every local `char str[DEBUG_BUF_SIZE]` is a list of `DEBUG_BUF_SIZE`
  characters whose initial content `junk` is arbitrary (uninitialised stack).
* Each call of the bounded formatter is logged with the offset, the capacity
  and the length of the text it was asked to render (`FmtCall`).
* The sink that receives finished text is outside `debug.c`.  A rendered unit
  is the scratch buffer read as a C string at the moment a template that ends
  in a newline has been formatted into it (`Scratch.unit_done`).
* `size_t` is 64 bit, `int` and `unsigned int` are 32 bit.  The `int j` that
  counts the rendered bytes of `ttls_debug_print_mpi` wraps at `INT_MAX`
  (`int_succ`).  The offset `idx` and the index `i` of `ttls_debug_print_buf`
  (`size_t`, never above 4096) are natural numbers.
* What is declared outside `debug.c` is a parameter (`sizeof(ttls_mpi_uint)`,
  `TTLS_PK_DEBUG_MAX_ITEMS`, `TTLS_ERR_WANT_READ`, the result of
  `ttls_pk_debug`) or a bounded store of a given text (`ttls_snprintf`,
  `ttls_x509_crt_info`).
-/

namespace Tempesta

/-! ## Machine arithmetic -/

def SIZE_MOD : Nat := 2 ^ 64

def UINT_MOD : Nat := 2 ^ 32

/-- Subtraction of two `size_t` values: the difference modulo `2 ^ 64`. -/
def size_sub (a b : Nat) : Nat :=
  if b % SIZE_MOD ≤ a % SIZE_MOD then a % SIZE_MOD - b % SIZE_MOD
  else SIZE_MOD - (b % SIZE_MOD - a % SIZE_MOD)

/-- Conversion `(unsigned int) v`. -/
def to_uint (v : Nat) : Nat := v % UINT_MOD

/-- Conversion `(int) v` of an unsigned value. -/
def to_int (v : Nat) : Int :=
  if v % UINT_MOD < 2 ^ 31 then ((v % UINT_MOD : Nat) : Int)
  else ((v % UINT_MOD : Nat) : Int) - (UINT_MOD : Int)

/-- Conversion of an `int` to `size_t`. -/
def int_to_size (j : Int) : Nat := (j % (SIZE_MOD : Int)).toNat

/-- Conversion of an `int` passed to a `%x` directive. -/
def int_to_uint (j : Int) : Nat := (j % (UINT_MOD : Int)).toNat

/-- Statement `j++` on an `int`: the successor, which wraps from `INT_MAX` to
`INT_MIN` (signed overflow, undefined in C, is taken as the two's complement
wrap). -/
def int_succ (j : Int) : Int := if j = 2147483647 then -2147483648 else j + 1

/-! ## Text and the conversions of the formatter -/

def NUL : Char := Char.ofNat 0

def NL : Char := Char.ofNat 10

/-- A character buffer read as a C string: everything before the first NUL. -/
def cstr (m : List Char) : List Char := m.takeWhile (fun c => decide (c ≠ NUL))

/-- One lowercase hexadecimal digit. -/
def hexDigit (d : Nat) : Char :=
  if d < 10 then Char.ofNat (48 + d) else Char.ofNat (87 + d)

/-- Digits of `v` in `base`, least significant first, at least one digit. -/
def digitsRev (base : Nat) : Nat → Nat → List Nat
  | 0, _ => []
  | fuel + 1, v =>
    if v < base then [v] else (v % base) :: digitsRev base fuel (v / base)

/-- Left padding with `0` up to `width` characters. -/
def zeroPad (width : Nat) (ds : List Char) : List Char :=
  List.replicate (width - ds.length) '0' ++ ds

/-- Directive `%0<width>x` (`width = 0` for plain `%x`). -/
def fmt_x (width v : Nat) : List Char :=
  zeroPad width ((digitsRev 16 (v + 1) v).reverse.map hexDigit)

/-- Directive `%u`. -/
def fmt_u (v : Nat) : List Char := (digitsRev 10 (v + 1) v).reverse.map hexDigit

/-- Directive `%d`. -/
def fmt_d (v : Int) : List Char :=
  if v < 0 then '-' :: fmt_u v.natAbs else fmt_u v.toNat

/-! ## The scratch buffer and the bounded formatter -/

def DEBUG_BUF_SIZE : Nat := 512

/-- An uninitialised local buffer of `size` characters holding `junk`. -/
def stack_buf (junk : List Char) (size : Nat) : List Char :=
  (junk ++ List.replicate size NUL).take size

/-- Record of one call of the bounded formatter: offset into the buffer,
capacity handed over, length of the text the template expands to. -/
structure FmtCall where
  off : Nat
  cap : Nat
  len : Nat
deriving DecidableEq, Repr

/-- Index of the last character (the terminator) a formatter call stores. -/
def FmtCall.last (c : FmtCall) : Nat := c.off + min c.len (c.cap - 1)

/-- What a formatter leaves behind: the formatter calls it made and the units
it rendered, both in order. -/
structure Rendered where
  calls : List FmtCall
  lines : List (List Char)
deriving DecidableEq, Repr

def Rendered.nothing : Rendered := ⟨[], []⟩

def Rendered.append (a b : Rendered) : Rendered :=
  ⟨a.calls ++ b.calls, a.lines ++ b.lines⟩

/-- Memory store of `bytes` at offset `off` of `m`. -/
def store (m : List Char) (off : Nat) (bytes : List Char) : List Char :=
  m.take off ++ bytes ++ m.drop (off + bytes.length)

/-- Modelled from the spec: the macro `ttls_snprintf` is declared outside
`debug.c`.  Given the expanded text it stores at most `cap - 1` characters and
a terminator at `buf`, and returns the number of characters stored (terminator
excluded); with `cap = 0` it stores nothing. -/
def bounded_fmt (buf : List Char) (cap : Nat) (text : List Char) : List Char × Nat :=
  if cap = 0 then (buf, 0)
  else (store buf 0 (text.take (cap - 1) ++ [NUL]), (text.take (cap - 1)).length)

/-- A local scratch buffer `str` together with the log of what was done. -/
structure Scratch where
  str : List Char
  calls : List FmtCall
  lines : List (List Char)
deriving DecidableEq, Repr

/-- Call `ttls_snprintf(str + off, sizeof(str) - off, ...)` on a buffer of
`size` characters, where the template expands to `text`. -/
def Scratch.snprintf (s : Scratch) (size off : Nat) (text : List Char) : Scratch × Nat :=
  let cap := size_sub size off
  let r := bounded_fmt (s.str.drop off) cap text
  ({ s with str := s.str.take off ++ r.1,
            calls := s.calls ++ [FmtCall.mk off cap text.length] }, r.2)

/-- The buffer holds a finished unit: it goes to the sink as a C string. -/
def Scratch.unit_done (s : Scratch) : Scratch :=
  { s with lines := s.lines ++ [cstr s.str] }

def Scratch.rendered (s : Scratch) : Rendered := ⟨s.calls, s.lines⟩

/-! ## The verbosity gate -/

/-- The file-scope variable `debug_threshold`, initially `0`. -/
structure Globals where
  debug_threshold : Int
deriving DecidableEq, Repr

def Globals.init : Globals := ⟨0⟩

def ttls_debug_set_threshold (_g : Globals) (threshold : Int) : Globals :=
  ⟨threshold⟩

/-- The session as the formatters see it: `conf` is `none` for a session with
no config attached. -/
structure ttls_context where
  conf : Option Unit
deriving DecidableEq, Repr

/-! ## ttls_debug_print_msg -/

/-- The tail of `ttls_debug_print_msg`: with `ret` the result of `vsnprintf`,
a newline and a terminator are stored when `0 <= ret < DEBUG_BUF_SIZE - 1`. -/
def msg_finish (str : List Char) (ret : Int) : List Char :=
  if 0 ≤ ret ∧ ret < (DEBUG_BUF_SIZE : Int) - 1 then
    (str.set ret.toNat NL).set (ret.toNat + 1) NUL
  else str

def ttls_debug_print_msg (g : Globals) (ssl : Option ttls_context) (level : Int)
    (text : List Char) (junk : List Char) : Rendered :=
  match ssl with
  | none => Rendered.nothing
  | some ssl =>
    if ssl.conf = none ∨ level > g.debug_threshold then Rendered.nothing
    else
      let s : Scratch := ⟨stack_buf junk DEBUG_BUF_SIZE, [], []⟩
      let r := bounded_fmt s.str DEBUG_BUF_SIZE text
      let s := { s with str := msg_finish r.1 r.2,
                        calls := s.calls ++ [FmtCall.mk 0 DEBUG_BUF_SIZE text.length] }
      s.unit_done.rendered

/-! ## ttls_debug_print_ret -/

/-- Template `"%s() returned %d (-0x%04x)\n"`. -/
def ret_text (text : List Char) (ret : Int) : List Char :=
  cstr text ++ "() returned ".toList ++ fmt_d ret ++ " (-0x".toList
    ++ fmt_x 4 (int_to_uint (-ret)) ++ ")\n".toList

/-- The constant `TTLS_ERR_WANT_READ` is declared outside `debug.c`; it is the
parameter `want_read`. -/
def ttls_debug_print_ret (g : Globals) (want_read : Int) (ssl : ttls_context)
    (level : Int) (text : List Char) (ret : Int) (junk : List Char) : Rendered :=
  if ssl.conf = none ∨ level > g.debug_threshold then Rendered.nothing
  else if ret = want_read then Rendered.nothing
  else
    let s : Scratch := ⟨stack_buf junk DEBUG_BUF_SIZE, [], []⟩
    let s := (s.snprintf DEBUG_BUF_SIZE 0 (ret_text text ret)).1
    s.unit_done.rendered

/-! ## ttls_debug_print_buf -/

/-- State of the loops of `ttls_debug_print_buf`. -/
structure BufSt where
  s : Scratch
  txt : List Char
  idx : Nat
deriving DecidableEq, Repr

/-- Template `"dumping '%s' (%u bytes)\n"`. -/
def buf_header (text : List Char) (len : Nat) : List Char :=
  "dumping '".toList ++ cstr text ++ "' (".toList ++ fmt_u (to_uint len)
    ++ " bytes)\n".toList

/-- Template `"  %s\n"` applied to `txt`. -/
def buf_gutter (txt : List Char) : List Char :=
  "  ".toList ++ cstr txt ++ "\n".toList

/-- The character stored in `txt` for the byte `b`. -/
def ascii (b : Nat) : Char := if 31 < b ∧ b < 127 then Char.ofNat b else '.'

/-- Statement `memset(txt, 0, sizeof(txt))`. -/
def txt_clear : List Char := List.replicate 17 NUL

/-- Finish a row: `"  %s\n"`, then `idx = 0` and `txt` cleared. -/
def buf_row_end (st : BufSt) : BufSt :=
  let s := (st.s.snprintf DEBUG_BUF_SIZE st.idx (buf_gutter st.txt)).1
  { s := s.unit_done, txt := txt_clear, idx := 0 }

/-- Body of the main loop for index `i` and byte `b = buf[i]`. -/
def buf_step (i b : Nat) (st : BufSt) : BufSt :=
  let st :=
    if i % 16 = 0 then
      let st := if i > 0 then buf_row_end st else st
      let r := st.s.snprintf DEBUG_BUF_SIZE st.idx (fmt_x 4 (to_uint i) ++ ": ".toList)
      { st with s := r.1, idx := st.idx + r.2 }
    else st
  let r := st.s.snprintf DEBUG_BUF_SIZE st.idx (' ' :: fmt_x 2 b)
  { s := r.1, txt := st.txt.set (i % 16) (ascii b), idx := st.idx + r.2 }

/-- Loop `for (i = 0; i < len; i++) { if (i >= 4096) break; ... }`, started
at `i`; `fuel` bounds the number of iterations.  The result is the state and
the final value of `i`, or `none` when `buf[i]` is not readable. -/
def buf_loop (buf : List Nat) (len : Nat) : Nat → Nat → BufSt → Option (BufSt × Nat)
  | 0, i, st => some (st, i)
  | fuel + 1, i, st =>
    if ¬ i < len then some (st, i)
    else if i ≥ 4096 then some (st, i)
    else
      match buf[i]? with
      | none => none
      | some b => buf_loop buf len fuel (i + 1) (buf_step i b st)

/-- Loop `for (; i % 16 != 0; i++) idx += ttls_snprintf(..., "   ")`. -/
def buf_pad : Nat → Nat → BufSt → BufSt
  | 0, _, st => st
  | fuel + 1, i, st =>
    if i % 16 = 0 then st
    else
      let r := st.s.snprintf DEBUG_BUF_SIZE st.idx "   ".toList
      buf_pad fuel (i + 1) { st with s := r.1, idx := st.idx + r.2 }

/-- The body of `ttls_debug_print_buf` behind the gate.  `buf` is the memory
readable at the pointer, `len` the length argument; the result is `none` when
a byte outside `buf` is read. -/
def buf_render (text : List Char) (buf : List Nat) (len : Nat) (junk : List Char) :
    Option Rendered :=
  let s : Scratch := ⟨stack_buf junk DEBUG_BUF_SIZE, [], []⟩
  let s := (s.snprintf DEBUG_BUF_SIZE 0 (buf_header text len)).1.unit_done
  match buf_loop buf len len 0 ⟨s, txt_clear, 0⟩ with
  | none => none
  | some (st, i) =>
    if len > 0 then
      some (buf_row_end (buf_pad 16 i st)).s.rendered
    else some st.s.rendered

/-- Formatter `ttls_debug_print_buf`. -/
def ttls_debug_print_buf (g : Globals) (ssl : ttls_context) (level : Int)
    (text : List Char) (buf : List Nat) (len : Nat) (junk : List Char) : Option Rendered :=
  if ssl.conf = none ∨ level > g.debug_threshold then some Rendered.nothing
  else buf_render text buf len junk

/-! ## ttls_debug_print_mpi -/

/-- A big integer: sign `s`, declared limb count `n`, limb memory `p` (least
significant limb first). -/
structure ttls_mpi where
  s : Int
  n : Nat
  p : List Nat
deriving DecidableEq, Repr

/-- Read of `X->p[i]`; `none` when `i` is not below the declared limb count
(or the limb is not in memory). -/
def ttls_mpi.limb (X : ttls_mpi) (i : Nat) : Option Nat :=
  if i < X.n then X.p[i]? else none

/-- Loop `for (n = ...; n > 0; n--) if (X->p[n] != 0) break;` started at `n`;
the result is the final `n`. -/
def mpi_top (X : ttls_mpi) : Nat → Option Nat
  | 0 => some 0
  | n + 1 =>
    match X.limb (n + 1) with
    | none => none
    | some v => if v ≠ 0 then some (n + 1) else mpi_top X n

/-- Loop `for (j = ...; j >= 0; j--) if (((X->p[n] >> j) & 1) != 0) break;`
started at `j = k - 1`; the result is the final `j` (`-1` when no bit is set). -/
def mpi_msb (X : ttls_mpi) (n : Nat) : Nat → Option Int
  | 0 => some (-1)
  | k + 1 =>
    match X.limb n with
    | none => none
    | some v => if (v >>> k) &&& 1 ≠ 0 then some (k : Int) else mpi_msb X n k

/-- The header argument `(int) ((n * (sizeof(ttls_mpi_uint) << 3)) + j + 1)`. -/
def mpi_bits (ciL n : Nat) (j : Int) : Int :=
  to_int ((n * (ciL <<< 3) + int_to_size j + 1) % SIZE_MOD)

/-- Template `"value of '%s' (%d bits) is:\n"`. -/
def mpi_header (text : List Char) (bits : Int) : List Char :=
  "value of '".toList ++ cstr text ++ "' (".toList ++ fmt_d bits
    ++ " bits) is:\n".toList

/-- State of the rendering loops of `ttls_debug_print_mpi`; `j` is the `int`
that counts the rendered bytes. -/
structure MpiSt where
  s : Scratch
  idx : Nat
  j : Int
  zeros : Bool
deriving DecidableEq, Repr

/-- Loop `for (k = sizeof(ttls_mpi_uint) - 1; k >= 0; k--)` over the bytes of
the limb `v`, started at `k - 1`.  The test `j % 16 == 0` asks whether 16
divides `j`, which the remainder of C and `%` on `Int` answer alike. -/
def mpi_bytes (v : Nat) : Nat → MpiSt → MpiSt
  | 0, st => st
  | k + 1, st =>
    if st.zeros = true ∧ (v >>> (k <<< 3)) &&& 0xFF = 0 then mpi_bytes v k st
    else
      let st : MpiSt := { st with zeros := false }
      let st : MpiSt :=
        if st.j % 16 = 0 ∧ st.j > 0 then
          let s := (st.s.snprintf DEBUG_BUF_SIZE st.idx "\n".toList).1
          { st with s := s.unit_done, idx := 0 }
        else st
      let r := st.s.snprintf DEBUG_BUF_SIZE st.idx
        (' ' :: fmt_x 2 (to_uint (v >>> (k <<< 3)) &&& 0xFF))
      mpi_bytes v k { st with s := r.1, idx := st.idx + r.2, j := int_succ st.j }

/-- Loop `for (i = n + 1, j = 0; i > 0; i--)` over the limbs, started at `i`. -/
def mpi_limbs (ciL : Nat) (X : ttls_mpi) : Nat → MpiSt → Option MpiSt
  | 0, st => some st
  | i + 1, st =>
    match X.limb i with
    | none => none
    | some v =>
      if st.zeros = true ∧ v = 0 then mpi_limbs ciL X i st
      else mpi_limbs ciL X i (mpi_bytes v ciL st)

/-- The end of `ttls_debug_print_mpi` after the limb loop: `" 00"` when no
byte was rendered, then the last newline. -/
def mpi_finish (st : MpiSt) : Rendered :=
  let st :=
    if st.zeros = true then
      let r := st.s.snprintf DEBUG_BUF_SIZE st.idx " 00".toList
      { st with s := r.1, idx := st.idx + r.2 }
    else st
  (st.s.snprintf DEBUG_BUF_SIZE st.idx "\n".toList).1.unit_done.rendered

/-- The body of `ttls_debug_print_mpi` behind the gate.  `ciL` is
`sizeof(ttls_mpi_uint)`, which is declared outside `debug.c`.  The result is
`none` when a limb outside the declared limb count is read. -/
def mpi_render (ciL : Nat) (text : List Char) (X : ttls_mpi) (junk : List Char) :
    Option Rendered :=
  match mpi_top X (size_sub X.n 1) with
  | none => none
  | some n =>
    match mpi_msb X n (ciL <<< 3) with
    | none => none
    | some j =>
      let s : Scratch := ⟨stack_buf junk DEBUG_BUF_SIZE, [], []⟩
      let s := (s.snprintf DEBUG_BUF_SIZE 0
        (mpi_header text (mpi_bits ciL n j))).1.unit_done
      match mpi_limbs ciL X (n + 1) ⟨s, 0, 0, true⟩ with
      | none => none
      | some st => some (mpi_finish st)

/-- Formatter `ttls_debug_print_mpi`; `X = none` is the NULL pointer. -/
def ttls_debug_print_mpi (g : Globals) (ciL : Nat) (ssl : ttls_context) (level : Int)
    (text : List Char) (X : Option ttls_mpi) (junk : List Char) : Option Rendered :=
  match X with
  | none => some Rendered.nothing
  | some X =>
    if ssl.conf = none ∨ level > g.debug_threshold then some Rendered.nothing
    else mpi_render ciL text X junk

/-! ## ttls_debug_print_ecp -/

structure ttls_ecp_point where
  X : ttls_mpi
  Y : ttls_mpi
deriving DecidableEq, Repr

/-- Formatter `ttls_debug_print_ecp`: the label is formatted into the local
`str` and passed on, once for each coordinate. -/
def ttls_debug_print_ecp (g : Globals) (ciL : Nat) (ssl : ttls_context) (level : Int)
    (text : List Char) (P : ttls_ecp_point) (junk : List Char) : Option Rendered :=
  if ssl.conf = none ∨ level > g.debug_threshold then some Rendered.nothing
  else
    let s : Scratch := ⟨stack_buf junk DEBUG_BUF_SIZE, [], []⟩
    let sx := (s.snprintf DEBUG_BUF_SIZE 0 (cstr text ++ "(X)".toList)).1
    match ttls_debug_print_mpi g ciL ssl level sx.str (some P.X) junk with
    | none => none
    | some rx =>
      let s : Scratch := ⟨sx.str, [], []⟩
      let sy := (s.snprintf DEBUG_BUF_SIZE 0 (cstr text ++ "(Y)".toList)).1
      match ttls_debug_print_mpi g ciL ssl level sy.str (some P.Y) junk with
      | none => none
      | some ry => some (((sx.rendered.append rx).append sy.rendered).append ry)

/-! ## debug_print_pk -/

/-- One entry of the array filled by `ttls_pk_debug`: the `type` tag with the
`name` and the `value` it announces.  `none` is `TTLS_PK_DEBUG_NONE`, which is
also what a slot zeroed by `memset` holds; `other` is any further kind. -/
inductive ttls_pk_debug_item where
  | none
  | mpi (name : List Char) (value : Option ttls_mpi)
  | ecp (name : List Char) (value : ttls_ecp_point)
  | other (kind : Nat) (name : List Char)
deriving DecidableEq, Repr

/-- The key object as `debug_print_pk` sees it: what `ttls_pk_debug` returns
and the items it writes. -/
structure ttls_pk_context where
  debug_ret : Int
  debug_items : List ttls_pk_debug_item
deriving DecidableEq, Repr

def ttls_pk_debug_item.name_of : ttls_pk_debug_item → List Char
  | .none => []
  | .mpi name _ => name
  | .ecp name _ => name
  | .other _ name => name

/-- The array `items` after `memset` and `ttls_pk_debug`; `max_items` is
`TTLS_PK_DEBUG_MAX_ITEMS`, declared outside `debug.c`. -/
def pk_items (max_items : Nat) (pk : ttls_pk_context) : List ttls_pk_debug_item :=
  (pk.debug_items ++ List.replicate max_items ttls_pk_debug_item.none).take max_items

/-- The buffer `name` after `ttls_snprintf(name, sizeof(name), "%s%s", ...)` and
`name[sizeof(name) - 1] = 0`, with the logged call. -/
def pk_name (text : List Char) (item : ttls_pk_debug_item) (junk : List Char) : Scratch :=
  let s : Scratch := ⟨stack_buf junk 16, [], []⟩
  let s := (s.snprintf 16 0 (cstr text ++ cstr item.name_of)).1
  { s with str := s.str.set 15 NUL }

/-- Loop `for (i = 0; i < TTLS_PK_DEBUG_MAX_ITEMS; i++)` over the array. -/
def pk_loop (g : Globals) (ciL : Nat) (ssl : ttls_context) (level : Int)
    (text : List Char) (junk : List Char) :
    List ttls_pk_debug_item → Rendered → Option Rendered
  | [], acc => some acc
  | item :: rest, acc =>
    match item with
    | .none => some acc
    | .mpi _ X =>
      let nm := pk_name text item junk
      match ttls_debug_print_mpi g ciL ssl level nm.str X junk with
      | none => none
      | some r => pk_loop g ciL ssl level text junk rest ((acc.append nm.rendered).append r)
    | .ecp _ P =>
      let nm := pk_name text item junk
      match ttls_debug_print_ecp g ciL ssl level nm.str P junk with
      | none => none
      | some r => pk_loop g ciL ssl level text junk rest ((acc.append nm.rendered).append r)
    | .other _ _ =>
      let nm := pk_name text item junk
      pk_loop g ciL ssl level text junk rest (acc.append nm.rendered)

def debug_print_pk (g : Globals) (ciL max_items : Nat) (ssl : ttls_context) (level : Int)
    (text : List Char) (pk : ttls_pk_context) (junk : List Char) : Option Rendered :=
  if pk.debug_ret ≠ 0 then some Rendered.nothing
  else pk_loop g ciL ssl level text junk (pk_items max_items pk) Rendered.nothing

/-! ## debug_print_line_by_line -/

/-- Loop `for (cur = text; *cur != 0; cur++)`: `rest` is the text from `cur`
on, `cur` and `start` are offsets into `text`.  Each copy into `str` is logged
as a store of `len` characters at offset `0`. -/
def line_loop (text : List Char) : List Char → Nat → Nat → Scratch → Scratch
  | [], _, _, s => s
  | c :: rest, cur, start, s =>
    if c = NL then
      let len := cur - start + 1
      let len := if len > DEBUG_BUF_SIZE - 1 then DEBUG_BUF_SIZE - 1 else len
      let s := { s with str := (store s.str 0 ((text.drop start).take len)).set len NUL,
                        calls := s.calls ++ [FmtCall.mk 0 DEBUG_BUF_SIZE len] }
      line_loop text rest (cur + 1) (cur + 1) s.unit_done
    else line_loop text rest (cur + 1) start s

def debug_print_line_by_line (text : List Char) (junk : List Char) : Rendered :=
  let s : Scratch := ⟨stack_buf junk DEBUG_BUF_SIZE, [], []⟩
  (line_loop (cstr text) (cstr text) 0 0 s).rendered

/-! ## ttls_debug_print_crt -/

/-- A certificate of the chain: `info` is the text `ttls_x509_crt_info`
produces for it, `pk` its key object.  The chain linked by `next` is the list
of its certificates; the NULL head is the empty list. -/
structure ttls_x509_crt where
  info : List Char
  pk : ttls_pk_context
deriving DecidableEq, Repr

/-- Modelled from the spec: `ttls_x509_crt_info` is declared outside `debug.c`.
Given the summary `info` of the certificate it stores at most `size - 1`
characters of it and a terminator at `buf`, and returns the number of
characters stored. -/
def ttls_x509_crt_info (buf : List Char) (size : Nat) (info : List Char) : List Char × Nat :=
  bounded_fmt buf size info

/-- Loop `while (crt != NULL)`; `i` is the counter before `++i`. -/
def crt_loop (g : Globals) (ciL max_items : Nat) (ssl : ttls_context) (level : Int)
    (text : List Char) (junk : List Char) :
    List ttls_x509_crt → Int → Scratch → Option Rendered
  | [], _, s => some s.rendered
  | crt :: next, i, s =>
    let s := (s.snprintf 1024 0
      (cstr text ++ " #".toList ++ fmt_d (i + 1) ++ ":\n".toList)).1.unit_done
    let r := ttls_x509_crt_info s.str (1024 - 1) crt.info
    let s := { s with str := r.1, calls := s.calls ++ [FmtCall.mk 0 (1024 - 1) crt.info.length] }
    let lines := debug_print_line_by_line s.str junk
    match debug_print_pk g ciL max_items ssl level "crt->".toList crt.pk junk with
    | none => none
    | some keys =>
      match crt_loop g ciL max_items ssl level text junk next (i + 1) ⟨s.str, [], []⟩ with
      | none => none
      | some more => some (((s.rendered.append lines).append keys).append more)

/-- Formatter `ttls_debug_print_crt`; the chain `[]` is the NULL head. -/
def ttls_debug_print_crt (g : Globals) (ciL max_items : Nat) (ssl : ttls_context)
    (level : Int) (text : List Char) (crt : List ttls_x509_crt) (junk : List Char) :
    Option Rendered :=
  if ssl.conf = none ∨ crt = [] ∨ level > g.debug_threshold then some Rendered.nothing
  else crt_loop g ciL max_items ssl level text junk crt 0 ⟨stack_buf junk 1024, [], []⟩

/-! ## The expected output, stated on lists of bytes -/

/-- The hex columns of a list of bytes: each byte as a blank and two digits. -/
def hexes : List Nat → List Char
  | [] => []
  | b :: bs => ' ' :: fmt_x 2 b ++ hexes bs

/-- The data row of `ttls_debug_print_buf` for the bytes `chunk` at offset
`off`: offset, hex columns, padding of the missing columns, gutter. -/
def row_text (off : Nat) (chunk : List Nat) : List Char :=
  fmt_x 4 off ++ ": ".toList ++ hexes chunk
    ++ List.replicate (3 * (16 - chunk.length)) ' '
    ++ "  ".toList ++ chunk.map ascii ++ "\n".toList

/-- The bytes of row `r` of a dump of `bs`. -/
def chunk16 (bs : List Nat) (r : Nat) : List Nat := (bs.drop (16 * r)).take 16

/-- All data rows of a dump of the bytes `bs`, sixteen bytes a row. -/
def buf_rows (bs : List Nat) : List (List Char) :=
  (List.range ((bs.length + 15) / 16)).map (fun r => row_text (16 * r) (chunk16 bs r))

/-- Value of a hexadecimal digit character. -/
def hexVal (c : Char) : Option Nat :=
  if 48 ≤ c.toNat ∧ c.toNat ≤ 57 then some (c.toNat - 48)
  else if 97 ≤ c.toNat ∧ c.toNat ≤ 102 then some (c.toNat - 87)
  else none

/-- Reading three-character columns: a column holding two hex digits after
its first character is a byte, any other column is skipped. -/
def parse_cols : List Char → List Nat
  | _ :: a :: b :: rest =>
    match hexVal a, hexVal b with
    | some x, some y => (16 * x + y) :: parse_cols rest
    | _, _ => parse_cols rest
  | _ => []

/-- The bytes read back from the sixteen hex columns of a data row, which
start after the six characters of the offset. -/
def row_bytes (row : List Char) : List Nat := parse_cols ((row.drop 6).take 48)

/-! ## Invariants of the rendering loops -/

/-- Text of the unfinished row in the scratch buffer of `ttls_debug_print_buf`
when `i` bytes have been processed: row `q` with the bytes `cur`. -/
def row_pre (i q : Nat) (cur : List Nat) : List Char :=
  if i = 0 then [] else fmt_x 4 (16 * q) ++ ": ".toList ++ hexes cur

/-- Every logged formatter call starts at an offset of at most `bound`, is
given the capacity left behind that offset and asks for less than it. -/
def calls_ok (bound : Nat) (cs : List FmtCall) : Prop :=
  ∀ c ∈ cs, c.off ≤ bound ∧ c.cap = DEBUG_BUF_SIZE - c.off ∧ c.len < c.cap

/-- State of `ttls_debug_print_buf` before byte `i` of `bs` is processed:
`hdr` is the header unit, `c0` the header call. -/
structure BufInv (hdr : List Char) (c0 : FmtCall) (bs : List Nat) (i : Nat)
    (st : BufSt) : Prop where
  lines : st.s.lines =
    hdr :: (List.range ((i - 1) / 16)).map (fun r => row_text (16 * r) (chunk16 bs r))
  calls : ∃ cs, st.s.calls = c0 :: cs ∧ calls_ok 54 cs
  str : ∃ rest, st.s.str =
    row_pre i ((i - 1) / 16) ((bs.take i).drop (16 * ((i - 1) / 16))) ++ rest
  len : st.s.str.length = DEBUG_BUF_SIZE
  idx : st.idx = (row_pre i ((i - 1) / 16) ((bs.take i).drop (16 * ((i - 1) / 16)))).length
  txt : st.txt = ((bs.take i).drop (16 * ((i - 1) / 16))).map ascii
    ++ List.replicate (17 - ((bs.take i).drop (16 * ((i - 1) / 16))).length) NUL

/-- The part of the loop body of `ttls_debug_print_buf` that opens a row: the
offset column and the first byte. -/
def buf_open (i b : Nat) (st : BufSt) : BufSt :=
  let r := st.s.snprintf DEBUG_BUF_SIZE st.idx (fmt_x 4 (to_uint i) ++ ": ".toList)
  let st : BufSt := { st with s := r.1, idx := st.idx + r.2 }
  let r := st.s.snprintf DEBUG_BUF_SIZE st.idx (' ' :: fmt_x 2 b)
  { s := r.1, txt := st.txt.set (i % 16) (ascii b), idx := st.idx + r.2 }

/-- Byte `k` of the limb `v`, as `ttls_debug_print_mpi` extracts it. -/
def byte_at (v k : Nat) : Nat := (v >>> (k <<< 3)) &&& 0xFF

/-- The bytes `k - 1, ..., 0` of the limb `v`: most significant first. -/
def limb_be (v : Nat) : Nat → List Nat
  | 0 => []
  | k + 1 => byte_at v k :: limb_be v k

/-- The bytes of a list of limbs (least significant limb first), most
significant byte first; `ciL` is the limb size in bytes. -/
def limbs_be (ciL : Nat) : List Nat → List Nat
  | [] => []
  | v :: rest => limbs_be ciL rest ++ limb_be v ciL

/-- Bytes still to be rendered: leading zero bytes are dropped while the flag
`zeros` is set. -/
def pending (zeros : Bool) (bs : List Nat) : List Nat :=
  if zeros = true then bs.dropWhile (fun b => decide (b = 0)) else bs

/-- The part of the inner loop body of `ttls_debug_print_mpi` that renders one
byte `b`. -/
def mpi_emit (st : MpiSt) (b : Nat) : MpiSt :=
  let st : MpiSt := { st with zeros := false }
  let st : MpiSt :=
    if st.j % 16 = 0 ∧ st.j > 0 then
      let s := (st.s.snprintf DEBUG_BUF_SIZE st.idx "\n".toList).1
      { st with s := s.unit_done, idx := 0 }
    else st
  let r := st.s.snprintf DEBUG_BUF_SIZE st.idx (' ' :: fmt_x 2 b)
  { st with s := r.1, idx := st.idx + r.2, j := int_succ st.j }

/-- The body lines of a dump of the bytes `bs`, sixteen bytes a line. -/
def mpi_rows (bs : List Nat) : List (List Char) :=
  (List.range ((bs.length + 15) / 16)).map (fun r => hexes (chunk16 bs r) ++ "\n".toList)

/-- The bytes `ttls_debug_print_mpi` renders for the limbs `p`: the bytes of
the limbs without leading zero bytes, and one zero byte when nothing is left. -/
def mpi_dump_bytes (ciL : Nat) (p : List Nat) : List Nat :=
  if pending true (limbs_be ciL p) = [] then [0] else pending true (limbs_be ciL p)

/-- The numeric value of a big integer with limbs of `ciL` bytes. -/
def mpi_value (ciL : Nat) (X : ttls_mpi) : Nat :=
  Nat.ofDigits (2 ^ (8 * ciL)) (X.p.take X.n)

/-- A big integer whose limb memory matches its declared limb count and whose
limbs fit in `ciL` bytes. -/
def mpi_wf (ciL : Nat) (X : ttls_mpi) : Prop :=
  1 ≤ X.n ∧ X.p.length = X.n ∧ X.n < SIZE_MOD ∧ ∀ v ∈ X.p, v < 2 ^ (8 * ciL)

/-- State of `ttls_debug_print_mpi` when `m` bytes of `bs` have been rendered
in lines of sixteen: `hdr` is the header unit, `c0` the header call. -/
structure MpiInv (hdr : List Char) (c0 : FmtCall) (bs : List Nat) (m : Nat)
    (st : MpiSt) : Prop where
  lines : st.s.lines =
    hdr :: (List.range ((m - 1) / 16)).map (fun r => hexes (chunk16 bs r) ++ "\n".toList)
  calls : ∃ cs, st.s.calls = c0 :: cs ∧ calls_ok 48 cs
  str : ∃ rest, st.s.str = hexes ((bs.take m).drop (16 * ((m - 1) / 16))) ++ rest
  len : st.s.str.length = DEBUG_BUF_SIZE
  idx : st.idx = (hexes ((bs.take m).drop (16 * ((m - 1) / 16)))).length

/-- State of `ttls_debug_print_mpi` when the header declaring `bits` has been
formatted and handed over, before the limb loop. -/
def mpi_start (text junk : List Char) (bits : Int) : MpiSt :=
  ⟨((⟨stack_buf junk DEBUG_BUF_SIZE, [], []⟩ : Scratch).snprintf DEBUG_BUF_SIZE 0
    (mpi_header text bits)).1.unit_done, 0, 0, true⟩

/-- Position of the highest set bit of `v` below position `k`; `-1` when no
bit below `k` is set. -/
def top_bit (k v : Nat) : Int :=
  if v % 2 ^ k = 0 then -1 else ((Nat.log 2 (v % 2 ^ k) : Nat) : Int)

/-- Discipline of the scratch buffer over a whole dump: every formatter call
starts at an offset of at most `bound` with the capacity left behind it and
stores nothing at index `DEBUG_BUF_SIZE` or above, no call after the header
call is cut short, and every unit ends before the end of the buffer. -/
def scratch_ok (bound : Nat) (r : Rendered) : Prop :=
  (∀ c ∈ r.calls, c.off ≤ bound ∧ c.cap = DEBUG_BUF_SIZE - c.off ∧ c.last < DEBUG_BUF_SIZE) ∧
  (∀ c ∈ r.calls.tail, c.len < c.cap) ∧
  (∀ l ∈ r.lines, l.length < DEBUG_BUF_SIZE)

/-! ## The expected key-material dump, stated from the items -/

/-- The label of an item: the label of the caller followed by the name of the
item, cut to the fifteen characters the name buffer holds. -/
def pk_label (text : List Char) (item : ttls_pk_debug_item) : List Char :=
  (cstr text ++ cstr item.name_of).take 15

/-- The units expected for one item: a big integer as `ttls_debug_print_mpi`
renders it, an EC point as `ttls_debug_print_ecp` renders it, both under the
label of the item; nothing for an item of another kind. -/
def pk_item_dump (g : Globals) (ciL : Nat) (ssl : ttls_context) (level : Int)
    (text : List Char) (junk : List Char) (item : ttls_pk_debug_item) :
    Option (List (List Char)) :=
  match item with
  | .mpi _ X =>
    (ttls_debug_print_mpi g ciL ssl level (pk_label text item) X junk).map Rendered.lines
  | .ecp _ P =>
    (ttls_debug_print_ecp g ciL ssl level (pk_label text item) P junk).map Rendered.lines
  | _ => some []

/-- The dumps of a list of items, one after the other. -/
def pk_dump_seq (g : Globals) (ciL : Nat) (ssl : ttls_context) (level : Int)
    (text : List Char) (junk : List Char) :
    List ttls_pk_debug_item → Option (List (List Char))
  | [] => some []
  | item :: rest =>
    match pk_item_dump g ciL ssl level text junk item,
      pk_dump_seq g ciL ssl level text junk rest with
    | some a, some b => some (a ++ b)
    | _, _ => none

/-- The units expected of `debug_print_pk`: nothing when the enumeration
fails, else the dumps of the items before the first terminator among the
first `max_items` items. -/
def pk_dump_expected (g : Globals) (ciL max_items : Nat) (ssl : ttls_context)
    (level : Int) (text : List Char) (pk : ttls_pk_context) (junk : List Char) :
    Option (List (List Char)) :=
  if pk.debug_ret ≠ 0 then some []
  else pk_dump_seq g ciL ssl level text junk
    ((pk.debug_items.take max_items).takeWhile
      (fun item => decide (item ≠ ttls_pk_debug_item.none)))

/-- The units expected of `ttls_debug_print_ecp`: the units of
`ttls_debug_print_mpi` for the coordinate `X` under the label followed by
`"(X)"`, then those for the coordinate `Y` under the label followed by `"(Y)"`. -/
def ecp_expected (g : Globals) (ciL : Nat) (ssl : ttls_context) (level : Int)
    (text : List Char) (P : ttls_ecp_point) (junk : List Char) :
    Option (List (List Char)) :=
  match ttls_debug_print_mpi g ciL ssl level (cstr text ++ "(X)".toList) (some P.X) junk,
    ttls_debug_print_mpi g ciL ssl level (cstr text ++ "(Y)".toList) (some P.Y) junk with
  | some a, some b => some (a.lines ++ b.lines)
  | _, _ => none

/-! ## The expected units of the line splitter, stated from the positions -/

/-- The positions of the newline characters of a text, in order; `i` is the
position of the first character of the text. -/
def nl_positions : List Char → Nat → List Nat
  | [], _ => []
  | c :: rest, i => if c = NL then i :: nl_positions rest (i + 1) else nl_positions rest (i + 1)

/-- The units for the newlines at the positions `ps` of the text `t`, where
`s` is the position just after the previous newline: the first
`min (p - s + 1) 511` characters of the text from `s`. -/
def units_from (t : List Char) : List Nat → Nat → List (List Char)
  | [], _ => []
  | p :: ps, s => (t.drop s).take (min (p - s + 1) (DEBUG_BUF_SIZE - 1)) :: units_from t ps (p + 1)

/-- The units expected of the line splitter for the text `t`. -/
def line_units (t : List Char) : List (List Char) := units_from t (nl_positions t 0) 0

/-! ## The expected units of the certificate chain dump -/

/-- The row form `"<offset:04x>: <b0> <b1> ... <b15>  <ascii>"` read to the
letter: offset, a colon and one blank, the bytes as two hex digits separated by
single blanks, two blanks, the gutter. -/
def row_as_claimed (off : Nat) (chunk : List Nat) : List Char :=
  fmt_x 4 off ++ ": ".toList ++ " ".toList.intercalate (chunk.map (fmt_x 2))
    ++ "  ".toList ++ chunk.map ascii

/-- The big integer `2 ^ (64 * m)` held in `m + 1` limbs of eight bytes: `m`
zero limbs below the limb `1`. -/
def mpi_pow_limbs (m : Nat) : ttls_mpi := ⟨1, m + 1, List.replicate m 0 ++ [1]⟩

/-! # Properties -/

/-! ## The gate is the first action of every entry point -/

/-- C1: for every threshold `T` installed by `ttls_debug_set_threshold`, every
level `L` and every session, if the session has no config attached or `L > T`
then `ttls_debug_print_msg`, `ttls_debug_print_ret`, `ttls_debug_print_buf`,
`ttls_debug_print_mpi`, `ttls_debug_print_ecp` and `ttls_debug_print_crt`
return without any formatter call, buffer store or rendered unit, whatever
their other arguments are. -/
theorem gate_closed_renders_nothing (g0 : Globals) (T L : Int) (ssl : ttls_context)
    (h : ssl.conf = none ∨ L > T) :
    (∀ text junk,
      ttls_debug_print_msg (ttls_debug_set_threshold g0 T) (some ssl) L text junk
        = Rendered.nothing) ∧
    (∀ want_read text ret junk,
      ttls_debug_print_ret (ttls_debug_set_threshold g0 T) want_read ssl L text ret junk
        = Rendered.nothing) ∧
    (∀ text buf len junk,
      ttls_debug_print_buf (ttls_debug_set_threshold g0 T) ssl L text buf len junk
        = some Rendered.nothing) ∧
    (∀ ciL text X junk,
      ttls_debug_print_mpi (ttls_debug_set_threshold g0 T) ciL ssl L text X junk
        = some Rendered.nothing) ∧
    (∀ ciL text P junk,
      ttls_debug_print_ecp (ttls_debug_set_threshold g0 T) ciL ssl L text P junk
        = some Rendered.nothing) ∧
    (∀ ciL max_items text crt junk,
      ttls_debug_print_crt (ttls_debug_set_threshold g0 T) ciL max_items ssl L text crt junk
        = some Rendered.nothing) := by
  have hg : ssl.conf = none ∨ L > (ttls_debug_set_threshold g0 T).debug_threshold := h
  refine ⟨?_, ?_, ?_, ?_, ?_, ?_⟩
  · intro text junk
    simp only [ttls_debug_print_msg, if_pos hg]
  · intro want_read text ret junk
    simp only [ttls_debug_print_ret, if_pos hg]
  · intro text buf len junk
    simp only [ttls_debug_print_buf, if_pos hg]
  · intro ciL text X junk
    cases X with
    | none => rfl
    | some X => exact if_pos hg
  · intro ciL text P junk
    simp only [ttls_debug_print_ecp, if_pos hg]
  · intro ciL max_items text crt junk
    have hc : ssl.conf = none ∨ crt = [] ∨
        L > (ttls_debug_set_threshold g0 T).debug_threshold := by
      rcases hg with h1 | h2
      · exact Or.inl h1
      · exact Or.inr (Or.inr h2)
    simp only [ttls_debug_print_crt, if_pos hc]

/-- C1 at a concrete session: threshold `2`, level `3`, config attached. -/
theorem gate_closed_renders_nothing_witness :
    ((⟨some ()⟩ : ttls_context).conf = none ∨ (3 : Int) > 2) ∧
    (∀ text buf len junk,
      ttls_debug_print_buf (ttls_debug_set_threshold Globals.init 2) ⟨some ()⟩ 3
        text buf len junk = some Rendered.nothing) :=
  ⟨Or.inr (by decide),
   (gate_closed_renders_nothing Globals.init 2 3 ⟨some ()⟩ (Or.inr (by decide))).2.2.1⟩

theorem size_sub_of_le {a b : Nat} (hb : b ≤ a) (ha : a < SIZE_MOD) : size_sub a b = a - b := by
  unfold size_sub
  rw [Nat.mod_eq_of_lt ha, Nat.mod_eq_of_lt (lt_of_le_of_lt hb ha), if_pos hb]

theorem cstr_append_nul (pre rest : List Char) (h : ∀ c ∈ pre, c ≠ NUL) :
    cstr (pre ++ NUL :: rest) = pre := by
  unfold cstr
  induction pre with
  | nil => simp
  | cons c t ih =>
    have hc : c ≠ NUL := h c (by simp)
    have ih2 := ih (fun x hx => h x (by simp [hx]))
    simp [List.takeWhile_cons, hc]
    simpa using ih2

theorem cstr_no_nul (m : List Char) : ∀ c ∈ cstr m, c ≠ NUL := by
  intro c hc
  have := List.mem_takeWhile_imp hc
  simpa using this

theorem snprintf_fits (s : Scratch) (size : Nat) (pre rest text : List Char)
    (hs : s.str = pre ++ rest) (hsz : size < SIZE_MOD)
    (hfit : pre.length + text.length < size) :
    s.snprintf size pre.length text =
      (⟨pre ++ text ++ NUL :: rest.drop (text.length + 1),
        s.calls ++ [FmtCall.mk pre.length (size - pre.length) text.length], s.lines⟩,
       text.length) := by
  have hcap : size_sub size pre.length = size - pre.length :=
    size_sub_of_le (by omega) hsz
  unfold Scratch.snprintf bounded_fmt store
  simp only [hcap, hs]
  have h0 : ¬ (size - pre.length = 0) := by omega
  have ht : List.take (size - pre.length - 1) text = text :=
    List.take_of_length_le (by omega)
  simp [h0, ht]

/-- A formatter call at offset `0` of a buffer of `size` characters. -/
theorem snprintf_head (s : Scratch) (size : Nat) (text : List Char)
    (hpos : 0 < size) (hsz : size < SIZE_MOD) :
    s.snprintf size 0 text =
      (⟨text.take (size - 1) ++ NUL :: s.str.drop ((text.take (size - 1)).length + 1),
        s.calls ++ [FmtCall.mk 0 size text.length], s.lines⟩,
       (text.take (size - 1)).length) := by
  have hcap : size_sub size 0 = size := size_sub_of_le (by omega) hsz
  unfold Scratch.snprintf bounded_fmt store
  simp only [hcap]
  have h0 : ¬ (size = 0) := by omega
  simp [h0]

theorem digitsRev_lt (base : Nat) (hb : 0 < base) (fuel v : Nat) :
    ∀ d ∈ digitsRev base fuel v, d < base := by
  induction fuel generalizing v with
  | zero => simp [digitsRev]
  | succ f ih =>
    intro d hd
    unfold digitsRev at hd
    split at hd
    · simp at hd; omega
    · simp at hd
      rcases hd with h | h
      · rw [h]; exact Nat.mod_lt _ hb
      · exact ih _ d h

theorem hexDigit_ne_nul (d : Nat) (h : d < 16) : hexDigit d ≠ NUL := by
  interval_cases d <;> decide

theorem hexVal_hexDigit (d : Nat) (h : d < 16) : hexVal (hexDigit d) = some d := by
  interval_cases d <;> decide

theorem fmt_x_no_nul (w v : Nat) : ∀ c ∈ fmt_x w v, c ≠ NUL := by
  intro c hc
  unfold fmt_x zeroPad at hc
  simp only [List.mem_append, List.mem_replicate, List.mem_map, List.mem_reverse] at hc
  rcases hc with ⟨_, h⟩ | ⟨d, hd, h⟩
  · rw [h]; decide
  · rw [← h]; exact hexDigit_ne_nul d (digitsRev_lt 16 (by decide) _ _ d hd)

theorem fmt_u_no_nul (v : Nat) : ∀ c ∈ fmt_u v, c ≠ NUL := by
  intro c hc
  unfold fmt_u at hc
  simp only [List.mem_map, List.mem_reverse] at hc
  rcases hc with ⟨d, hd, h⟩
  rw [← h]
  exact hexDigit_ne_nul d (lt_trans (digitsRev_lt 10 (by decide) _ _ d hd) (by decide))

theorem fmt_d_no_nul (v : Int) : ∀ c ∈ fmt_d v, c ≠ NUL := by
  intro c hc
  unfold fmt_d at hc
  split at hc
  · simp only [List.mem_cons] at hc
    rcases hc with h | h
    · rw [h]; decide
    · exact fmt_u_no_nul _ c h
  · exact fmt_u_no_nul _ c hc

theorem ascii_ne_nul (b : Nat) : ascii b ≠ NUL := by
  unfold ascii
  split
  · rename_i h
    obtain ⟨h1, h2⟩ := h
    interval_cases b <;> decide
  · decide

theorem digitsRev_small (base fuel v : Nat) (h : v < base) :
    digitsRev base (fuel + 1) v = [v] := by
  simp [digitsRev, h]

theorem digitsRev_big (base fuel v : Nat) (h : ¬ v < base) :
    digitsRev base (fuel + 1) v = (v % base) :: digitsRev base fuel (v / base) := by
  simp [digitsRev, h]

/-- Shape of a scratch buffer after a formatter call that fits. -/
theorem snprintf_put (s : Scratch) (size off : Nat) (pre text : List Char)
    (hpre : ∃ rest, s.str = pre ++ rest) (hlen : s.str.length = size)
    (hoff : off = pre.length)
    (hsz : size < SIZE_MOD) (hfit : pre.length + text.length < size) :
    ∃ rest, (s.snprintf size off text).1.str = (pre ++ text) ++ NUL :: rest ∧
      (s.snprintf size off text).1.str.length = size ∧
      (s.snprintf size off text).2 = text.length ∧
      (s.snprintf size off text).1.calls
        = s.calls ++ [FmtCall.mk off (size - off) text.length] ∧
      (s.snprintf size off text).1.lines = s.lines := by
  subst hoff
  obtain ⟨rest, hrest⟩ := hpre
  rw [snprintf_fits s size pre rest text hrest hsz hfit]
  refine ⟨rest.drop (text.length + 1), by simp, ?_, rfl, rfl, rfl⟩
  have h1 : pre.length + rest.length = size := by
    rw [← hlen, hrest, List.length_append]
  simp only [List.length_append, List.length_cons, List.length_drop]
  omega

theorem fmt_x2_byte (b : Nat) (h : b < 256) :
    fmt_x 2 b = [hexDigit (b / 16), hexDigit (b % 16)] := by
  unfold fmt_x zeroPad
  by_cases h16 : b < 16
  · rw [digitsRev_small 16 b b h16]
    have : b / 16 = 0 := by omega
    have h2 : b % 16 = b := by omega
    simp [this, h2, hexDigit]
  · rw [digitsRev_big 16 b b h16]
    obtain ⟨f, hf⟩ : ∃ f, b = f + 1 := ⟨b - 1, by omega⟩
    have hq : b / 16 < 16 := by omega
    rw [hf] at *
    rw [digitsRev_small 16 f _ hq]
    simp

theorem digitsRev_unfold (base fuel v : Nat) (hf : 0 < fuel) :
    digitsRev base fuel v =
      if v < base then [v] else (v % base) :: digitsRev base (fuel - 1) (v / base) := by
  obtain ⟨f, rfl⟩ : ∃ f, fuel = f + 1 := ⟨fuel - 1, by omega⟩
  simp [digitsRev]

theorem fmt_x4_short (v : Nat) (h : v < 65536) :
    fmt_x 4 v = [hexDigit (v / 4096), hexDigit (v / 256 % 16), hexDigit (v / 16 % 16),
      hexDigit (v % 16)] := by
  unfold fmt_x zeroPad
  by_cases h1 : v < 16
  · rw [digitsRev_unfold 16 _ _ (by omega), if_pos h1]
    have e1 : v / 4096 = 0 := by omega
    have e2 : v / 256 % 16 = 0 := by omega
    have e3 : v / 16 % 16 = 0 := by omega
    have e4 : v % 16 = v := by omega
    simp [e1, e2, e3, e4, hexDigit]
  · rw [digitsRev_unfold 16 _ _ (by omega), if_neg h1]
    by_cases h2 : v / 16 < 16
    · rw [digitsRev_unfold 16 _ _ (by omega), if_pos h2]
      have e1 : v / 4096 = 0 := by omega
      have e2 : v / 256 % 16 = 0 := by omega
      have e3 : v / 16 % 16 = v / 16 := by omega
      simp [e1, e2, e3, hexDigit]
    · rw [digitsRev_unfold 16 _ _ (by omega), if_neg h2]
      by_cases h3 : v / 16 / 16 < 16
      · rw [digitsRev_unfold 16 _ _ (by omega), if_pos h3]
        have e1 : v / 4096 = 0 := by omega
        have e2 : v / 256 % 16 = v / 16 / 16 := by omega
        simp [e1, e2, hexDigit]
      · rw [digitsRev_unfold 16 _ _ (by omega), if_neg h3]
        have h4 : v / 16 / 16 / 16 < 16 := by omega
        rw [digitsRev_unfold 16 _ _ (by omega), if_pos h4]
        have e1 : v / 4096 = v / 16 / 16 / 16 := by omega
        have e2 : v / 256 % 16 = v / 16 / 16 % 16 := by omega
        simp [e1, e2]

theorem hexes_append (a b : List Nat) : hexes (a ++ b) = hexes a ++ hexes b := by
  induction a with
  | nil => rfl
  | cons x t ih => simp [hexes, ih]

theorem hexes_length (bs : List Nat) (h : ∀ b ∈ bs, b < 256) :
    (hexes bs).length = 3 * bs.length := by
  induction bs with
  | nil => rfl
  | cons x t ih =>
    have hx : x < 256 := h x (by simp)
    have := ih (fun b hb => h b (by simp [hb]))
    simp [hexes, fmt_x2_byte x hx, this]
    omega

theorem hexes_no_nul (bs : List Nat) : ∀ c ∈ hexes bs, c ≠ NUL := by
  induction bs with
  | nil => simp [hexes]
  | cons x t ih =>
    intro c hc
    simp only [hexes, List.cons_append, List.mem_cons, List.mem_append] at hc
    rcases hc with h | h | h
    · rw [h]; decide
    · exact fmt_x_no_nul _ _ c h
    · exact ih c h

theorem buf_size_lt : DEBUG_BUF_SIZE < SIZE_MOD := by decide

theorem calls_ok_snoc {bound : Nat} {cs : List FmtCall} (h : calls_ok bound cs)
    (off len : Nat) (hoff : off ≤ bound) (hlen : off + len < DEBUG_BUF_SIZE) :
    calls_ok bound (cs ++ [FmtCall.mk off (DEBUG_BUF_SIZE - off) len]) := by
  intro c hc
  rcases List.mem_append.mp hc with h1 | h1
  · exact h c h1
  · simp only [List.mem_singleton] at h1
    subst h1
    exact ⟨hoff, rfl, by simp only []; omega⟩

theorem take_succ_drop (bs : List Nat) (i k b : Nat) (hb : bs[i]? = some b) (hk : k ≤ i) :
    (bs.take (i + 1)).drop k = (bs.take i).drop k ++ [b] := by
  have hi : i < bs.length := by
    by_contra hcon
    rw [List.getElem?_eq_none (by omega)] at hb
    exact Option.noConfusion hb
  rw [List.take_succ, hb]
  simp only [Option.toList]
  rw [List.drop_append_of_le_length]
  rw [List.length_take]
  omega

theorem cur_length (bs : List Nat) (i k : Nat) (hi : i ≤ bs.length) :
    ((bs.take i).drop k).length = i - k := by
  rw [List.length_drop, List.length_take]
  omega

theorem set_ascii (A : List Char) (k : Nat) (x : Char) (hk : 0 < k) :
    (A ++ List.replicate k NUL).set A.length x = (A ++ [x]) ++ List.replicate (k - 1) NUL := by
  obtain ⟨m, rfl⟩ : ∃ m, k = m + 1 := ⟨k - 1, by omega⟩
  rw [List.set_append_right _ _ (le_refl _)]
  simp [List.replicate_succ]

theorem row_pre_no_nul (i q : Nat) (cur : List Nat) : ∀ c ∈ row_pre i q cur, c ≠ NUL := by
  intro c hc
  unfold row_pre at hc
  split at hc
  · simp at hc
  · simp only [List.mem_append] at hc
    rcases hc with (h | h) | h
    · exact fmt_x_no_nul _ _ c h
    · have : c = ':' ∨ c = ' ' := by simpa using h
      rcases this with h | h <;> rw [h] <;> decide
    · exact hexes_no_nul _ c h

theorem row_pre_length (i q : Nat) (cur : List Nat) (hi : 0 < i) (hq : 16 * q < 65536)
    (hcur : ∀ b ∈ cur, b < 256) :
    (row_pre i q cur).length = 6 + 3 * cur.length := by
  unfold row_pre
  rw [if_neg (by omega), fmt_x4_short _ hq]
  simp [hexes_length cur hcur]
  omega

theorem getElem_lt_of_some {bs : List Nat} {i b : Nat} (hb : bs[i]? = some b) :
    i < bs.length := by
  by_contra hcon
  rw [List.getElem?_eq_none (by omega)] at hb
  exact Option.noConfusion hb

/-- One more byte in the current row. -/
theorem buf_step_inv_mid (hdr : List Char) (c0 : FmtCall) (bs : List Nat) (i : Nat)
    (st : BufSt) (b : Nat) (hi : i < 4096) (h16 : i % 16 ≠ 0) (hb : bs[i]? = some b)
    (hbytes : ∀ x ∈ bs, x < 256) (hinv : BufInv hdr c0 bs i st) :
    BufInv hdr c0 bs (i + 1) (buf_step i b st) := by
  have hlt := getElem_lt_of_some hb
  have hq : (i + 1 - 1) / 16 = (i - 1) / 16 := by
    rw [Nat.add_sub_cancel]; omega
  have hb256 : b < 256 := hbytes b (List.getElem?_mem hb)
  have hcurlen := cur_length bs i (16 * ((i - 1) / 16)) (le_of_lt hlt)
  have hcurb : ∀ x ∈ (bs.take i).drop (16 * ((i - 1) / 16)), x < 256 :=
    fun x hx => hbytes x (List.mem_of_mem_take (List.mem_of_mem_drop hx))
  have hcur' := take_succ_drop bs i (16 * ((i - 1) / 16)) b hb (by omega)
  have hprelen := row_pre_length i ((i - 1) / 16) _ (by omega) (by omega) hcurb
  have hstep : buf_step i b st =
      ⟨(st.s.snprintf DEBUG_BUF_SIZE st.idx (' ' :: fmt_x 2 b)).1,
       st.txt.set (i % 16) (ascii b),
       st.idx + (st.s.snprintf DEBUG_BUF_SIZE st.idx (' ' :: fmt_x 2 b)).2⟩ := by
    simp [buf_step, h16]
  have htext : (' ' :: fmt_x 2 b).length = 3 := by simp [fmt_x2_byte b hb256]
  have hpre' : row_pre (i + 1) ((i - 1) / 16) ((bs.take i).drop (16 * ((i - 1) / 16)) ++ [b])
      = row_pre i ((i - 1) / 16) ((bs.take i).drop (16 * ((i - 1) / 16)))
          ++ (' ' :: fmt_x 2 b) := by
    unfold row_pre
    rw [if_neg (by omega), if_neg (by omega), hexes_append]
    simp [hexes]
  obtain ⟨rest, hs1, hs2, hs3, hs4, hs5⟩ :=
    snprintf_put st.s DEBUG_BUF_SIZE st.idx _ (' ' :: fmt_x 2 b) hinv.str hinv.len hinv.idx
      buf_size_lt (by rw [hprelen, htext, hcurlen]; simp only [DEBUG_BUF_SIZE]; omega)
  rw [hstep]
  obtain ⟨cs, hcs, hok⟩ := hinv.calls
  refine ⟨?_, ?_, ?_, ?_, ?_, ?_⟩
  · simp only [hq, hs5]; exact hinv.lines
  · refine ⟨cs ++ [FmtCall.mk st.idx (DEBUG_BUF_SIZE - st.idx) (' ' :: fmt_x 2 b).length], ?_, ?_⟩
    · rw [hs4, hcs, List.cons_append]
    · apply calls_ok_snoc hok
      · rw [hinv.idx, hprelen, hcurlen]; omega
      · rw [hinv.idx, hprelen, hcurlen, htext]; simp only [DEBUG_BUF_SIZE]; omega
  · refine ⟨NUL :: rest, ?_⟩
    simp only [hq, hcur', hpre', hs1]
  · exact hs2
  · simp only [hq, hcur', hpre', hs3, List.length_append]; rw [hinv.idx]
  · simp only [hq, hcur', hinv.txt]
    have hmod : i % 16 = ((bs.take i).drop (16 * ((i - 1) / 16))).length := by
      rw [hcurlen]; omega
    rw [hmod, ← List.length_map _ ascii, set_ascii _ _ _ (by rw [List.length_map, hcurlen]; omega)]
    simp only [List.map_append, List.map_cons, List.map_nil, List.length_append, List.length_map,
      List.length_singleton]
    congr 2

theorem buf_step_open (i b : Nat) (st : BufSt) (h16 : i % 16 = 0) :
    buf_step i b st = buf_open i b (if i > 0 then buf_row_end st else st) := by
  simp [buf_step, buf_open, h16]

/-- Effect of finishing a row whose text is `pre` and whose gutter is `A`. -/
theorem buf_row_end_spec (st : BufSt) (pre A t : List Char)
    (hstr : ∃ rest, st.s.str = pre ++ rest) (hlen : st.s.str.length = DEBUG_BUF_SIZE)
    (hidx : st.idx = pre.length) (htxt : st.txt = A ++ NUL :: t)
    (hA : ∀ c ∈ A, c ≠ NUL) (hpre : ∀ c ∈ pre, c ≠ NUL)
    (hfit : pre.length + (A.length + 3) < DEBUG_BUF_SIZE) :
    (buf_row_end st).s.lines = st.s.lines ++ [pre ++ "  ".toList ++ A ++ "\n".toList] ∧
    (buf_row_end st).s.calls
      = st.s.calls ++ [FmtCall.mk st.idx (DEBUG_BUF_SIZE - st.idx) (A.length + 3)] ∧
    (buf_row_end st).s.str.length = DEBUG_BUF_SIZE ∧
    (buf_row_end st).txt = txt_clear ∧ (buf_row_end st).idx = 0 := by
  have hg : buf_gutter st.txt = "  ".toList ++ A ++ "\n".toList := by
    unfold buf_gutter
    rw [htxt, cstr_append_nul A t hA]
  have hgl : (buf_gutter st.txt).length = A.length + 3 := by
    rw [hg]; simp
  obtain ⟨rest, hs1, hs2, _, hs4, hs5⟩ :=
    snprintf_put st.s DEBUG_BUF_SIZE st.idx pre (buf_gutter st.txt) hstr hlen hidx
      buf_size_lt (by rw [hgl]; exact hfit)
  have hnn : ∀ c ∈ pre ++ buf_gutter st.txt, c ≠ NUL := by
    intro c hc
    rw [hg] at hc
    simp only [List.mem_append] at hc
    rcases hc with h | (h | h) | h
    · exact hpre c h
    · have : c = ' ' := by simpa using h
      rw [this]; decide
    · exact hA c h
    · have : c = '\n' := by simpa using h
      rw [this]; decide
  refine ⟨?_, ?_, ?_, rfl, rfl⟩
  · show (st.s.snprintf DEBUG_BUF_SIZE st.idx (buf_gutter st.txt)).1.lines
        ++ [cstr (st.s.snprintf DEBUG_BUF_SIZE st.idx (buf_gutter st.txt)).1.str] = _
    rw [hs5, hs1, cstr_append_nul _ _ hnn, hg]
    simp
  · show (st.s.snprintf DEBUG_BUF_SIZE st.idx (buf_gutter st.txt)).1.calls = _
    rw [hs4, hgl]
  · exact hs2

/-- Effect of opening row `i / 16` with the byte `b`. -/
theorem buf_open_spec (st : BufSt) (i b : Nat) (hi : i < 4096) (hb : b < 256)
    (h16 : i % 16 = 0)
    (hlen : st.s.str.length = DEBUG_BUF_SIZE) (hidx : st.idx = 0) (htxt : st.txt = txt_clear) :
    (buf_open i b st).s.lines = st.s.lines ∧
    (∃ c1 c2, (buf_open i b st).s.calls = st.s.calls ++ [c1, c2] ∧ calls_ok 54 [c1, c2]) ∧
    (∃ rest, (buf_open i b st).s.str
      = (fmt_x 4 i ++ ": ".toList ++ hexes [b]) ++ rest) ∧
    (buf_open i b st).s.str.length = DEBUG_BUF_SIZE ∧
    (buf_open i b st).idx = (fmt_x 4 i ++ ": ".toList ++ hexes [b]).length ∧
    (buf_open i b st).txt = [ascii b] ++ List.replicate 16 NUL := by
  have hu : to_uint i = i := by
    unfold to_uint UINT_MOD; omega
  have hl1 : (fmt_x 4 i ++ ": ".toList).length = 6 := by
    rw [fmt_x4_short i (by omega)]; rfl
  have hl2 : (' ' :: fmt_x 2 b).length = 3 := by simp [fmt_x2_byte b hb]
  obtain ⟨rest1, ha1, ha2, ha3, ha4, ha5⟩ :=
    snprintf_put st.s DEBUG_BUF_SIZE st.idx [] (fmt_x 4 (to_uint i) ++ ": ".toList)
      ⟨st.s.str, rfl⟩ hlen hidx buf_size_lt
      (by rw [hu, hl1]; simp only [DEBUG_BUF_SIZE, List.length_nil]; omega)
  rw [hu] at ha1 ha2 ha3 ha4 ha5
  simp only [List.nil_append] at ha1
  obtain ⟨rest2, hb1, hb2, hb3, hb4, hb5⟩ :=
    snprintf_put (st.s.snprintf DEBUG_BUF_SIZE st.idx (fmt_x 4 i ++ ": ".toList)).1
      DEBUG_BUF_SIZE (st.idx + (st.s.snprintf DEBUG_BUF_SIZE st.idx (fmt_x 4 i ++ ": ".toList)).2)
      (fmt_x 4 i ++ ": ".toList) (' ' :: fmt_x 2 b)
      ⟨_, ha1⟩ ha2 (by rw [ha3, hidx]; simp) buf_size_lt
      (by rw [hl1, hl2]; simp only [DEBUG_BUF_SIZE]; omega)
  unfold buf_open
  simp only [hu]
  refine ⟨?_, ?_, ?_, ?_, ?_, ?_⟩
  · rw [hb5, ha5]
  · refine ⟨FmtCall.mk st.idx (DEBUG_BUF_SIZE - st.idx) (fmt_x 4 i ++ ": ".toList).length,
      FmtCall.mk (st.idx + (st.s.snprintf DEBUG_BUF_SIZE st.idx (fmt_x 4 i ++ ": ".toList)).2)
        (DEBUG_BUF_SIZE - (st.idx + (st.s.snprintf DEBUG_BUF_SIZE st.idx
          (fmt_x 4 i ++ ": ".toList)).2)) (' ' :: fmt_x 2 b).length, ?_, ?_⟩
    · rw [hb4, ha4, List.append_assoc]; rfl
    · intro c hc
      simp only [List.mem_cons, List.mem_singleton, List.not_mem_nil, or_false] at hc
      rcases hc with h | h <;> subst h
      · refine ⟨?_, rfl, ?_⟩
        · dsimp only; rw [hidx]; omega
        · dsimp only; rw [hl1, hidx]; simp only [DEBUG_BUF_SIZE]; omega
      · refine ⟨?_, rfl, ?_⟩
        · dsimp only; rw [ha3, hidx, hl1]; omega
        · dsimp only; rw [hl2, ha3, hl1, hidx]; simp only [DEBUG_BUF_SIZE]; omega
  · refine ⟨NUL :: rest2, ?_⟩
    rw [hb1]; simp [hexes]
  · exact hb2
  · rw [hb3, ha3, hidx]; simp [hexes]; omega
  · rw [htxt, h16]; rfl

theorem calls_ok_append {bound : Nat} {a b : List FmtCall} (ha : calls_ok bound a)
    (hb : calls_ok bound b) : calls_ok bound (a ++ b) := by
  intro c hc
  rcases List.mem_append.mp hc with h | h
  · exact ha c h
  · exact hb c h

/-- The first byte of the dump. -/
theorem buf_step_inv_first (hdr : List Char) (c0 : FmtCall) (bs : List Nat)
    (st : BufSt) (b : Nat) (hb : bs[0]? = some b)
    (hbytes : ∀ x ∈ bs, x < 256) (hinv : BufInv hdr c0 bs 0 st) :
    BufInv hdr c0 bs (0 + 1) (buf_step 0 b st) := by
  have hb256 : b < 256 := hbytes b (List.getElem?_mem hb)
  have hidx : st.idx = 0 := by
    have := hinv.idx
    simpa [row_pre] using this
  have htxt : st.txt = txt_clear := by
    have := hinv.txt
    simpa [txt_clear] using this
  rw [buf_step_open 0 b st (by decide)]
  simp only [gt_iff_lt, lt_self_iff_false, if_false]
  obtain ⟨h1, ⟨c1, c2, h2, h2ok⟩, ⟨rest, h3⟩, h4, h5, h6⟩ :=
    buf_open_spec st 0 b (by decide) hb256 (by decide) hinv.len hidx htxt
  obtain ⟨cs, hcs, hok⟩ := hinv.calls
  have hcur : (bs.take (0 + 1)).drop (16 * ((0 + 1 - 1) / 16)) = [b] := by
    have := take_succ_drop bs 0 0 b hb (le_refl _)
    simpa using this
  have hpre : row_pre (0 + 1) ((0 + 1 - 1) / 16) [b]
      = fmt_x 4 0 ++ ": ".toList ++ hexes [b] := by
    simp [row_pre]
  refine ⟨?_, ?_, ?_, h4, ?_, ?_⟩
  · rw [h1, hinv.lines]
  · exact ⟨cs ++ [c1, c2], by rw [h2, hcs]; rfl, calls_ok_append hok h2ok⟩
  · exact ⟨rest, by rw [hcur, hpre, h3]⟩
  · rw [hcur, hpre, h5]
  · rw [hcur, h6]; rfl

/-- The first byte of a further row: the row before it is finished. -/
theorem buf_step_inv_row (hdr : List Char) (c0 : FmtCall) (bs : List Nat) (i : Nat)
    (st : BufSt) (b : Nat) (hi : i < 4096) (hpos : 0 < i) (h16 : i % 16 = 0)
    (hb : bs[i]? = some b)
    (hbytes : ∀ x ∈ bs, x < 256) (hinv : BufInv hdr c0 bs i st) :
    BufInv hdr c0 bs (i + 1) (buf_step i b st) := by
  have hlt := getElem_lt_of_some hb
  have hb256 : b < 256 := hbytes b (List.getElem?_mem hb)
  have hq' : (i + 1 - 1) / 16 = (i - 1) / 16 + 1 := by
    rw [Nat.add_sub_cancel]; omega
  have hiq : 16 * ((i - 1) / 16 + 1) = i := by omega
  have hcurlen := cur_length bs i (16 * ((i - 1) / 16)) (le_of_lt hlt)
  have hcurlen16 : ((bs.take i).drop (16 * ((i - 1) / 16))).length = 16 := by
    rw [hcurlen]; omega
  have hcurb : ∀ x ∈ (bs.take i).drop (16 * ((i - 1) / 16)), x < 256 :=
    fun x hx => hbytes x (List.mem_of_mem_take (List.mem_of_mem_drop hx))
  have hprelen := row_pre_length i ((i - 1) / 16) _ hpos (by omega) hcurb
  have hchunk : chunk16 bs ((i - 1) / 16) = (bs.take i).drop (16 * ((i - 1) / 16)) := by
    unfold chunk16
    rw [List.drop_take]
    congr 1
    omega
  have htxt : st.txt = ((bs.take i).drop (16 * ((i - 1) / 16))).map ascii ++ NUL :: [] := by
    rw [hinv.txt, hcurlen16]; rfl
  obtain ⟨e1, e2, e3, e4, e5⟩ :=
    buf_row_end_spec st _ (((bs.take i).drop (16 * ((i - 1) / 16))).map ascii) []
      hinv.str hinv.len hinv.idx htxt
      (by
        intro c hc
        obtain ⟨x, _, hx⟩ := List.mem_map.mp hc
        rw [← hx]; exact ascii_ne_nul x)
      (row_pre_no_nul _ _ _)
      (by rw [hprelen, List.length_map, hcurlen16]; simp only [DEBUG_BUF_SIZE]; omega)
  rw [buf_step_open i b st h16, if_pos hpos]
  obtain ⟨h1, ⟨c1, c2, h2, h2ok⟩, ⟨rest, h3⟩, h4, h5, h6⟩ :=
    buf_open_spec (buf_row_end st) i b hi hb256 h16 e3 e5 e4
  obtain ⟨cs, hcs, hok⟩ := hinv.calls
  have hcur : (bs.take (i + 1)).drop (16 * ((i + 1 - 1) / 16)) = [b] := by
    rw [hq', hiq, take_succ_drop bs i i b hb (le_refl _)]
    simp
  have hpre : row_pre (i + 1) ((i + 1 - 1) / 16) [b]
      = fmt_x 4 i ++ ": ".toList ++ hexes [b] := by
    unfold row_pre
    rw [if_neg (by omega), hq', hiq]
  refine ⟨?_, ?_, ?_, h4, ?_, ?_⟩
  · have hrow : row_pre i ((i - 1) / 16) ((bs.take i).drop (16 * ((i - 1) / 16)))
          ++ "  ".toList ++ ((bs.take i).drop (16 * ((i - 1) / 16))).map ascii ++ "\n".toList
        = row_text (16 * ((i - 1) / 16)) (chunk16 bs ((i - 1) / 16)) := by
      rw [hchunk]
      unfold row_text row_pre
      rw [if_neg (by omega), hcurlen16]
      simp
    rw [h1, e1, hinv.lines, hq', List.range_succ, List.map_append, List.cons_append, hrow]
    simp only [List.map_cons, List.map_nil]
  · refine ⟨(cs ++ [FmtCall.mk st.idx (DEBUG_BUF_SIZE - st.idx)
        ((((bs.take i).drop (16 * ((i - 1) / 16))).map ascii).length + 3)]) ++ [c1, c2], ?_, ?_⟩
    · rw [h2, e2, hcs]; rfl
    · refine calls_ok_append (calls_ok_snoc hok _ _ ?_ ?_) h2ok
      · rw [hinv.idx, hprelen, hcurlen16]
      · rw [hinv.idx, hprelen, List.length_map, hcurlen16]; simp only [DEBUG_BUF_SIZE]; omega
  · exact ⟨rest, by rw [hcur, hpre, h3]⟩
  · rw [hcur, hpre, h5]
  · rw [hcur, h6]; rfl

theorem buf_step_inv (hdr : List Char) (c0 : FmtCall) (bs : List Nat) (i : Nat)
    (st : BufSt) (b : Nat) (hi : i < 4096) (hb : bs[i]? = some b)
    (hbytes : ∀ x ∈ bs, x < 256) (hinv : BufInv hdr c0 bs i st) :
    BufInv hdr c0 bs (i + 1) (buf_step i b st) := by
  by_cases h16 : i % 16 = 0
  · by_cases h0 : i = 0
    · subst h0
      exact buf_step_inv_first hdr c0 bs st b hb hbytes hinv
    · exact buf_step_inv_row hdr c0 bs i st b hi (by omega) h16 hb hbytes hinv
  · exact buf_step_inv_mid hdr c0 bs i st b hi h16 hb hbytes hinv

/-- The main loop of `ttls_debug_print_buf` runs to `m = min len 4096` and
keeps the invariant, reading only bytes below that index. -/
theorem buf_loop_inv (hdr : List Char) (c0 : FmtCall) (buf : List Nat) (len m : Nat)
    (hm : m = min len 4096) (hread : m ≤ buf.length)
    (hbytes : ∀ x ∈ buf.take m, x < 256) :
    ∀ (fuel i : Nat) (st : BufSt), BufInv hdr c0 (buf.take m) i st →
      i ≤ m → m - i ≤ fuel →
      ∃ st', buf_loop buf len fuel i st = some (st', m) ∧
        BufInv hdr c0 (buf.take m) m st' := by
  intro fuel
  induction fuel with
  | zero =>
    intro i st hinv hi hf
    have : i = m := by omega
    subst this
    exact ⟨st, rfl, hinv⟩
  | succ f ih =>
    intro i st hinv hi hf
    by_cases hend : i = m
    · subst hend
      refine ⟨st, ?_, hinv⟩
      unfold buf_loop
      by_cases h1 : i < len
      · have h2 : i ≥ 4096 := by omega
        simp only [h1, not_true_eq_false, if_false, h2, if_true]
      · simp only [h1, not_false_eq_true, if_true]
    · have hlt : i < m := by omega
      have h1 : i < len := by omega
      have h2 : ¬ i ≥ 4096 := by omega
      have hib : i < buf.length := by omega
      have hget : buf[i]? = some buf[i] := List.getElem?_eq_getElem hib
      have hget' : (buf.take m)[i]? = some buf[i] := by
        rw [List.getElem?_take_of_lt hlt, hget]
      have hstep := buf_step_inv hdr c0 _ i st _ (by omega) hget' hbytes hinv
      obtain ⟨st', hst', hinv'⟩ := ih (i + 1) _ hstep (by omega) (by omega)
      refine ⟨st', ?_, hinv'⟩
      unfold buf_loop
      simp only [h1, h2, not_true_eq_false, if_false, hget]
      exact hst'

/-- The padding loop appends `k` blank columns, where `k` is the distance of
`i` to the next multiple of sixteen. -/
theorem buf_pad_spec : ∀ (k fuel i : Nat) (st : BufSt) (pre : List Char),
    (i + k) % 16 = 0 → k < 16 → k ≤ fuel →
    (∃ rest, st.s.str = pre ++ rest) → st.s.str.length = DEBUG_BUF_SIZE →
    st.idx = pre.length → pre.length + 3 * k ≤ 54 →
    (buf_pad fuel i st).s.lines = st.s.lines ∧
    (∃ cs, (buf_pad fuel i st).s.calls = st.s.calls ++ cs ∧ calls_ok 54 cs) ∧
    (∃ rest, (buf_pad fuel i st).s.str = (pre ++ List.replicate (3 * k) ' ') ++ rest) ∧
    (buf_pad fuel i st).s.str.length = DEBUG_BUF_SIZE ∧
    (buf_pad fuel i st).idx = (pre ++ List.replicate (3 * k) ' ').length ∧
    (buf_pad fuel i st).txt = st.txt := by
  intro k
  induction k with
  | zero =>
    intro fuel i st pre hk _ _ hstr hlen hidx _
    have h0 : i % 16 = 0 := by simpa using hk
    have hpad : buf_pad fuel i st = st := by
      cases fuel with
      | zero => rfl
      | succ f => simp [buf_pad, h0]
    rw [hpad]
    refine ⟨rfl, ⟨[], by simp, fun c hc => by simp at hc⟩, ?_, hlen, ?_, rfl⟩
    · simpa using hstr
    · simpa using hidx
  | succ k ih =>
    intro fuel i st pre hk hk16 hfuel hstr hlen hidx hfit
    obtain ⟨f, rfl⟩ : ∃ f, fuel = f + 1 := ⟨fuel - 1, by omega⟩
    have h0 : ¬ i % 16 = 0 := by omega
    obtain ⟨rest, a1, a2, a3, a4, a5⟩ :=
      snprintf_put st.s DEBUG_BUF_SIZE st.idx pre "   ".toList hstr hlen hidx buf_size_lt
        (by simp only [DEBUG_BUF_SIZE, String.toList, List.length_cons, List.length_nil]; omega)
    have hpad : buf_pad (f + 1) i st = buf_pad f (i + 1)
        { st with s := (st.s.snprintf DEBUG_BUF_SIZE st.idx "   ".toList).1,
                  idx := st.idx + (st.s.snprintf DEBUG_BUF_SIZE st.idx "   ".toList).2 } := by
      simp [buf_pad, h0]
    rw [hpad]
    obtain ⟨b1, ⟨cs, b2, b2ok⟩, ⟨rest', b3⟩, b4, b5, b6⟩ :=
      ih f (i + 1)
        { st with s := (st.s.snprintf DEBUG_BUF_SIZE st.idx "   ".toList).1,
                  idx := st.idx + (st.s.snprintf DEBUG_BUF_SIZE st.idx "   ".toList).2 }
        (pre ++ "   ".toList) (by omega) (by omega) (by omega)
        ⟨NUL :: rest, a1⟩ a2
        (by show st.idx + _ = _; rw [a3, hidx, List.length_append])
        (by simp only [List.length_append, String.toList, List.length_cons, List.length_nil]
            omega)
    have hrep : pre ++ "   ".toList ++ List.replicate (3 * k) ' '
        = pre ++ List.replicate (3 * (k + 1)) ' ' := by
      have : 3 * (k + 1) = 3 + 3 * k := by ring
      rw [this, List.replicate_add, List.append_assoc]
      rfl
    refine ⟨by rw [b1]; exact a5, ?_, ⟨rest', by rw [b3, hrep]⟩, b4, by rw [b5, hrep], b6⟩
    refine ⟨FmtCall.mk st.idx (DEBUG_BUF_SIZE - st.idx) "   ".toList.length :: cs, ?_, ?_⟩
    · rw [b2]
      show (st.s.snprintf DEBUG_BUF_SIZE st.idx "   ".toList).1.calls ++ cs = _
      rw [a4]; simp
    · intro c hc
      rcases List.mem_cons.mp hc with h | h
      · subst h
        refine ⟨?_, rfl, ?_⟩
        · dsimp only; omega
        · dsimp only
          simp only [DEBUG_BUF_SIZE, String.toList, List.length_cons, List.length_nil]; omega
      · exact b2ok c h

theorem stack_buf_length (junk : List Char) (size : Nat) :
    (stack_buf junk size).length = size := by
  unfold stack_buf
  rw [List.length_take, List.length_append, List.length_replicate]
  omega

/-- The first formatter call on a fresh buffer, followed by the hand-over. -/
theorem head_unit (junk : List Char) (size : Nat) (text : List Char)
    (hpos : 0 < size) (hsz : size < SIZE_MOD) (hnn : ∀ c ∈ text, c ≠ NUL) :
    (((⟨stack_buf junk size, [], []⟩ : Scratch).snprintf size 0 text).1.unit_done).lines
      = [text.take (size - 1)] ∧
    (((⟨stack_buf junk size, [], []⟩ : Scratch).snprintf size 0 text).1.unit_done).calls
      = [FmtCall.mk 0 size text.length] ∧
    (((⟨stack_buf junk size, [], []⟩ : Scratch).snprintf size 0 text).1.unit_done).str.length
      = size := by
  rw [snprintf_head _ size text hpos hsz]
  have hl := stack_buf_length junk size
  refine ⟨?_, rfl, ?_⟩
  · show [] ++ [cstr _] = _
    rw [cstr_append_nul _ _ (fun c hc => hnn c (List.mem_of_mem_take hc))]
    rfl
  · show (_ ++ NUL :: _).length = size
    simp only [List.length_append, List.length_cons, List.length_drop, List.length_take, hl]
    omega

theorem buf_header_no_nul (text : List Char) (len : Nat) :
    ∀ c ∈ buf_header text len, c ≠ NUL := by
  intro c hc
  unfold buf_header at hc
  simp only [List.mem_append] at hc
  rcases hc with (((h | h) | h) | h) | h
  · revert c; decide
  · exact cstr_no_nul _ c h
  · revert c; decide
  · exact fmt_u_no_nul _ c h
  · revert c; decide

/-- What `ttls_debug_print_buf` renders behind the gate: the header unit and
the rows of the bytes below `min len 4096`, with every formatter call after
the header call inside the buffer. -/
theorem buf_render_spec (text : List Char) (buf : List Nat) (len : Nat) (junk : List Char)
    (hread : min len 4096 ≤ buf.length)
    (hbytes : ∀ x ∈ buf.take (min len 4096), x < 256) :
    ∃ r, buf_render text buf len junk = some r ∧
      r.lines = (buf_header text len).take (DEBUG_BUF_SIZE - 1)
        :: buf_rows (buf.take (min len 4096)) ∧
      ∃ cs, r.calls = FmtCall.mk 0 DEBUG_BUF_SIZE (buf_header text len).length :: cs ∧
        calls_ok 54 cs := by
  obtain ⟨m, hm⟩ : ∃ m, m = min len 4096 := ⟨_, rfl⟩
  rw [← hm] at hread hbytes ⊢
  have hbl : (buf.take m).length = m := by rw [List.length_take]; omega
  obtain ⟨g1, g2, g3⟩ := head_unit junk DEBUG_BUF_SIZE (buf_header text len)
    (by decide) buf_size_lt (buf_header_no_nul text len)
  have hinv0 : BufInv ((buf_header text len).take (DEBUG_BUF_SIZE - 1))
      (FmtCall.mk 0 DEBUG_BUF_SIZE (buf_header text len).length) (buf.take m) 0
      ⟨((⟨stack_buf junk DEBUG_BUF_SIZE, [], []⟩ : Scratch).snprintf DEBUG_BUF_SIZE 0
        (buf_header text len)).1.unit_done, txt_clear, 0⟩ := by
    refine ⟨?_, ⟨[], ?_, fun c hc => by simp at hc⟩, ⟨((⟨stack_buf junk DEBUG_BUF_SIZE, [], []⟩ : Scratch).snprintf DEBUG_BUF_SIZE 0
        (buf_header text len)).1.unit_done.str, ?_⟩, g3, ?_, ?_⟩
    · rw [g1]; rfl
    · rw [g2]
    · simp only [row_pre, if_true, List.nil_append]
    · simp [row_pre]
    · simp [txt_clear]
  obtain ⟨st, hloop, hinv⟩ := buf_loop_inv _ _ buf len m hm hread hbytes len 0 _ hinv0
    (by omega) (by omega)
  unfold buf_render
  simp only [hloop]
  by_cases hlen : len > 0
  · rw [if_pos hlen]
    have hmpos : 0 < m := by omega
    have hcurlen := cur_length (buf.take m) m (16 * ((m - 1) / 16)) (by omega)
    have hcurb : ∀ x ∈ ((buf.take m).take m).drop (16 * ((m - 1) / 16)), x < 256 :=
      fun x hx => hbytes x (List.mem_of_mem_take (List.mem_of_mem_drop hx))
    have hprelen := row_pre_length m ((m - 1) / 16) _ hmpos (by omega) hcurb
    obtain ⟨k, hk⟩ : ∃ k, k = 16 * ((m - 1) / 16) + 16 - m := ⟨_, rfl⟩
    obtain ⟨p1, ⟨pcs, p2, p2ok⟩, p3, p4, p5, p6⟩ :=
      buf_pad_spec k 16 m st _ (by omega) (by omega) (by omega) hinv.str hinv.len hinv.idx
        (by rw [hprelen, hcurlen]; omega)
    have htxt : (buf_pad 16 m st).txt
        = (((buf.take m).take m).drop (16 * ((m - 1) / 16))).map ascii
          ++ NUL :: List.replicate
            (16 - (((buf.take m).take m).drop (16 * ((m - 1) / 16))).length) NUL := by
      rw [p6, hinv.txt, ← List.replicate_succ]
      congr 2
      rw [hcurlen]; omega
    obtain ⟨e1, e2, _, _, _⟩ :=
      buf_row_end_spec (buf_pad 16 m st) _ _ _ p3 p4 p5 htxt
        (by
          intro c hc
          obtain ⟨x, _, hx⟩ := List.mem_map.mp hc
          rw [← hx]; exact ascii_ne_nul x)
        (by
          intro c hc
          rcases List.mem_append.mp hc with h | h
          · exact row_pre_no_nul _ _ _ c h
          · rw [(List.mem_replicate.mp h).2]; decide)
        (by
          rw [List.length_append, hprelen, List.length_replicate, List.length_map, hcurlen]
          simp only [DEBUG_BUF_SIZE]; omega)
    obtain ⟨cs, hcs, hok⟩ := hinv.calls
    refine ⟨_, rfl, ?_, ?_⟩
    · show (buf_row_end (buf_pad 16 m st)).s.lines = _
      rw [e1, p1, hinv.lines, List.cons_append]
      congr 1
      have hq : (m + 15) / 16 = (m - 1) / 16 + 1 := by omega
      unfold buf_rows
      rw [hbl, hq, List.range_succ, List.map_append]
      congr 1
      have hchunk : chunk16 (buf.take m) ((m - 1) / 16)
          = ((buf.take m).take m).drop (16 * ((m - 1) / 16)) := by
        unfold chunk16
        rw [List.take_of_length_le (le_of_eq hbl), List.take_of_length_le]
        rw [List.length_drop, hbl]; omega
      simp only [List.map_cons, List.map_nil, row_text, hchunk, hcurlen]
      unfold row_pre
      rw [if_neg (by omega)]
      have hk' : 16 - (m - 16 * ((m - 1) / 16)) = k := by omega
      rw [hk']
    · refine ⟨cs ++ pcs ++ [FmtCall.mk (buf_pad 16 m st).idx
          (DEBUG_BUF_SIZE - (buf_pad 16 m st).idx)
          (((((buf.take m).take m).drop (16 * ((m - 1) / 16))).map ascii).length + 3)], ?_, ?_⟩
      · show (buf_row_end (buf_pad 16 m st)).s.calls = _
        rw [e2, p2, hcs]
        simp
      · refine calls_ok_append (calls_ok_append hok p2ok) ?_
        intro c hc
        rw [List.mem_singleton] at hc
        subst hc
        refine ⟨?_, rfl, ?_⟩
        · dsimp only
          rw [p5, List.length_append, hprelen, List.length_replicate, hcurlen]; omega
        · dsimp only
          rw [p5, List.length_append, hprelen, List.length_replicate, List.length_map, hcurlen]
          simp only [DEBUG_BUF_SIZE]; omega
  · rw [if_neg hlen]
    have hm0 : m = 0 := by omega
    subst hm0
    obtain ⟨cs, hcs, hok⟩ := hinv.calls
    refine ⟨_, rfl, ?_, ⟨cs, hcs, hok⟩⟩
    show st.s.lines = _
    rw [hinv.lines]
    simp [buf_rows]

theorem hexVal_blank : hexVal ' ' = none := by decide

theorem parse_cols_hexes (bs : List Nat) (tail : List Char) (h : ∀ b ∈ bs, b < 256) :
    parse_cols (hexes bs ++ tail) = bs ++ parse_cols tail := by
  induction bs with
  | nil => rfl
  | cons x t ih =>
    have hx : x < 256 := h x (by simp)
    have ih' := ih (fun b hb => h b (by simp [hb]))
    simp only [hexes, fmt_x2_byte x hx, List.cons_append, List.nil_append, parse_cols,
      hexVal_hexDigit (x / 16) (by omega), hexVal_hexDigit (x % 16) (by omega), ih']
    congr 1
    omega

theorem parse_cols_blanks (k : Nat) : parse_cols (List.replicate (3 * k) ' ') = [] := by
  induction k with
  | zero => rfl
  | succ k ih =>
    have : 3 * (k + 1) = 3 * k + 1 + 1 + 1 := by ring
    rw [this]
    simp only [List.replicate_succ, parse_cols, hexVal_blank]
    exact ih

/-- Reading a rendered row back gives the bytes of the row. -/
theorem row_bytes_row_text (off : Nat) (chunk : List Nat) (hoff : off < 65536)
    (hlen : chunk.length ≤ 16) (h : ∀ b ∈ chunk, b < 256) :
    row_bytes (row_text off chunk) = chunk := by
  unfold row_bytes row_text
  rw [fmt_x4_short off hoff]
  have h48 : (hexes chunk ++ List.replicate (3 * (16 - chunk.length)) ' ').length = 48 := by
    rw [List.length_append, hexes_length chunk h, List.length_replicate]; omega
  have hdrop : List.drop 6 ([hexDigit (off / 4096), hexDigit (off / 256 % 16),
      hexDigit (off / 16 % 16), hexDigit (off % 16)] ++ ": ".toList ++ hexes chunk
      ++ List.replicate (3 * (16 - chunk.length)) ' ' ++ "  ".toList ++ chunk.map ascii
      ++ "\n".toList)
      = (hexes chunk ++ List.replicate (3 * (16 - chunk.length)) ' ')
        ++ ("  ".toList ++ chunk.map ascii ++ "\n".toList) := by
    simp
  rw [hdrop, List.take_append_of_le_length (le_of_eq h48.symm), ← h48, List.take_length,
    parse_cols_hexes chunk _ h, parse_cols_blanks, List.append_nil]

theorem chunks_flatten : ∀ (n : Nat) (bs : List Nat), bs.length ≤ 16 * n →
    ((List.range n).map (chunk16 bs)).flatten = bs := by
  intro n
  induction n with
  | zero =>
    intro bs h
    have : bs = [] := List.length_eq_zero.mp (by omega)
    simp [this]
  | succ n ih =>
    intro bs h
    rw [List.range_succ, List.map_append, List.flatten_append]
    have h1 : (List.range n).map (chunk16 bs) = (List.range n).map (chunk16 (bs.take (16 * n))) := by
      apply List.map_congr_left
      intro r hr
      have hr' : r < n := List.mem_range.mp hr
      unfold chunk16
      rw [List.drop_take, List.take_take]
      congr 1
      omega
    rw [h1, ih (bs.take (16 * n)) (by rw [List.length_take]; omega)]
    simp only [List.map_cons, List.map_nil, List.flatten_cons, List.flatten_nil, List.append_nil,
      chunk16]
    have h2 : List.take 16 (List.drop (16 * n) bs) = List.drop (16 * n) bs :=
      List.take_of_length_le (by rw [List.length_drop]; omega)
    rw [h2, List.take_append_drop]

theorem chunk16_length (bs : List Nat) (r : Nat) : (chunk16 bs r).length ≤ 16 := by
  unfold chunk16
  rw [List.length_take]
  omega

theorem chunk16_mem (bs : List Nat) (r x : Nat) (h : x ∈ chunk16 bs r) : x ∈ bs :=
  List.mem_of_mem_drop (List.mem_of_mem_take h)

/-- Reading all rows of a dump back gives the dumped bytes. -/
theorem buf_rows_bytes (bs : List Nat) (hlen : bs.length ≤ 4096) (h : ∀ b ∈ bs, b < 256) :
    ((buf_rows bs).map row_bytes).flatten = bs := by
  unfold buf_rows
  rw [List.map_map]
  have h1 : (List.range ((bs.length + 15) / 16)).map
        (row_bytes ∘ fun r => row_text (16 * r) (chunk16 bs r))
      = (List.range ((bs.length + 15) / 16)).map (chunk16 bs) := by
    apply List.map_congr_left
    intro r hr
    have hr' : r < (bs.length + 15) / 16 := List.mem_range.mp hr
    have hoff : 16 * r < 65536 := by omega
    rw [Function.comp_apply]
    exact row_bytes_row_text (16 * r) (chunk16 bs r) hoff (chunk16_length bs r)
      (fun b hb => h b (chunk16_mem bs r b hb))
  rw [h1]
  exact chunks_flatten _ bs (by omega)

theorem buf_rows_length (bs : List Nat) : (buf_rows bs).length = (bs.length + 15) / 16 := by
  simp [buf_rows]

theorem cstr_of_no_nul (l : List Char) (h : ∀ c ∈ l, c ≠ NUL) : cstr l = l := by
  unfold cstr
  induction l with
  | nil => rfl
  | cons c t ih =>
    have hc : c ≠ NUL := h c (by simp)
    have ih2 := ih (fun x hx => h x (by simp [hx]))
    simp [List.takeWhile_cons, hc]
    simpa using ih2

theorem buf_gate_open (g : Globals) (ssl : ttls_context) (L : Int) (text : List Char)
    (buf : List Nat) (len : Nat) (junk : List Char)
    (hconf : ssl.conf ≠ none) (hlev : L ≤ g.debug_threshold) :
    ttls_debug_print_buf g ssl L text buf len junk = buf_render text buf len junk := by
  unfold ttls_debug_print_buf
  rw [if_neg]
  rintro (h | h)
  · exact hconf h
  · omega

theorem buf_loop_congr (buf buf' : List Nat) (len : Nat)
    (h : ∀ i, i < min len 4096 → buf[i]? = buf'[i]?) :
    ∀ (fuel i : Nat) (st : BufSt), buf_loop buf len fuel i st = buf_loop buf' len fuel i st := by
  intro fuel
  induction fuel with
  | zero => intro i st; rfl
  | succ f ih =>
    intro i st
    unfold buf_loop
    by_cases h1 : i < len
    · by_cases h2 : i ≥ 4096
      · simp only [h1, not_true_eq_false, if_false, h2, if_true]
      · simp only [h1, not_true_eq_false, if_false, h2]
        rw [h i (by omega)]
        cases buf'[i]? with
        | none => rfl
        | some b => exact ih _ _
    · simp only [h1, not_false_eq_true, if_true]

/-- The dump does not depend on memory at or above index `min len 4096`. -/
theorem buf_render_take (text : List Char) (buf : List Nat) (len : Nat) (junk : List Char) :
    buf_render text (buf.take (min len 4096)) len junk = buf_render text buf len junk := by
  simp only [buf_render, buf_loop_congr (buf.take (min len 4096)) buf len
    (fun i hi => List.getElem?_take_of_lt hi)]

/-! ## The hex buffer dump -/

/-- C7 (as the code has it): with the gate open, `ttls_debug_print_buf` on a
buffer of which `min len 4096` bytes are readable renders exactly the header
unit followed by the data rows of the first `min len 4096` bytes and nothing
else.  The header unit is the text `"dumping '<label>' (<len> bytes)\n"` cut to
the 511 characters the scratch buffer holds (the whole text when it is that
short), with `len` printed as `unsigned int`.  There are
`ceil(min(len, 4096) / 16)` rows: `ceil(len / 16)` when `len <= 4096`, none
when `len = 0`, and `256` when `len > 4096`. -/
theorem buf_dump_layout (g : Globals) (ssl : ttls_context) (L : Int) (text : List Char)
    (buf : List Nat) (len : Nat) (junk : List Char)
    (hconf : ssl.conf ≠ none) (hlev : L ≤ g.debug_threshold)
    (hread : min len 4096 ≤ buf.length)
    (hbytes : ∀ x ∈ buf.take (min len 4096), x < 256) :
    ∃ r, ttls_debug_print_buf g ssl L text buf len junk = some r ∧
      r.lines = (buf_header text len).take (DEBUG_BUF_SIZE - 1)
        :: buf_rows (buf.take (min len 4096)) ∧
      ((buf_header text len).length ≤ DEBUG_BUF_SIZE - 1 →
        r.lines = buf_header text len :: buf_rows (buf.take (min len 4096))) ∧
      (buf_rows (buf.take (min len 4096))).length = (min len 4096 + 15) / 16 ∧
      (len ≤ 4096 → (buf_rows (buf.take (min len 4096))).length = (len + 15) / 16) ∧
      (len = 0 → r.lines = [(buf_header text len).take (DEBUG_BUF_SIZE - 1)]) ∧
      (4096 < len → (buf_rows (buf.take (min len 4096))).length = 256) := by
  obtain ⟨r, hr, hlines, _⟩ := buf_render_spec text buf len junk hread hbytes
  have hcount : (buf_rows (buf.take (min len 4096))).length = (min len 4096 + 15) / 16 := by
    rw [buf_rows_length, List.length_take, Nat.min_eq_left hread]
  refine ⟨r, by rw [buf_gate_open g ssl L text buf len junk hconf hlev]; exact hr,
    hlines, ?_, hcount, ?_, ?_, ?_⟩
  · intro hfit
    rw [hlines, List.take_of_length_le hfit]
  · intro hle
    rw [hcount, Nat.min_eq_left hle]
  · intro h0
    subst h0
    rw [hlines]
    simp [buf_rows]
  · intro hgt
    rw [hcount, Nat.min_eq_right (le_of_lt hgt)]

/-- C7 at a buffer of three bytes: the header and one row. -/
theorem buf_dump_layout_witness :
    ∃ r, ttls_debug_print_buf ⟨1⟩ ⟨some ()⟩ 1 "k".toList [65, 0, 255] 3 [] = some r ∧
      r.lines = (buf_header "k".toList 3).take (DEBUG_BUF_SIZE - 1)
        :: buf_rows (List.take (min 3 4096) [65, 0, 255]) ∧
      (buf_rows (List.take (min 3 4096) [65, 0, 255])).length = (3 + 15) / 16 := by
  obtain ⟨r, h1, h2, _, _, h3, _, _⟩ :=
    buf_dump_layout ⟨1⟩ ⟨some ()⟩ 1 "k".toList [65, 0, 255] 3 []
      (by decide) (by decide) (by decide) (by decide)
  exact ⟨r, h1, h2, h3 (by decide)⟩

/-- C7 as stated fails for a label of 600 characters: the header unit is the
first 511 characters of `"dumping '<label>' (0 bytes)\n"`, which is neither
that line nor that line without its newline. -/
theorem buf_dump_header_cut :
    ∃ r, ttls_debug_print_buf ⟨0⟩ ⟨some ()⟩ 0 (List.replicate 600 'a') [] 0 [] = some r ∧
      r.lines = [(buf_header (List.replicate 600 'a') 0).take (DEBUG_BUF_SIZE - 1)] ∧
      (buf_header (List.replicate 600 'a') 0).length = 621 ∧
      r.lines ≠ [buf_header (List.replicate 600 'a') 0] ∧
      r.lines ≠ [(buf_header (List.replicate 600 'a') 0).dropLast] := by
  obtain ⟨r, hr, hlines, _⟩ := buf_render_spec (List.replicate 600 'a') [] 0 []
    (by decide) (by decide)
  have hc : cstr (List.replicate 600 'a') = List.replicate 600 'a' :=
    cstr_of_no_nul _ (fun c hc => by rw [(List.mem_replicate.mp hc).2]; decide)
  have hu : fmt_u (to_uint 0) = ['0'] := by decide
  have hlen : (buf_header (List.replicate 600 'a') 0).length = 621 := by
    unfold buf_header
    rw [hc, hu]
    simp only [List.length_append, List.length_replicate]
    rfl
  have hl : r.lines = [(buf_header (List.replicate 600 'a') 0).take (DEBUG_BUF_SIZE - 1)] := by
    rw [hlines]; rfl
  have htl : ((buf_header (List.replicate 600 'a') 0).take (DEBUG_BUF_SIZE - 1)).length
      = 511 := by
    rw [List.length_take, hlen]; decide
  refine ⟨r, by rw [buf_gate_open _ _ _ _ _ _ _ (by decide) (by decide)]; exact hr,
    hl, hlen, ?_, ?_⟩
  · rw [hl]
    intro h
    have := congrArg (fun l => (l.map List.length)) h
    simp only [List.map_cons, List.map_nil, htl, hlen] at this
    exact absurd this (by decide)
  · rw [hl]
    intro h
    have := congrArg (fun l => (l.map List.length)) h
    simp only [List.map_cons, List.map_nil, htl, List.length_dropLast, hlen] at this
    exact absurd this (by decide)

/-- C8: with the gate open, reading the hex columns of the data rows rendered
by `ttls_debug_print_buf` back, row by row and column by column, gives exactly
the first `min len 4096` bytes of the buffer (the whole buffer when its length
is `len <= 4096`), and the dump is the same when the memory ends right after
those bytes: no byte at an index `>= min len 4096` is read. -/
theorem buf_dump_roundtrip (g : Globals) (ssl : ttls_context) (L : Int) (text : List Char)
    (buf : List Nat) (len : Nat) (junk : List Char)
    (hconf : ssl.conf ≠ none) (hlev : L ≤ g.debug_threshold)
    (hread : min len 4096 ≤ buf.length)
    (hbytes : ∀ x ∈ buf.take (min len 4096), x < 256) :
    (∃ r, ttls_debug_print_buf g ssl L text buf len junk = some r ∧
      (r.lines.tail.map row_bytes).flatten = buf.take (min len 4096) ∧
      (buf.length = len → len ≤ 4096 → (r.lines.tail.map row_bytes).flatten = buf)) ∧
    ttls_debug_print_buf g ssl L text (buf.take (min len 4096)) len junk
      = ttls_debug_print_buf g ssl L text buf len junk := by
  obtain ⟨r, hr, hlines, _⟩ := buf_render_spec text buf len junk hread hbytes
  have hback : (r.lines.tail.map row_bytes).flatten = buf.take (min len 4096) := by
    rw [hlines, List.tail_cons]
    exact buf_rows_bytes _ (by rw [List.length_take]; omega) hbytes
  refine ⟨⟨r, by rw [buf_gate_open g ssl L text buf len junk hconf hlev]; exact hr,
    hback, ?_⟩, ?_⟩
  · intro h1 h2
    rw [hback, Nat.min_eq_left h2, ← h1, List.take_length]
  · rw [buf_gate_open g ssl L text buf len junk hconf hlev,
      buf_gate_open g ssl L text _ len junk hconf hlev]
    exact buf_render_take text buf len junk

/-- C8 at a buffer of eighteen bytes, which fills one row and starts a second. -/
theorem buf_dump_roundtrip_witness :
    ∃ r, ttls_debug_print_buf ⟨1⟩ ⟨some ()⟩ 0 "in".toList
        [0, 1, 2, 3, 4, 5, 6, 7, 8, 9, 10, 11, 12, 13, 14, 15, 97, 255] 18 [] = some r ∧
      (r.lines.tail.map row_bytes).flatten
        = [0, 1, 2, 3, 4, 5, 6, 7, 8, 9, 10, 11, 12, 13, 14, 15, 97, 255] := by
  obtain ⟨⟨r, h1, _, h3⟩, _⟩ :=
    buf_dump_roundtrip ⟨1⟩ ⟨some ()⟩ 0 "in".toList
      [0, 1, 2, 3, 4, 5, 6, 7, 8, 9, 10, 11, 12, 13, 14, 15, 97, 255] 18 []
      (by decide) (by decide) (by decide) (by decide)
  exact ⟨r, h1, h3 (by decide) (by decide)⟩

theorem and_ff (x : Nat) : x &&& 0xFF = x % 256 := Nat.and_pow_two_sub_one_eq_mod x 8

theorem byte_at_lt (v k : Nat) : byte_at v k < 256 := by
  unfold byte_at
  rw [and_ff]
  exact Nat.mod_lt _ (by decide)

theorem to_uint_and_ff (x : Nat) : to_uint x &&& 0xFF = x &&& 0xFF := by
  rw [and_ff, and_ff]
  unfold to_uint UINT_MOD
  exact Nat.mod_mod_of_dvd x (by decide)

theorem mpi_bytes_succ (v k : Nat) (st : MpiSt) :
    mpi_bytes v (k + 1) st =
      if st.zeros = true ∧ byte_at v k = 0 then mpi_bytes v k st
      else mpi_bytes v k (mpi_emit st (byte_at v k)) := by
  show (if st.zeros = true ∧ (v >>> (k <<< 3)) &&& 0xFF = 0 then mpi_bytes v k st else _) = _
  unfold byte_at mpi_emit
  simp only [to_uint_and_ff]

theorem mpi_emit_zeros (st : MpiSt) (b : Nat) : (mpi_emit st b).zeros = false := by
  unfold mpi_emit
  simp only []
  split <;> rfl

theorem foldl_emit_zeros (bs : List Nat) (st : MpiSt) :
    (bs.foldl mpi_emit st).zeros = (st.zeros && bs.isEmpty) := by
  cases bs with
  | nil => simp
  | cons b t =>
    have : ∀ (l : List Nat) (s : MpiSt), s.zeros = false → (l.foldl mpi_emit s).zeros = false := by
      intro l
      induction l with
      | nil => intro s hs; exact hs
      | cons x l ih => intro s _; exact ih _ (mpi_emit_zeros s x)
    simp [this t _ (mpi_emit_zeros st b)]

theorem pending_cons_zero (bs : List Nat) : pending true (0 :: bs) = pending true bs := by
  simp [pending]

theorem pending_cons_ne (b : Nat) (bs : List Nat) (h : b ≠ 0) :
    pending true (b :: bs) = b :: bs := by
  simp [pending, h]

theorem pending_append (z : Bool) (a b : List Nat) :
    pending z (a ++ b) = pending z a ++ pending (z && (pending z a).isEmpty) b := by
  cases z with
  | false => simp [pending]
  | true =>
    induction a with
    | nil => simp [pending]
    | cons x t ih =>
      by_cases hx : x = 0
      · subst hx
        rw [List.cons_append, pending_cons_zero, pending_cons_zero]
        exact ih
      · rw [List.cons_append, pending_cons_ne x _ hx, pending_cons_ne x _ hx]
        simp [pending]

/-- The byte loop renders the bytes of the limb that are pending. -/
theorem mpi_bytes_eq (v : Nat) : ∀ (k : Nat) (st : MpiSt),
    mpi_bytes v k st = (pending st.zeros (limb_be v k)).foldl mpi_emit st := by
  intro k
  induction k with
  | zero =>
    intro st
    simp [mpi_bytes, limb_be, pending]
  | succ k ih =>
    intro st
    rw [mpi_bytes_succ]
    by_cases hz : st.zeros = true
    · by_cases hb : byte_at v k = 0
      · rw [if_pos ⟨hz, hb⟩, ih, hz]
        simp only [limb_be, hb, pending_cons_zero]
      · rw [if_neg (fun h => hb h.2), ih, mpi_emit_zeros, hz]
        simp only [limb_be, pending_cons_ne _ _ hb, List.foldl_cons]
        simp [pending]
    · have hz' : st.zeros = false := by simpa using hz
      rw [if_neg (fun h => hz h.1), ih, mpi_emit_zeros, hz']
      simp [pending, limb_be]

theorem limb_be_zero (k : Nat) : pending true (limb_be 0 k) = [] := by
  induction k with
  | zero => rfl
  | succ k ih =>
    have : byte_at 0 k = 0 := by simp [byte_at]
    simp only [limb_be, this, pending_cons_zero, ih]

theorem limbs_be_snoc (ciL : Nat) (l : List Nat) (v : Nat) :
    limbs_be ciL (l ++ [v]) = limb_be v ciL ++ limbs_be ciL l := by
  induction l with
  | nil => simp [limbs_be]
  | cons x t ih => simp [limbs_be, ih]

theorem mpi_limbs_succ (ciL : Nat) (X : ttls_mpi) (i : Nat) (st : MpiSt) (v : Nat)
    (h : X.limb i = some v) :
    mpi_limbs ciL X (i + 1) st =
      if st.zeros = true ∧ v = 0 then mpi_limbs ciL X i st
      else mpi_limbs ciL X i (mpi_bytes v ciL st) := by
  conv_lhs => unfold mpi_limbs
  simp only [h]

/-- The limb loop renders the pending bytes of the limbs below `i`. -/
theorem mpi_limbs_eq (ciL : Nat) (X : ttls_mpi) : ∀ (i : Nat) (st : MpiSt),
    i ≤ X.n → i ≤ X.p.length →
    mpi_limbs ciL X i st
      = some ((pending st.zeros (limbs_be ciL (X.p.take i))).foldl mpi_emit st) := by
  intro i
  induction i with
  | zero =>
    intro st _ _
    simp [mpi_limbs, limbs_be, pending]
  | succ i ih =>
    intro st hn hp
    have hip : i < X.p.length := by omega
    have hget : X.p[i]? = some X.p[i] := List.getElem?_eq_getElem hip
    have hlimb : X.limb i = some X.p[i] := by
      unfold ttls_mpi.limb
      rw [if_pos (by omega), hget]
    have htake : X.p.take (i + 1) = X.p.take i ++ [X.p[i]] := by
      rw [List.take_succ, hget]; rfl
    have hstep : mpi_limbs ciL X (i + 1) st
        = mpi_limbs ciL X i (mpi_bytes X.p[i] ciL st) := by
      rw [mpi_limbs_succ ciL X i st _ hlimb]
      split
      · rename_i h
        rw [mpi_bytes_eq, h.1, h.2, limb_be_zero]
        rfl
      · rfl
    rw [hstep, ih _ (by omega) (by omega), mpi_bytes_eq, htake, limbs_be_snoc,
      pending_append, List.foldl_append, foldl_emit_zeros]

theorem mpi_emit_plain (st : MpiSt) (b : Nat) (h : ¬ (st.j % 16 = 0 ∧ st.j > 0)) :
    mpi_emit st b =
      ⟨(st.s.snprintf DEBUG_BUF_SIZE st.idx (' ' :: fmt_x 2 b)).1,
       st.idx + (st.s.snprintf DEBUG_BUF_SIZE st.idx (' ' :: fmt_x 2 b)).2,
       int_succ st.j, false⟩ := by
  unfold mpi_emit
  simp only [h, if_false]

theorem mpi_emit_break (st : MpiSt) (b : Nat) (h : st.j % 16 = 0 ∧ st.j > 0) :
    mpi_emit st b =
      ⟨((st.s.snprintf DEBUG_BUF_SIZE st.idx "\n".toList).1.unit_done.snprintf
          DEBUG_BUF_SIZE 0 (' ' :: fmt_x 2 b)).1,
       0 + ((st.s.snprintf DEBUG_BUF_SIZE st.idx "\n".toList).1.unit_done.snprintf
          DEBUG_BUF_SIZE 0 (' ' :: fmt_x 2 b)).2,
       int_succ st.j, false⟩ := by
  unfold mpi_emit
  simp only [h, and_self, if_true]

theorem mpi_emit_j (st : MpiSt) (b : Nat) : (mpi_emit st b).j = int_succ st.j := by
  unfold mpi_emit
  simp only []
  split <;> rfl

theorem int_succ_small (m : Nat) (h : m < 2147483647) :
    int_succ (m : Int) = ((m + 1 : Nat) : Int) := by
  unfold int_succ
  rw [if_neg (by omega)]
  rfl

/-- One more byte in the current line. -/
theorem mpi_emit_inv_mid (hdr : List Char) (c0 : FmtCall) (bs : List Nat) (m : Nat)
    (st : MpiSt) (b : Nat) (h16 : ¬ (m % 16 = 0 ∧ m > 0)) (hb : bs[m]? = some b)
    (hbytes : ∀ x ∈ bs, x < 256) (hinv : MpiInv hdr c0 bs m st) (hj : st.j = (m : Int)) :
    MpiInv hdr c0 bs (m + 1) (mpi_emit st b) := by
  have hlt := getElem_lt_of_some hb
  have hq : (m + 1 - 1) / 16 = (m - 1) / 16 := by
    rw [Nat.add_sub_cancel]; omega
  have hb256 : b < 256 := hbytes b (List.getElem?_mem hb)
  have hcurlen := cur_length bs m (16 * ((m - 1) / 16)) (le_of_lt hlt)
  have hcurb : ∀ x ∈ (bs.take m).drop (16 * ((m - 1) / 16)), x < 256 :=
    fun x hx => hbytes x (List.mem_of_mem_take (List.mem_of_mem_drop hx))
  have hcur' := take_succ_drop bs m (16 * ((m - 1) / 16)) b hb (by omega)
  have hprelen := hexes_length _ hcurb
  have htext : (' ' :: fmt_x 2 b).length = 3 := by simp [fmt_x2_byte b hb256]
  have hpre' : hexes ((bs.take m).drop (16 * ((m - 1) / 16)) ++ [b])
      = hexes ((bs.take m).drop (16 * ((m - 1) / 16))) ++ (' ' :: fmt_x 2 b) := by
    rw [hexes_append]; simp [hexes]
  obtain ⟨rest, hs1, hs2, hs3, hs4, hs5⟩ :=
    snprintf_put st.s DEBUG_BUF_SIZE st.idx _ (' ' :: fmt_x 2 b) hinv.str hinv.len hinv.idx
      buf_size_lt (by rw [hprelen, htext, hcurlen]; simp only [DEBUG_BUF_SIZE]; omega)
  rw [mpi_emit_plain st b (by rw [hj]; omega)]
  obtain ⟨cs, hcs, hok⟩ := hinv.calls
  refine ⟨?_, ?_, ?_, hs2, ?_⟩
  · simp only [hq, hs5]; exact hinv.lines
  · refine ⟨cs ++ [FmtCall.mk st.idx (DEBUG_BUF_SIZE - st.idx) (' ' :: fmt_x 2 b).length], ?_, ?_⟩
    · show (st.s.snprintf DEBUG_BUF_SIZE st.idx (' ' :: fmt_x 2 b)).1.calls = _
      rw [hs4, hcs, List.cons_append]
    · apply calls_ok_snoc hok
      · rw [hinv.idx, hprelen, hcurlen]; omega
      · rw [hinv.idx, hprelen, hcurlen, htext]; simp only [DEBUG_BUF_SIZE]; omega
  · refine ⟨NUL :: rest, ?_⟩
    simp only [hq, hcur', hpre', hs1]
  · simp only [hq, hcur', hpre', hs3, List.length_append]; rw [hinv.idx]

/-- The first byte of a further line: the line before it is finished. -/
theorem mpi_emit_inv_row (hdr : List Char) (c0 : FmtCall) (bs : List Nat) (m : Nat)
    (st : MpiSt) (b : Nat) (h16 : m % 16 = 0 ∧ m > 0) (hb : bs[m]? = some b)
    (hbytes : ∀ x ∈ bs, x < 256) (hinv : MpiInv hdr c0 bs m st) (hj : st.j = (m : Int)) :
    MpiInv hdr c0 bs (m + 1) (mpi_emit st b) := by
  have hlt := getElem_lt_of_some hb
  have hb256 : b < 256 := hbytes b (List.getElem?_mem hb)
  have hq' : (m + 1 - 1) / 16 = (m - 1) / 16 + 1 := by
    rw [Nat.add_sub_cancel]; omega
  have hmq : 16 * ((m - 1) / 16 + 1) = m := by omega
  have hcurlen := cur_length bs m (16 * ((m - 1) / 16)) (le_of_lt hlt)
  have hcurlen16 : ((bs.take m).drop (16 * ((m - 1) / 16))).length = 16 := by
    rw [hcurlen]; omega
  have hcurb : ∀ x ∈ (bs.take m).drop (16 * ((m - 1) / 16)), x < 256 :=
    fun x hx => hbytes x (List.mem_of_mem_take (List.mem_of_mem_drop hx))
  have hprelen := hexes_length _ hcurb
  have hchunk : chunk16 bs ((m - 1) / 16) = (bs.take m).drop (16 * ((m - 1) / 16)) := by
    unfold chunk16
    rw [List.drop_take]
    congr 1
    omega
  have htext : (' ' :: fmt_x 2 b).length = 3 := by simp [fmt_x2_byte b hb256]
  obtain ⟨rest1, a1, a2, _, a4, a5⟩ :=
    snprintf_put st.s DEBUG_BUF_SIZE st.idx _ "\n".toList hinv.str hinv.len hinv.idx
      buf_size_lt (by rw [hprelen, hcurlen16]; decide)
  have hnn : ∀ c ∈ hexes ((bs.take m).drop (16 * ((m - 1) / 16))) ++ "\n".toList, c ≠ NUL := by
    intro c hc
    rcases List.mem_append.mp hc with h | h
    · exact hexes_no_nul _ c h
    · have : c = '\n' := by simpa using h
      rw [this]; decide
  obtain ⟨rest2, b1, b2, b3, b4, b5⟩ :=
    snprintf_put (st.s.snprintf DEBUG_BUF_SIZE st.idx "\n".toList).1.unit_done
      DEBUG_BUF_SIZE 0 [] (' ' :: fmt_x 2 b) ⟨_, rfl⟩ a2 rfl buf_size_lt
      (by rw [htext]; decide)
  rw [mpi_emit_break st b (by rw [hj]; omega)]
  obtain ⟨cs, hcs, hok⟩ := hinv.calls
  have hcur : (bs.take (m + 1)).drop (16 * ((m + 1 - 1) / 16)) = [b] := by
    rw [hq', hmq, take_succ_drop bs m m b hb (le_refl _)]
    simp
  refine ⟨?_, ?_, ?_, b2, ?_⟩
  · show ((st.s.snprintf DEBUG_BUF_SIZE st.idx "\n".toList).1.unit_done.snprintf
          DEBUG_BUF_SIZE 0 (' ' :: fmt_x 2 b)).1.lines = _
    rw [b5]
    show (st.s.snprintf DEBUG_BUF_SIZE st.idx "\n".toList).1.lines
      ++ [cstr (st.s.snprintf DEBUG_BUF_SIZE st.idx "\n".toList).1.str] = _
    rw [a5, a1, cstr_append_nul _ _ hnn, hinv.lines, hq', List.range_succ, List.map_append,
      hchunk.symm]
    rfl
  · refine ⟨cs ++ [FmtCall.mk st.idx (DEBUG_BUF_SIZE - st.idx) "\n".toList.length,
      FmtCall.mk 0 (DEBUG_BUF_SIZE - 0) (' ' :: fmt_x 2 b).length], ?_, ?_⟩
    · show ((st.s.snprintf DEBUG_BUF_SIZE st.idx "\n".toList).1.unit_done.snprintf
          DEBUG_BUF_SIZE 0 (' ' :: fmt_x 2 b)).1.calls = _
      rw [b4]
      show (st.s.snprintf DEBUG_BUF_SIZE st.idx "\n".toList).1.calls ++ _ = _
      rw [a4, hcs]
      simp
    · refine calls_ok_append hok ?_
      intro c hc
      simp only [List.mem_cons, List.mem_singleton, List.not_mem_nil, or_false] at hc
      rcases hc with h | h <;> subst h
      · refine ⟨?_, rfl, ?_⟩
        · dsimp only; rw [hinv.idx, hprelen, hcurlen16]
        · dsimp only; rw [hinv.idx, hprelen, hcurlen16]; decide
      · refine ⟨?_, rfl, ?_⟩
        · dsimp only; omega
        · dsimp only; rw [htext]; decide
  · refine ⟨NUL :: rest2, ?_⟩
    rw [hcur]
    show ((st.s.snprintf DEBUG_BUF_SIZE st.idx "\n".toList).1.unit_done.snprintf
          DEBUG_BUF_SIZE 0 (' ' :: fmt_x 2 b)).1.str = _
    rw [b1]; simp [hexes]
  · rw [hcur]
    show 0 + ((st.s.snprintf DEBUG_BUF_SIZE st.idx "\n".toList).1.unit_done.snprintf
          DEBUG_BUF_SIZE 0 (' ' :: fmt_x 2 b)).2 = _
    rw [b3]; simp [hexes]

/-- Rendering further bytes keeps the invariant as long as the byte counter
has not reached `INT_MAX`. -/
theorem mpi_foldl_inv (hdr : List Char) (c0 : FmtCall) (bs : List Nat)
    (hbytes : ∀ x ∈ bs, x < 256) :
    ∀ (mid done rest : List Nat) (st : MpiSt), bs = done ++ (mid ++ rest) →
      done.length + mid.length ≤ 2147483647 →
      MpiInv hdr c0 bs done.length st → st.j = (done.length : Int) →
      MpiInv hdr c0 bs (done.length + mid.length) (mid.foldl mpi_emit st) ∧
        (mid.foldl mpi_emit st).j = ((done.length + mid.length : Nat) : Int) := by
  intro mid
  induction mid with
  | nil =>
    intro done rest st _ _ hinv hj
    exact ⟨hinv, hj⟩
  | cons b t ih =>
    intro done rest st hbs hlen hinv hj
    rw [List.length_cons] at hlen
    have hget : bs[done.length]? = some b := by
      rw [hbs, List.getElem?_append_right (le_refl _)]; simp
    have hstep : MpiInv hdr c0 bs (done.length + 1) (mpi_emit st b) := by
      by_cases h16 : done.length % 16 = 0 ∧ done.length > 0
      · exact mpi_emit_inv_row hdr c0 bs _ st b h16 hget hbytes hinv hj
      · exact mpi_emit_inv_mid hdr c0 bs _ st b h16 hget hbytes hinv hj
    have hj2 : (mpi_emit st b).j = ((done.length + 1 : Nat) : Int) := by
      rw [mpi_emit_j, hj, int_succ_small _ (by omega)]
    have := ih (done ++ [b]) rest (mpi_emit st b) (by rw [hbs]; simp)
      (by rw [List.length_append, List.length_singleton]; omega)
      (by rw [List.length_append]; exact hstep)
      (by rw [List.length_append]; exact hj2)
    rw [List.length_append, List.length_singleton] at this
    rw [List.foldl_cons, List.length_cons]
    have e : done.length + (t.length + 1) = done.length + 1 + t.length := by omega
    rw [e]
    exact this

theorem limb_of_get (X : ttls_mpi) (i v : Nat) (hi : i < X.n) (h : X.p[i]? = some v) :
    X.limb i = some v := by
  unfold ttls_mpi.limb
  rw [if_pos hi, h]

/-- The search for the top limb ends at the highest non-zero limb at or below
`k`, or at `0`. -/
theorem mpi_top_spec (X : ttls_mpi) : ∀ k, k < X.n → k < X.p.length →
    ∃ t, mpi_top X k = some t ∧ t ≤ k ∧
      (∀ i, t < i → i ≤ k → X.p[i]? = some 0) ∧
      (t = 0 ∨ ∃ v, X.p[t]? = some v ∧ v ≠ 0) := by
  intro k
  induction k with
  | zero =>
    intro _ _
    exact ⟨0, rfl, le_refl _, fun i h1 h2 => absurd h1 (by omega), Or.inl rfl⟩
  | succ k ih =>
    intro hn hp
    have hget : X.p[k + 1]? = some X.p[k + 1] := List.getElem?_eq_getElem hp
    have hlimb := limb_of_get X (k + 1) _ hn hget
    by_cases hv : X.p[k + 1] ≠ 0
    · refine ⟨k + 1, ?_, le_refl _, fun i h1 h2 => absurd h1 (by omega),
        Or.inr ⟨_, hget, hv⟩⟩
      unfold mpi_top
      simp only [hlimb]
      exact if_pos hv
    · obtain ⟨t, h1, h2, h3, h4⟩ := ih (by omega) (by omega)
      have hv0 : X.p[k + 1] = 0 := by simpa using hv
      refine ⟨t, ?_, by omega, ?_, h4⟩
      · unfold mpi_top
        simp only [hlimb]
        rw [if_neg hv]
        exact h1
      · intro i hi1 hi2
        by_cases hik : i = k + 1
        · rw [hik, hget, hv0]
        · exact h3 i hi1 (by omega)

theorem bit_at (v k : Nat) : (v >>> k) &&& 1 = v / 2 ^ k % 2 := by
  rw [Nat.and_one_is_mod, Nat.shiftRight_eq_div_pow]

/-- The search for the top bit below position `k` of the limb `v`. -/
theorem mpi_msb_spec (X : ttls_mpi) (n v : Nat) (h : X.limb n = some v) : ∀ k,
    mpi_msb X n k
      = some (if v % 2 ^ k = 0 then -1 else ((Nat.log 2 (v % 2 ^ k) : Nat) : Int)) := by
  intro k
  induction k with
  | zero =>
    simp [mpi_msb, Nat.mod_one]
  | succ k ih =>
    unfold mpi_msb
    simp only [h, bit_at]
    have hsplit : v % 2 ^ (k + 1) = v % 2 ^ k + 2 ^ k * (v / 2 ^ k % 2) := Nat.mod_pow_succ
    have hlow : v % 2 ^ k < 2 ^ k := Nat.mod_lt _ (by positivity)
    by_cases hb : v / 2 ^ k % 2 ≠ 0
    · have hb1 : v / 2 ^ k % 2 = 1 := by omega
      rw [if_pos hb]
      have hge : 2 ^ k ≤ v % 2 ^ (k + 1) := by rw [hsplit, hb1]; omega
      have hlt : v % 2 ^ (k + 1) < 2 ^ (k + 1) := Nat.mod_lt _ (by positivity)
      have hne : ¬ (v % 2 ^ (k + 1) = 0) := by
        have : 0 < 2 ^ k := by positivity
        omega
      rw [if_neg hne, Nat.log_eq_of_pow_le_of_lt_pow hge hlt]
    · have hb0 : v / 2 ^ k % 2 = 0 := by omega
      rw [if_neg hb, ih, hsplit, hb0]
      simp

theorem mpi_bits_zero (ciL : Nat) : mpi_bits ciL 0 (-1) = 0 := by
  unfold mpi_bits
  have : int_to_size (-1) = SIZE_MOD - 1 := by decide
  rw [this]
  simp [SIZE_MOD, to_int, UINT_MOD]

theorem mpi_msb_top_bit (X : ttls_mpi) (n v : Nat) (h : X.limb n = some v) (k : Nat) :
    mpi_msb X n k = some (top_bit k v) := mpi_msb_spec X n v h k

theorem mpi_header_no_nul (text : List Char) (bits : Int) :
    ∀ c ∈ mpi_header text bits, c ≠ NUL := by
  intro c hc
  unfold mpi_header at hc
  simp only [List.mem_append] at hc
  rcases hc with (((h | h) | h) | h) | h
  · revert c; decide
  · exact cstr_no_nul _ c h
  · revert c; decide
  · exact fmt_d_no_nul _ c h
  · revert c; decide

theorem limb_be_lt (v : Nat) : ∀ k, ∀ b ∈ limb_be v k, b < 256 := by
  intro k
  induction k with
  | zero => intro b hb; simp [limb_be] at hb
  | succ k ih =>
    intro b hb
    simp only [limb_be, List.mem_cons] at hb
    rcases hb with h | h
    · rw [h]; exact byte_at_lt v k
    · exact ih b h

theorem limbs_be_lt (ciL : Nat) : ∀ l : List Nat, ∀ b ∈ limbs_be ciL l, b < 256 := by
  intro l
  induction l with
  | nil => intro b hb; simp [limbs_be] at hb
  | cons v t ih =>
    intro b hb
    simp only [limbs_be, List.mem_append] at hb
    rcases hb with h | h
    · exact ih b h
    · exact limb_be_lt v ciL b h

theorem pending_lt (z : Bool) (bs : List Nat) (h : ∀ b ∈ bs, b < 256) :
    ∀ b ∈ pending z bs, b < 256 := by
  intro b hb
  unfold pending at hb
  split at hb
  · exact h b (List.dropWhile_subset _ hb)
  · exact h b hb

theorem mpi_rows_zero : mpi_rows [0] = [" 00\n".toList] := by decide

/-- The end of `ttls_debug_print_mpi` after the limb loop, for the bytes `D`
the loop has rendered (none when `zeros` is still set). -/
theorem mpi_finish_spec (hdr : List Char) (c0 : FmtCall) (D : List Nat) (st : MpiSt)
    (hbytes : ∀ x ∈ D, x < 256) (hinv : MpiInv hdr c0 D D.length st)
    (hz : st.zeros = D.isEmpty) :
    ∃ cs, mpi_finish st = ⟨c0 :: cs, hdr :: mpi_rows (if D = [] then [0] else D)⟩ ∧
      calls_ok 48 cs := by
  obtain ⟨cs, hcs, hok⟩ := hinv.calls
  cases D with
  | nil =>
    have hz' : st.zeros = true := by simpa using hz
    have hidx : st.idx = 0 := by have := hinv.idx; simpa [hexes] using this
    unfold mpi_finish
    rw [if_pos hz']
    dsimp only
    obtain ⟨rest1, a1, a2, a3, a4, a5⟩ :=
      snprintf_put st.s DEBUG_BUF_SIZE st.idx [] " 00".toList ⟨_, rfl⟩ hinv.len hidx
        buf_size_lt (by decide)
    obtain ⟨rest2, b1, b2, _, b4, b5⟩ :=
      snprintf_put (st.s.snprintf DEBUG_BUF_SIZE st.idx " 00".toList).1 DEBUG_BUF_SIZE
        (st.idx + (st.s.snprintf DEBUG_BUF_SIZE st.idx " 00".toList).2)
        ([] ++ " 00".toList) "\n".toList ⟨_, a1⟩ a2 (by rw [a3, hidx]; rfl) buf_size_lt
        (by decide)
    refine ⟨cs ++ [FmtCall.mk st.idx (DEBUG_BUF_SIZE - st.idx) " 00".toList.length,
      FmtCall.mk (st.idx + (st.s.snprintf DEBUG_BUF_SIZE st.idx " 00".toList).2)
        (DEBUG_BUF_SIZE - (st.idx + (st.s.snprintf DEBUG_BUF_SIZE st.idx " 00".toList).2))
        "\n".toList.length], ?_, ?_⟩
    · simp only [Scratch.rendered, Scratch.unit_done]
      rw [b4, b5, b1, a4, a5, hcs, hinv.lines,
        cstr_append_nul _ _ (by decide)]
      simp only [if_true, mpi_rows_zero]
      simp
    · refine calls_ok_append hok ?_
      intro c hc
      simp only [List.mem_cons, List.mem_singleton, List.not_mem_nil, or_false] at hc
      rcases hc with h | h <;> subst h
      · refine ⟨?_, rfl, ?_⟩
        · dsimp only; omega
        · dsimp only; rw [hidx]; decide
      · refine ⟨?_, rfl, ?_⟩
        · dsimp only; rw [a3, hidx]; decide
        · dsimp only; rw [a3, hidx]; decide
  | cons d t =>
    have hz' : ¬ st.zeros = true := by simp [hz]
    unfold mpi_finish
    rw [if_neg hz']
    dsimp only
    have hlen1 : 0 < (d :: t).length := by simp
    have hcurlen := cur_length (d :: t) (d :: t).length (16 * (((d :: t).length - 1) / 16))
      (le_refl _)
    have hcurb : ∀ x ∈ ((d :: t).take (d :: t).length).drop
        (16 * (((d :: t).length - 1) / 16)), x < 256 :=
      fun x hx => hbytes x (List.mem_of_mem_take (List.mem_of_mem_drop hx))
    have hprelen := hexes_length _ hcurb
    obtain ⟨rest1, a1, _, _, a4, a5⟩ :=
      snprintf_put st.s DEBUG_BUF_SIZE st.idx _ "\n".toList hinv.str hinv.len hinv.idx
        buf_size_lt (by
          rw [hprelen, hcurlen]
          simp only [DEBUG_BUF_SIZE, String.toList, List.length_cons, List.length_nil]
          omega)
    have hnn : ∀ c ∈ hexes (((d :: t).take (d :: t).length).drop
        (16 * (((d :: t).length - 1) / 16))) ++ "\n".toList, c ≠ NUL := by
      intro c hc
      rcases List.mem_append.mp hc with h | h
      · exact hexes_no_nul _ c h
      · have : c = '\n' := by simpa using h
        rw [this]; decide
    have hchunk : chunk16 (d :: t) (((d :: t).length - 1) / 16)
        = ((d :: t).take (d :: t).length).drop (16 * (((d :: t).length - 1) / 16)) := by
      unfold chunk16
      rw [List.take_length, List.take_of_length_le]
      rw [List.length_drop]; omega
    refine ⟨cs ++ [FmtCall.mk st.idx (DEBUG_BUF_SIZE - st.idx) "\n".toList.length], ?_, ?_⟩
    · simp only [Scratch.rendered, Scratch.unit_done]
      rw [a4, a5, a1, hcs, hinv.lines, cstr_append_nul _ _ hnn]
      have hq : ((d :: t).length + 15) / 16 = ((d :: t).length - 1) / 16 + 1 := by omega
      rw [if_neg (List.cons_ne_nil d t)]
      unfold mpi_rows
      rw [hq, List.range_succ, List.map_append]
      simp only [List.map_cons, List.map_nil, hchunk]
      rfl
    · apply calls_ok_snoc hok
      · rw [hinv.idx, hprelen, hcurlen]; omega
      · rw [hinv.idx, hprelen, hcurlen]
        simp only [DEBUG_BUF_SIZE, String.toList, List.length_cons, List.length_nil]
        omega

theorem mpi_render_finish (ciL : Nat) (text : List Char) (X : ttls_mpi) (junk : List Char)
    (n : Nat) (j : Int) (st : MpiSt)
    (h1 : mpi_top X (size_sub X.n 1) = some n) (h2 : mpi_msb X n (ciL <<< 3) = some j)
    (h3 : mpi_limbs ciL X (n + 1)
      ⟨((⟨stack_buf junk DEBUG_BUF_SIZE, [], []⟩ : Scratch).snprintf DEBUG_BUF_SIZE 0
        (mpi_header text (mpi_bits ciL n j))).1.unit_done, 0, 0, true⟩ = some st) :
    mpi_render ciL text X junk = some (mpi_finish st) := by
  unfold mpi_render
  simp only [h1, h2]
  rw [h3]

theorem drop_zero_of_top (p : List Nat) (t : Nat)
    (h : ∀ i, t < i → i < p.length → p[i]? = some 0) : ∀ x ∈ p.drop (t + 1), x = 0 := by
  intro x hx
  obtain ⟨i, hi, hxi⟩ := List.mem_iff_getElem.mp hx
  rw [List.length_drop] at hi
  rw [List.getElem_drop] at hxi
  have := h (t + 1 + i) (by omega) (by omega)
  rw [List.getElem?_eq_getElem (by omega)] at this
  rw [← hxi]
  exact Option.some.inj this

theorem limbs_be_append (ciL : Nat) (a b : List Nat) :
    limbs_be ciL (a ++ b) = limbs_be ciL b ++ limbs_be ciL a := by
  induction a with
  | nil => simp [limbs_be]
  | cons x t ih => simp [limbs_be, ih]

theorem pending_zero_limbs (ciL : Nat) : ∀ l : List Nat, (∀ v ∈ l, v = 0) →
    pending true (limbs_be ciL l) = [] := by
  intro l
  induction l with
  | nil => intro _; rfl
  | cons v t ih =>
    intro h
    have hv : v = 0 := h v (by simp)
    have ht := ih (fun x hx => h x (by simp [hx]))
    simp only [limbs_be]
    rw [pending_append, ht, hv]
    simp [limb_be_zero]

/-- Zero limbs above the top limb render no byte. -/
theorem pending_top (ciL : Nat) (p : List Nat) (t : Nat)
    (h : ∀ x ∈ p.drop (t + 1), x = 0) :
    pending true (limbs_be ciL (p.take (t + 1))) = pending true (limbs_be ciL p) := by
  conv_rhs => rw [← List.take_append_drop (t + 1) p]
  rw [limbs_be_append, pending_append, pending_zero_limbs ciL _ h]
  rfl

theorem pending_le_dump (ciL : Nat) (p : List Nat) :
    (pending true (limbs_be ciL p)).length ≤ (mpi_dump_bytes ciL p).length := by
  unfold mpi_dump_bytes
  split
  · rename_i h
    rw [h]
    exact Nat.zero_le _
  · exact le_refl _

/-- The state before the limb loop satisfies the invariant of the loop. -/
theorem mpi_start_inv (text junk : List Char) (bits : Int) (bs : List Nat) :
    MpiInv ((mpi_header text bits).take (DEBUG_BUF_SIZE - 1))
      (FmtCall.mk 0 DEBUG_BUF_SIZE (mpi_header text bits).length) bs ([] : List Nat).length
      (mpi_start text junk bits) := by
  obtain ⟨g1, g2, g3⟩ := head_unit junk DEBUG_BUF_SIZE (mpi_header text bits)
    (by decide) buf_size_lt (mpi_header_no_nul text _)
  refine ⟨?_, ⟨[], ?_, fun c hc => by simp at hc⟩, ⟨(mpi_start text junk bits).s.str, ?_⟩,
    g3, ?_⟩
  · show ((⟨stack_buf junk DEBUG_BUF_SIZE, [], []⟩ : Scratch).snprintf DEBUG_BUF_SIZE 0
      (mpi_header text bits)).1.unit_done.lines = _
    rw [g1]; rfl
  · show ((⟨stack_buf junk DEBUG_BUF_SIZE, [], []⟩ : Scratch).snprintf DEBUG_BUF_SIZE 0
      (mpi_header text bits)).1.unit_done.calls = _
    rw [g2]
  · simp [hexes]
  · show (0 : Nat) = _
    simp [hexes]

/-- What `ttls_debug_print_mpi` does behind the gate for a big integer with at
least one limb: `t` is the top limb the search ends at, `v` its value; the
header is formatted, then the bytes of the limbs up to `t` that are not leading
zero bytes are rendered one by one, then the dump is finished. -/
theorem mpi_render_closed (ciL : Nat) (text : List Char) (X : ttls_mpi) (junk : List Char)
    (hn : 1 ≤ X.n) (hp : X.p.length = X.n) (hsz : X.n < SIZE_MOD) :
    ∃ t v, t < X.n ∧ X.p[t]? = some v ∧
      (∀ i, t < i → i < X.n → X.p[i]? = some 0) ∧ (t = 0 ∨ v ≠ 0) ∧
      mpi_render ciL text X junk = some (mpi_finish
        ((pending true (limbs_be ciL (X.p.take (t + 1)))).foldl mpi_emit
          (mpi_start text junk (mpi_bits ciL t (top_bit (ciL <<< 3) v))))) := by
  have hsub : size_sub X.n 1 = X.n - 1 := size_sub_of_le hn hsz
  obtain ⟨t, ht1, ht2, ht3, ht4⟩ := mpi_top_spec X (X.n - 1) (by omega) (by omega)
  have htn : t < X.n := by omega
  have htp : t < X.p.length := by omega
  have hget : X.p[t]? = some X.p[t] := List.getElem?_eq_getElem htp
  have hlimb := limb_of_get X t _ htn hget
  have hmsb := mpi_msb_top_bit X t _ hlimb (ciL <<< 3)
  have hlimbs := mpi_limbs_eq ciL X (t + 1)
    (mpi_start text junk (mpi_bits ciL t (top_bit (ciL <<< 3) X.p[t]))) (by omega) (by omega)
  have hfin := mpi_render_finish ciL text X junk t _ _ (by rw [hsub]; exact ht1) hmsb hlimbs
  refine ⟨t, X.p[t], htn, hget, fun i h1 h2 => ht3 i h1 (by omega), ?_, ?_⟩
  · rcases ht4 with h | ⟨v, hv1, hv2⟩
    · exact Or.inl h
    · rw [hget] at hv1
      exact Or.inr (by rw [Option.some.inj hv1]; exact hv2)
  · rw [hfin]
    rfl

/-- The dump of a big integer with at least one limb is made, whatever its
size. -/
theorem mpi_render_some (ciL : Nat) (text : List Char) (X : ttls_mpi) (junk : List Char)
    (hn : 1 ≤ X.n) (hp : X.p.length = X.n) (hsz : X.n < SIZE_MOD) :
    ∃ out, mpi_render ciL text X junk = some out := by
  obtain ⟨_, _, _, _, _, _, h⟩ := mpi_render_closed ciL text X junk hn hp hsz
  exact ⟨_, h⟩

/-- What `ttls_debug_print_mpi` renders behind the gate for a big integer with
at least one limb that renders fewer than `2 ^ 31` bytes: `t` is the top limb
the search ends at, `v` its value. -/
theorem mpi_render_spec (ciL : Nat) (text : List Char) (X : ttls_mpi) (junk : List Char)
    (hn : 1 ≤ X.n) (hp : X.p.length = X.n) (hsz : X.n < SIZE_MOD)
    (hsmall : (mpi_dump_bytes ciL X.p).length < 2 ^ 31) :
    ∃ t v, t < X.n ∧ X.p[t]? = some v ∧
      (∀ i, t < i → i < X.n → X.p[i]? = some 0) ∧ (t = 0 ∨ v ≠ 0) ∧
      ∃ cs, mpi_render ciL text X junk = some
          ⟨FmtCall.mk 0 DEBUG_BUF_SIZE
              (mpi_header text (mpi_bits ciL t (top_bit (ciL <<< 3) v))).length :: cs,
           (mpi_header text (mpi_bits ciL t (top_bit (ciL <<< 3) v))).take (DEBUG_BUF_SIZE - 1)
              :: mpi_rows (mpi_dump_bytes ciL (X.p.take (t + 1)))⟩ ∧
        calls_ok 48 cs := by
  obtain ⟨t, v, htn, hget, hzero, ht0, hr⟩ := mpi_render_closed ciL text X junk hn hp hsz
  have hDb : ∀ x ∈ pending true (limbs_be ciL (X.p.take (t + 1))), x < 256 :=
    pending_lt true _ (limbs_be_lt ciL _)
  have htop := pending_top ciL X.p t (drop_zero_of_top X.p t (by rw [hp]; exact hzero))
  have hlen : (pending true (limbs_be ciL (X.p.take (t + 1)))).length ≤ 2147483647 := by
    have h1 := pending_le_dump ciL X.p
    have h2 : (2 : Nat) ^ 31 = 2147483648 := by norm_num
    rw [htop]
    omega
  obtain ⟨hinv, _⟩ := mpi_foldl_inv _ _ _ hDb (pending true (limbs_be ciL (X.p.take (t + 1))))
    [] [] (mpi_start text junk (mpi_bits ciL t (top_bit (ciL <<< 3) v)))
    (by simp) (by simpa using hlen) (mpi_start_inv text junk _ _) rfl
  have hz : (List.foldl mpi_emit (mpi_start text junk (mpi_bits ciL t (top_bit (ciL <<< 3) v)))
      (pending true (limbs_be ciL (X.p.take (t + 1))))).zeros
      = (pending true (limbs_be ciL (X.p.take (t + 1)))).isEmpty := by
    rw [foldl_emit_zeros]; rfl
  rw [List.length_nil, Nat.zero_add] at hinv
  obtain ⟨cs, hcs, hok⟩ := mpi_finish_spec _ _ _ _ hDb hinv hz
  refine ⟨t, v, htn, hget, hzero, ht0, cs, ?_, hok⟩
  rw [hr, hcs]
  rfl

theorem byte_at_eq (v k : Nat) : byte_at v k = v / 256 ^ k % 256 := by
  unfold byte_at
  rw [and_ff, Nat.shiftRight_eq_div_pow, Nat.shiftLeft_eq]
  have : 2 ^ (k * 2 ^ 3) = 256 ^ k := by
    rw [show (256 : Nat) = 2 ^ 8 by norm_num, ← pow_mul]
    congr 1
    omega
  rw [this]

theorem limb_be_length (v : Nat) : ∀ k, (limb_be v k).length = k := by
  intro k
  induction k with
  | zero => rfl
  | succ k ih => simp [limb_be, ih]

theorem limbs_be_length (ciL : Nat) : ∀ l : List Nat, (limbs_be ciL l).length = ciL * l.length := by
  intro l
  induction l with
  | nil => rfl
  | cons v t ih =>
    simp only [limbs_be, List.length_append, ih, limb_be_length, List.length_cons]
    ring

/-- The bytes of a limb, least significant first, are its base-256 digits. -/
theorem ofDigits_limb_be (v : Nat) : ∀ k,
    Nat.ofDigits 256 (limb_be v k).reverse = v % 256 ^ k := by
  intro k
  induction k with
  | zero => simp [limb_be, Nat.mod_one]
  | succ k ih =>
    simp only [limb_be, List.reverse_cons]
    rw [Nat.ofDigits_append, ih, List.length_reverse, limb_be_length, Nat.ofDigits_singleton,
      byte_at_eq, Nat.mod_pow_succ]

/-- The bytes of a list of limbs, least significant first, have the value of
the limbs. -/
theorem ofDigits_limbs_be (ciL : Nat) : ∀ l : List Nat, (∀ v ∈ l, v < 256 ^ ciL) →
    Nat.ofDigits 256 (limbs_be ciL l).reverse = Nat.ofDigits (256 ^ ciL) l := by
  intro l
  induction l with
  | nil => intro _; rfl
  | cons v t ih =>
    intro h
    have hv : v < 256 ^ ciL := h v (by simp)
    simp only [limbs_be, List.reverse_append]
    rw [Nat.ofDigits_append, ofDigits_limb_be, List.length_reverse, limb_be_length,
      ih (fun x hx => h x (by simp [hx])), Nat.ofDigits_cons, Nat.mod_eq_of_lt hv]

theorem ofDigits_zeros (b : Nat) : ∀ l : List Nat, (∀ x ∈ l, x = 0) → Nat.ofDigits b l = 0 := by
  intro l
  induction l with
  | nil => intro _; rfl
  | cons x t ih =>
    intro h
    rw [Nat.ofDigits_cons, h x (by simp), ih (fun y hy => h y (by simp [hy]))]
    simp

theorem pending_split (bs : List Nat) :
    ∃ z, bs = List.replicate z 0 ++ pending true bs := by
  induction bs with
  | nil => exact ⟨0, rfl⟩
  | cons x t ih =>
    by_cases hx : x = 0
    · obtain ⟨z, hz⟩ := ih
      refine ⟨z + 1, ?_⟩
      subst hx
      rw [pending_cons_zero, List.replicate_succ, List.cons_append, ← hz]
    · exact ⟨0, by rw [pending_cons_ne x t hx]; rfl⟩

theorem pending_head (bs : List Nat) (h : pending true bs ≠ []) :
    (pending true bs).head h ≠ 0 := by
  have := List.head_dropWhile_not (fun b => decide (b = 0)) bs (by simpa [pending] using h)
  simpa [pending] using this

/-- The rendered bytes, read as base-256 digits, have the value of the limbs. -/
theorem ofDigits_pending (bs : List Nat) :
    Nat.ofDigits 256 (pending true bs).reverse = Nat.ofDigits 256 bs.reverse := by
  obtain ⟨z, hz⟩ := pending_split bs
  have : bs.reverse = (pending true bs).reverse ++ List.replicate z 0 := by
    conv_lhs => rw [hz]
    simp
  rw [this, Nat.ofDigits_append, ofDigits_zeros 256 (List.replicate z 0)
    (fun x hx => (List.mem_replicate.mp hx).2)]
  simp

/-- The rendered bytes are the base-256 digits of their value, most
significant first. -/
theorem digits_pending (bs : List Nat) (hb : ∀ b ∈ bs, b < 256) :
    (Nat.digits 256 (Nat.ofDigits 256 bs.reverse)).reverse = pending true bs := by
  rw [← ofDigits_pending bs]
  rw [Nat.digits_ofDigits 256 (by decide) (pending true bs).reverse
    (fun x hx => pending_lt true bs hb x (List.mem_reverse.mp hx))
    (fun hne => by
      have hne' : pending true bs ≠ [] := by simpa using hne
      rw [List.getLast_reverse]
      exact pending_head bs hne')]
  exact List.reverse_reverse _

theorem limb_base (ciL : Nat) : 2 ^ (8 * ciL) = 256 ^ ciL := by
  rw [show (256 : Nat) = 2 ^ 8 by norm_num, ← pow_mul]

theorem shl3 (ciL : Nat) : ciL <<< 3 = 8 * ciL := by
  rw [Nat.shiftLeft_eq]; omega

/-- Limbs above the top limb do not contribute to the value. -/
theorem mpi_value_top (ciL : Nat) (X : ttls_mpi) (t : Nat) (hp : X.p.length = X.n)
    (h : ∀ i, t < i → i < X.n → X.p[i]? = some 0) :
    mpi_value ciL X = Nat.ofDigits (2 ^ (8 * ciL)) (X.p.take (t + 1)) := by
  unfold mpi_value
  rw [← hp, List.take_length]
  conv_lhs => rw [← List.take_append_drop (t + 1) X.p]
  rw [Nat.ofDigits_append, ofDigits_zeros _ _ (drop_zero_of_top X.p t (by rw [hp]; exact h))]
  simp

/-- The bytes rendered for a big integer are the big-endian bytes of its
value without leading zero bytes. -/
theorem mpi_pending_digits (ciL : Nat) (X : ttls_mpi) (t : Nat) (hp : X.p.length = X.n)
    (hlimbs : ∀ v ∈ X.p, v < 2 ^ (8 * ciL))
    (h : ∀ i, t < i → i < X.n → X.p[i]? = some 0) :
    pending true (limbs_be ciL (X.p.take (t + 1)))
      = (Nat.digits 256 (mpi_value ciL X)).reverse := by
  rw [mpi_value_top ciL X t hp h, limb_base,
    ← ofDigits_limbs_be ciL _ (fun v hv => by
      rw [← limb_base]; exact hlimbs v (List.mem_of_mem_take hv)),
    digits_pending _ (limbs_be_lt ciL _)]

theorem ofDigits_eq_zero (b : Nat) (hb : 0 < b) : ∀ l : List Nat,
    Nat.ofDigits b l = 0 → ∀ x ∈ l, x = 0 := by
  intro l
  induction l with
  | nil => intro _ x hx; simp at hx
  | cons y t ih =>
    intro h x hx
    rw [Nat.ofDigits_cons] at h
    have h1 : y = 0 := by omega
    have h2 : b * Nat.ofDigits b t = 0 := by omega
    have h3 : Nat.ofDigits b t = 0 := by
      rcases Nat.mul_eq_zero.mp h2 with h | h
      · omega
      · exact h
    rcases List.mem_cons.mp hx with h | h
    · rw [h, h1]
    · exact ih h3 x h

/-- A big integer with a non-zero limb has a non-zero value. -/
theorem mpi_value_ne_zero (ciL : Nat) (X : ttls_mpi) (hp : X.p.length = X.n)
    (hnz : ∃ v ∈ X.p, v ≠ 0) : mpi_value ciL X ≠ 0 := by
  intro h
  obtain ⟨v, hv, hv0⟩ := hnz
  unfold mpi_value at h
  rw [← hp, List.take_length] at h
  exact hv0 (ofDigits_eq_zero _ (by positivity) X.p h v hv)

theorem mpi_value_zero (ciL : Nat) (X : ttls_mpi) (hz : ∀ v ∈ X.p, v = 0) :
    mpi_value ciL X = 0 := by
  unfold mpi_value
  exact ofDigits_zeros _ _ (fun x hx => hz x (List.mem_of_mem_take hx))

theorem top_bit_log (ciL v : Nat) (hv : v < 2 ^ (8 * ciL)) (hv0 : v ≠ 0) :
    top_bit (ciL <<< 3) v = ((Nat.log 2 v : Nat) : Int) := by
  unfold top_bit
  rw [shl3, Nat.mod_eq_of_lt hv, if_neg hv0]

theorem top_bit_zero (k : Nat) : top_bit k 0 = -1 := by
  unfold top_bit
  simp

theorem mpi_gate_open (g : Globals) (ciL : Nat) (ssl : ttls_context) (L : Int)
    (text : List Char) (X : ttls_mpi) (junk : List Char)
    (hconf : ssl.conf ≠ none) (hlev : L ≤ g.debug_threshold) :
    ttls_debug_print_mpi g ciL ssl L text (some X) junk = mpi_render ciL text X junk := by
  show (if ssl.conf = none ∨ L > g.debug_threshold then some Rendered.nothing
    else mpi_render ciL text X junk) = _
  rw [if_neg]
  rintro (h | h)
  · exact hconf h
  · omega

theorem parse_cols_line (chunk : List Nat) (h : ∀ b ∈ chunk, b < 256) :
    parse_cols (hexes chunk ++ "\n".toList) = chunk := by
  rw [parse_cols_hexes chunk _ h]
  simp [parse_cols]

/-- Reading all body lines of a dump back gives the rendered bytes. -/
theorem mpi_rows_bytes (bs : List Nat) (h : ∀ b ∈ bs, b < 256) :
    ((mpi_rows bs).map parse_cols).flatten = bs := by
  unfold mpi_rows
  rw [List.map_map]
  have h1 : (List.range ((bs.length + 15) / 16)).map
        (parse_cols ∘ fun r => hexes (chunk16 bs r) ++ "\n".toList)
      = (List.range ((bs.length + 15) / 16)).map (chunk16 bs) := by
    apply List.map_congr_left
    intro r _
    rw [Function.comp_apply]
    exact parse_cols_line _ (fun b hb => h b (chunk16_mem bs r b hb))
  rw [h1]
  exact chunks_flatten _ bs (by omega)

/-- The dump of a big integer whose limbs are all zero. -/
theorem mpi_zero_spec (ciL : Nat) (text : List Char) (X : ttls_mpi) (junk : List Char)
    (hn : 1 ≤ X.n) (hp : X.p.length = X.n) (hsz : X.n < SIZE_MOD)
    (hz : ∀ v ∈ X.p, v = 0) :
    ∃ cs, mpi_render ciL text X junk = some
        ⟨FmtCall.mk 0 DEBUG_BUF_SIZE (mpi_header text 0).length :: cs,
         [(mpi_header text 0).take (DEBUG_BUF_SIZE - 1), " 00\n".toList]⟩ ∧
      calls_ok 48 cs := by
  have hsmall : (mpi_dump_bytes ciL X.p).length < 2 ^ 31 := by
    unfold mpi_dump_bytes
    rw [pending_zero_limbs ciL _ hz, if_pos rfl]
    norm_num
  obtain ⟨t, v, _, hget, _, ht0, cs, hr, hok⟩ :=
    mpi_render_spec ciL text X junk hn hp hsz hsmall
  have hv : v = 0 := hz v (List.getElem?_mem hget)
  have ht : t = 0 := by
    rcases ht0 with h | h
    · exact h
    · exact absurd hv h
  subst hv
  subst ht
  have hD : mpi_dump_bytes ciL (X.p.take (0 + 1)) = [0] := by
    unfold mpi_dump_bytes
    rw [pending_zero_limbs ciL _ (fun x hx => hz x (List.mem_of_mem_take hx))]
    rfl
  rw [top_bit_zero, mpi_bits_zero, hD, mpi_rows_zero] at hr
  exact ⟨cs, hr, hok⟩

theorem mpi_top_fail (X : ttls_mpi) (k : Nat) (h : X.limb (k + 1) = none) :
    mpi_top X (k + 1) = none := by
  unfold mpi_top
  simp only [h]

/-- With a declared limb count of `0` the search for the top limb starts at
index `2 ^ 64 - 1`, which is outside the big integer. -/
theorem mpi_render_no_limbs (ciL : Nat) (text : List Char) (X : ttls_mpi) (junk : List Char)
    (h : X.n = 0) :
    size_sub X.n 1 = 2 ^ 64 - 1 ∧ X.limb (size_sub X.n 1) = none ∧
      mpi_render ciL text X junk = none := by
  have hs : size_sub X.n 1 = 18446744073709551614 + 1 := by
    rw [h]; decide
  have hl : X.limb (18446744073709551614 + 1) = none := by
    unfold ttls_mpi.limb
    rw [if_neg (by omega)]
  refine ⟨by rw [hs]; norm_num, by rw [hs]; exact hl, ?_⟩
  unfold mpi_render
  rw [hs, mpi_top_fail X _ hl]

theorem row_text_length (off : Nat) (chunk : List Nat) (hoff : off < 65536)
    (hlen : chunk.length ≤ 16) (h : ∀ b ∈ chunk, b < 256) :
    (row_text off chunk).length = 57 + chunk.length := by
  unfold row_text
  rw [fmt_x4_short off hoff]
  simp only [List.length_append, hexes_length chunk h, List.length_replicate, List.length_map,
    String.toList, List.length_cons, List.length_nil]
  omega

theorem buf_rows_short (bs : List Nat) (hlen : bs.length ≤ 4096) (h : ∀ b ∈ bs, b < 256) :
    ∀ l ∈ buf_rows bs, l.length < DEBUG_BUF_SIZE := by
  intro l hl
  unfold buf_rows at hl
  obtain ⟨r, hr, rfl⟩ := List.mem_map.mp hl
  have hr' : r < (bs.length + 15) / 16 := List.mem_range.mp hr
  rw [row_text_length _ _ (by omega) (chunk16_length bs r)
    (fun b hb => h b (chunk16_mem bs r b hb))]
  have := chunk16_length bs r
  simp only [DEBUG_BUF_SIZE]
  omega

theorem mpi_rows_short (bs : List Nat) (h : ∀ b ∈ bs, b < 256) :
    ∀ l ∈ mpi_rows bs, l.length < DEBUG_BUF_SIZE := by
  intro l hl
  unfold mpi_rows at hl
  obtain ⟨r, _, rfl⟩ := List.mem_map.mp hl
  rw [List.length_append, hexes_length _ (fun b hb => h b (chunk16_mem bs r b hb))]
  have := chunk16_length bs r
  simp only [DEBUG_BUF_SIZE, String.toList, List.length_cons, List.length_nil]
  omega

/-- From the shape of a dump to the discipline of its scratch buffer. -/
theorem scratch_ok_of (bound len0 : Nat) (cs : List FmtCall) (hdr : List Char)
    (rows : List (List Char)) (hb : bound < DEBUG_BUF_SIZE) (hok : calls_ok bound cs)
    (hrows : ∀ l ∈ rows, l.length < DEBUG_BUF_SIZE) :
    scratch_ok bound ⟨FmtCall.mk 0 DEBUG_BUF_SIZE len0 :: cs,
      hdr.take (DEBUG_BUF_SIZE - 1) :: rows⟩ := by
  refine ⟨?_, ?_, ?_⟩
  · intro c hc
    rcases List.mem_cons.mp hc with h | h
    · subst h
      refine ⟨Nat.zero_le _, rfl, ?_⟩
      unfold FmtCall.last
      simp only [DEBUG_BUF_SIZE]
      omega
    · obtain ⟨h1, h2, h3⟩ := hok c h
      refine ⟨h1, h2, ?_⟩
      unfold FmtCall.last
      rw [h2] at h3 ⊢
      simp only [DEBUG_BUF_SIZE] at *
      omega
  · intro c hc
    exact (hok c hc).2.2
  · intro l hl
    rcases List.mem_cons.mp hl with h | h
    · rw [h, List.length_take]
      simp only [DEBUG_BUF_SIZE]
      omega
    · exact hrows l h

/-! ## The big-integer dump -/

/-- C2 (where the byte counter `int j` does not overflow): with the gate open,
for every big integer with at least one limb (limb memory matching the declared
count, limbs of `ciL` bytes), at least one non-zero limb and fewer than
`2 ^ 31` bytes to render, the body lines of `ttls_debug_print_mpi` are the
lines of the big-endian bytes of the value without leading zero bytes, sixteen
a line, and the hex pairs read back from the body lines in order are exactly
those bytes: the base-256 digits of the value, most significant first. -/
theorem mpi_dump_is_value (g : Globals) (ciL : Nat) (ssl : ttls_context) (L : Int)
    (text : List Char) (X : ttls_mpi) (junk : List Char)
    (hconf : ssl.conf ≠ none) (hlev : L ≤ g.debug_threshold)
    (hwf : mpi_wf ciL X) (hnz : ∃ v ∈ X.p, v ≠ 0)
    (hsmall : (mpi_dump_bytes ciL X.p).length < 2 ^ 31) :
    ∃ r, ttls_debug_print_mpi g ciL ssl L text (some X) junk = some r ∧
      r.lines.tail = mpi_rows (Nat.digits 256 (mpi_value ciL X)).reverse ∧
      (r.lines.tail.map parse_cols).flatten = (Nat.digits 256 (mpi_value ciL X)).reverse := by
  obtain ⟨hn, hp, hsz, hlimbs⟩ := hwf
  obtain ⟨t, v, _, _, hzero, _, cs, hr, _⟩ :=
    mpi_render_spec ciL text X junk hn hp hsz hsmall
  have hD := mpi_pending_digits ciL X t hp hlimbs hzero
  have hne : (Nat.digits 256 (mpi_value ciL X)).reverse ≠ [] := by
    intro h
    have h1 : Nat.digits 256 (mpi_value ciL X) = [] := by simpa using h
    exact mpi_value_ne_zero ciL X hp hnz (Nat.digits_eq_nil_iff_eq_zero.mp h1)
  have hdump : mpi_dump_bytes ciL (X.p.take (t + 1))
      = (Nat.digits 256 (mpi_value ciL X)).reverse := by
    unfold mpi_dump_bytes
    rw [hD, if_neg hne]
  rw [hdump] at hr
  refine ⟨_, by rw [mpi_gate_open g ciL ssl L text X junk hconf hlev]; exact hr, ?_, ?_⟩
  · rfl
  · show ((mpi_rows (Nat.digits 256 (mpi_value ciL X)).reverse).map parse_cols).flatten = _
    exact mpi_rows_bytes _ (fun b hb => Nat.digits_lt_base (by decide) (List.mem_reverse.mp hb))

/-- C2 at the two-limb value `10 * 2 ^ 64 + 258` with limbs of eight bytes. -/
theorem mpi_dump_is_value_witness :
    ∃ r, ttls_debug_print_mpi ⟨1⟩ 8 ⟨some ()⟩ 1 "X".toList (some ⟨1, 2, [258, 10]⟩) [] = some r ∧
      (r.lines.tail.map parse_cols).flatten
        = (Nat.digits 256 (mpi_value 8 ⟨1, 2, [258, 10]⟩)).reverse := by
  obtain ⟨r, h1, _, h3⟩ :=
    mpi_dump_is_value ⟨1⟩ 8 ⟨some ()⟩ 1 "X".toList ⟨1, 2, [258, 10]⟩ []
      (by decide) (by decide) (by unfold mpi_wf; decide) ⟨258, by decide, by decide⟩
      (by decide)
  exact ⟨r, h1, h3⟩

/-- C4 at a big integer with a declared limb count of `0`: the search for the
top limb starts at `X->n - 1`, which is `2 ^ 64 - 1` in `size_t`, and the
first limb read `X->p[2 ^ 64 - 1]` is outside the big integer. -/
theorem mpi_no_limbs_reads_outside :
    size_sub (⟨1, 0, []⟩ : ttls_mpi).n 1 = 2 ^ 64 - 1 ∧
    (⟨1, 0, []⟩ : ttls_mpi).limb (size_sub (⟨1, 0, []⟩ : ttls_mpi).n 1) = none ∧
    ttls_debug_print_mpi ⟨0⟩ 8 ⟨some ()⟩ 0 "X".toList (some ⟨1, 0, []⟩) [] = none := by
  obtain ⟨h1, h2, h3⟩ := mpi_render_no_limbs 8 "X".toList ⟨1, 0, []⟩ [] rfl
  refine ⟨h1, h2, ?_⟩
  rw [mpi_gate_open ⟨0⟩ 8 ⟨some ()⟩ 0 "X".toList ⟨1, 0, []⟩ [] (by decide) (by decide)]
  exact h3

/-- C5: with the gate open, for every big integer with at least one limb whose
limbs are all zero and for every label, the body rendered by
`ttls_debug_print_mpi` after the header is the single line `" 00\n"`: one hex
byte `00` and the newline. -/
theorem mpi_zero_body (g : Globals) (ciL : Nat) (ssl : ttls_context) (L : Int)
    (text : List Char) (X : ttls_mpi) (junk : List Char)
    (hconf : ssl.conf ≠ none) (hlev : L ≤ g.debug_threshold)
    (hn : 1 ≤ X.n) (hp : X.p.length = X.n) (hsz : X.n < SIZE_MOD)
    (hz : ∀ v ∈ X.p, v = 0) :
    ∃ r, ttls_debug_print_mpi g ciL ssl L text (some X) junk = some r ∧
      r.lines.tail = [" 00\n".toList] ∧
      (r.lines.tail.map parse_cols).flatten = [0] := by
  obtain ⟨cs, hr, _⟩ := mpi_zero_spec ciL text X junk hn hp hsz hz
  refine ⟨_, by rw [mpi_gate_open g ciL ssl L text X junk hconf hlev]; exact hr, ?_, ?_⟩
  · rfl
  · show ([parse_cols " 00\n".toList]).flatten = [0]
    decide

/-- C5 at the zero value held in three limbs. -/
theorem mpi_zero_body_witness :
    ∃ r, ttls_debug_print_mpi ⟨1⟩ 8 ⟨some ()⟩ 1 "X".toList (some ⟨1, 3, [0, 0, 0]⟩) []
        = some r ∧ r.lines.tail = [" 00\n".toList] := by
  obtain ⟨r, h1, h2, _⟩ :=
    mpi_zero_body ⟨1⟩ 8 ⟨some ()⟩ 1 "X".toList ⟨1, 3, [0, 0, 0]⟩ []
      (by decide) (by decide) (by decide) (by decide) (by decide) (by decide)
  exact ⟨r, h1, h2⟩

/-- C6 (as the code has it): with the gate open, for every big integer with at
least one limb whose limbs are all zero, the header computation of
`ttls_debug_print_mpi` does not fail: the top limb is limb `0`, no bit of it
is set (`j = -1`), and the header declares a bit count of
`0 * limb_width + (-1) + 1 = 0`. -/
theorem mpi_zero_header (g : Globals) (ciL : Nat) (ssl : ttls_context) (L : Int)
    (text : List Char) (X : ttls_mpi) (junk : List Char)
    (hconf : ssl.conf ≠ none) (hlev : L ≤ g.debug_threshold)
    (hn : 1 ≤ X.n) (hp : X.p.length = X.n) (hsz : X.n < SIZE_MOD)
    (hz : ∀ v ∈ X.p, v = 0) :
    mpi_top X (size_sub X.n 1) = some 0 ∧ mpi_msb X 0 (ciL <<< 3) = some (-1) ∧
    mpi_bits ciL 0 (-1) = 0 ∧
    ∃ r, ttls_debug_print_mpi g ciL ssl L text (some X) junk = some r ∧
      r.lines.head? = some ((mpi_header text 0).take (DEBUG_BUF_SIZE - 1)) := by
  obtain ⟨cs, hr, _⟩ := mpi_zero_spec ciL text X junk hn hp hsz hz
  have hp0 : 0 < X.p.length := by omega
  have hget : X.p[0]? = some 0 := by
    rw [List.getElem?_eq_getElem hp0]
    exact congrArg some (hz _ (List.getElem_mem hp0))
  have hlimb := limb_of_get X 0 0 (by omega) hget
  refine ⟨?_, ?_, mpi_bits_zero ciL, _,
    by rw [mpi_gate_open g ciL ssl L text X junk hconf hlev]; exact hr, ?_⟩
  · rw [size_sub_of_le hn hsz]
    obtain ⟨t, h1, _, h3, h4⟩ := mpi_top_spec X (X.n - 1) (by omega) (by omega)
    have ht : t = 0 := by
      rcases h4 with h | ⟨v, hv1, hv2⟩
      · exact h
      · exact absurd (hz v (List.getElem?_mem hv1)) hv2
    rw [h1, ht]
  · rw [mpi_msb_top_bit X 0 0 hlimb, top_bit_zero]
  · rfl

/-- C6 at the zero value held in one limb of eight bytes. -/
theorem mpi_zero_header_witness :
    mpi_bits 8 0 (-1) = 0 ∧
    ∃ r, ttls_debug_print_mpi ⟨1⟩ 8 ⟨some ()⟩ 1 "X".toList (some ⟨1, 1, [0]⟩) [] = some r ∧
      r.lines.head? = some ((mpi_header "X".toList 0).take (DEBUG_BUF_SIZE - 1)) := by
  obtain ⟨_, _, h3, h4⟩ :=
    mpi_zero_header ⟨1⟩ 8 ⟨some ()⟩ 1 "X".toList ⟨1, 1, [0]⟩ []
      (by decide) (by decide) (by decide) (by decide) (by decide) (by decide)
  exact ⟨h3, h4⟩

/-- C6 as stated fails for the zero value held in one limb: the header says
`0 bits`, not `1 bits`. -/
theorem mpi_zero_header_not_one :
    ∃ r, ttls_debug_print_mpi ⟨1⟩ 8 ⟨some ()⟩ 1 "X".toList (some ⟨1, 1, [0]⟩) [] = some r ∧
      r.lines.head? = some "value of 'X' (0 bits) is:\n".toList ∧
      r.lines.head? ≠ some "value of 'X' (1 bits) is:\n".toList := by
  obtain ⟨cs, hr, _⟩ := mpi_zero_spec 8 "X".toList ⟨1, 1, [0]⟩ []
    (by decide) (by decide) (by decide) (by decide)
  have hh : (mpi_header "X".toList 0).take (DEBUG_BUF_SIZE - 1)
      = "value of 'X' (0 bits) is:\n".toList := by decide
  rw [hh] at hr
  refine ⟨_, by rw [mpi_gate_open ⟨1⟩ 8 ⟨some ()⟩ 1 "X".toList ⟨1, 1, [0]⟩ []
    (by decide) (by decide)]; exact hr, ?_, ?_⟩
  · rfl
  · show some "value of 'X' (0 bits) is:\n".toList ≠ some "value of 'X' (1 bits) is:\n".toList
    decide

/-! ## The scratch buffer is never overrun -/

/-- C9 (where the byte counter `int j` does not overflow): with the gate open,
for every label, every buffer (of which `min len 4096` bytes are readable) and
every big integer with at least one limb and fewer than `2 ^ 31` bytes to
render, every formatter call of `ttls_debug_print_buf` is made at an offset
`idx <= 54` and every formatter call of `ttls_debug_print_mpi` at an offset
`idx <= 48`, each with the capacity `512 - idx`; so nothing is stored at index
`512` or above, no call after the header call asks for more than its capacity
(no data row is cut short), and every rendered unit ends inside the buffer. -/
theorem scratch_discipline (g : Globals) (ssl : ttls_context) (L : Int) (text : List Char)
    (junk : List Char) (hconf : ssl.conf ≠ none) (hlev : L ≤ g.debug_threshold) :
    (∀ (buf : List Nat) (len : Nat), min len 4096 ≤ buf.length →
      (∀ x ∈ buf.take (min len 4096), x < 256) →
      ∃ r, ttls_debug_print_buf g ssl L text buf len junk = some r ∧ scratch_ok 54 r) ∧
    (∀ (ciL : Nat) (X : ttls_mpi), 1 ≤ X.n → X.p.length = X.n → X.n < SIZE_MOD →
      (mpi_dump_bytes ciL X.p).length < 2 ^ 31 →
      ∃ r, ttls_debug_print_mpi g ciL ssl L text (some X) junk = some r ∧ scratch_ok 48 r) := by
  constructor
  · intro buf len hread hbytes
    obtain ⟨r, hr, hlines, cs, hcalls, hok⟩ := buf_render_spec text buf len junk hread hbytes
    refine ⟨r, by rw [buf_gate_open g ssl L text buf len junk hconf hlev]; exact hr, ?_⟩
    have hrw : r = ⟨FmtCall.mk 0 DEBUG_BUF_SIZE (buf_header text len).length :: cs,
        (buf_header text len).take (DEBUG_BUF_SIZE - 1)
          :: buf_rows (buf.take (min len 4096))⟩ := by
      cases r
      simp only [Rendered.mk.injEq]
      exact ⟨hcalls, hlines⟩
    rw [hrw]
    exact scratch_ok_of 54 _ cs _ _ (by decide) hok
      (buf_rows_short _ (by rw [List.length_take]; omega) hbytes)
  · intro ciL X hn hp hsz hsmall
    obtain ⟨t, v, _, _, _, _, cs, hr, hok⟩ :=
      mpi_render_spec ciL text X junk hn hp hsz hsmall
    refine ⟨_, by rw [mpi_gate_open g ciL ssl L text X junk hconf hlev]; exact hr, ?_⟩
    refine scratch_ok_of 48 _ cs _ _ (by decide) hok (mpi_rows_short _ ?_)
    intro b hb
    unfold mpi_dump_bytes at hb
    split at hb
    · rw [List.mem_singleton.mp hb]; decide
    · exact pending_lt true _ (limbs_be_lt ciL _) b hb

/-- C9 at a buffer of seventeen bytes and a big integer of two limbs. -/
theorem scratch_discipline_witness :
    (∃ r, ttls_debug_print_buf ⟨1⟩ ⟨some ()⟩ 1 "label".toList
        [0, 1, 2, 3, 4, 5, 6, 7, 8, 9, 10, 11, 12, 13, 14, 15, 16] 17 [] = some r ∧
      scratch_ok 54 r) ∧
    (∃ r, ttls_debug_print_mpi ⟨1⟩ 8 ⟨some ()⟩ 1 "label".toList (some ⟨1, 2, [258, 10]⟩) []
        = some r ∧ scratch_ok 48 r) :=
  ⟨(scratch_discipline ⟨1⟩ ⟨some ()⟩ 1 "label".toList [] (by decide) (by decide)).1
      [0, 1, 2, 3, 4, 5, 6, 7, 8, 9, 10, 11, 12, 13, 14, 15, 16] 17 (by decide) (by decide),
   (scratch_discipline ⟨1⟩ ⟨some ()⟩ 1 "label".toList [] (by decide) (by decide)).2
      8 ⟨1, 2, [258, 10]⟩ (by decide) (by decide) (by decide) (by decide)⟩

theorem cstr_cstr (m : List Char) : cstr (cstr m) = cstr m :=
  cstr_of_no_nul _ (cstr_no_nul m)

theorem mpi_header_congr (a b : List Char) (h : cstr a = cstr b) (bits : Int) :
    mpi_header a bits = mpi_header b bits := by
  unfold mpi_header
  rw [h]

/-- The dump of a big integer depends on the label only as a C string. -/
theorem mpi_render_congr (ciL : Nat) (a b : List Char) (h : cstr a = cstr b)
    (X : ttls_mpi) (junk : List Char) :
    mpi_render ciL a X junk = mpi_render ciL b X junk := by
  unfold mpi_render
  simp only [mpi_header_congr a b h]

theorem print_mpi_congr (g : Globals) (ciL : Nat) (ssl : ttls_context) (L : Int)
    (a b : List Char) (h : cstr a = cstr b) (X : Option ttls_mpi) (junk : List Char) :
    ttls_debug_print_mpi g ciL ssl L a X junk = ttls_debug_print_mpi g ciL ssl L b X junk := by
  cases X with
  | none => rfl
  | some X =>
    show (if ssl.conf = none ∨ L > g.debug_threshold then some Rendered.nothing
      else mpi_render ciL a X junk)
      = (if ssl.conf = none ∨ L > g.debug_threshold then some Rendered.nothing
      else mpi_render ciL b X junk)
    rw [mpi_render_congr ciL a b h]

theorem print_ecp_congr (g : Globals) (ciL : Nat) (ssl : ttls_context) (L : Int)
    (a b : List Char) (h : cstr a = cstr b) (P : ttls_ecp_point) (junk : List Char) :
    ttls_debug_print_ecp g ciL ssl L a P junk = ttls_debug_print_ecp g ciL ssl L b P junk := by
  unfold ttls_debug_print_ecp
  rw [h]

theorem cstr_set_after (pre rest : List Char) (k : Nat) (h : ∀ c ∈ pre, c ≠ NUL)
    (hk : pre.length ≤ k) : cstr ((pre ++ NUL :: rest).set k NUL) = pre := by
  rw [List.set_append_right _ _ hk]
  cases hd : k - pre.length with
  | zero => exact cstr_append_nul pre rest h
  | succ m => exact cstr_append_nul pre _ h

/-- The name buffer of `debug_print_pk` holds the label of the item. -/
theorem pk_name_cstr (text : List Char) (item : ttls_pk_debug_item) (junk : List Char) :
    cstr (pk_name text item junk).str = pk_label text item := by
  unfold pk_name pk_label
  simp only []
  rw [snprintf_head _ 16 _ (by decide) (by decide)]
  exact cstr_set_after _ _ 15
    (fun c hc => by
      rcases List.mem_append.mp (List.mem_of_mem_take hc) with h | h
      · exact cstr_no_nul _ c h
      · exact cstr_no_nul _ c h)
    (by rw [List.length_take]; omega)

theorem pk_label_no_nul (text : List Char) (item : ttls_pk_debug_item) :
    cstr (pk_label text item) = pk_label text item := by
  apply cstr_of_no_nul
  intro c hc
  unfold pk_label at hc
  rcases List.mem_append.mp (List.mem_of_mem_take hc) with h | h
  · exact cstr_no_nul _ c h
  · exact cstr_no_nul _ c h

theorem append_lines (a b : Rendered) : (a.append b).lines = a.lines ++ b.lines := rfl

theorem pk_name_lines (text : List Char) (item : ttls_pk_debug_item) (junk : List Char) :
    (pk_name text item junk).rendered.lines = [] := by
  unfold pk_name
  simp only []
  rw [snprintf_head _ 16 _ (by decide) (by decide)]
  rfl

theorem takeWhile_append_replicate {α : Type} (p : α → Bool) (x : α) (hx : p x = false) :
    ∀ (l : List α) (k : Nat), (l ++ List.replicate k x).takeWhile p = l.takeWhile p := by
  intro l
  induction l with
  | nil =>
    intro k
    cases k with
    | zero => rfl
    | succ k => simp [List.replicate_succ, List.takeWhile_cons, hx]
  | cons a t ih =>
    intro k
    simp only [List.cons_append, List.takeWhile_cons, ih]

/-- The items before the first terminator in the array of `debug_print_pk`. -/
theorem pk_items_takeWhile (max_items : Nat) (pk : ttls_pk_context) :
    (pk_items max_items pk).takeWhile (fun item => decide (item ≠ ttls_pk_debug_item.none))
      = (pk.debug_items.take max_items).takeWhile
          (fun item => decide (item ≠ ttls_pk_debug_item.none)) := by
  unfold pk_items
  rw [List.take_append_eq_append_take, List.take_replicate]
  exact takeWhile_append_replicate _ _ (by simp) _ _

/-- The loop of `debug_print_pk` renders the dumps of the items before the
first terminator, after what was rendered before. -/
theorem pk_loop_lines (g : Globals) (ciL : Nat) (ssl : ttls_context) (L : Int)
    (text : List Char) (junk : List Char) :
    ∀ (items : List ttls_pk_debug_item) (acc : Rendered),
      (pk_loop g ciL ssl L text junk items acc).map Rendered.lines
        = (pk_dump_seq g ciL ssl L text junk
            (items.takeWhile (fun item => decide (item ≠ ttls_pk_debug_item.none)))).map
            (fun b => acc.lines ++ b) := by
  intro items
  induction items with
  | nil =>
    intro acc
    simp [pk_loop, pk_dump_seq]
  | cons item rest ih =>
    intro acc
    cases item with
    | none =>
      simp [pk_loop, pk_dump_seq]
    | mpi name X =>
      have hlab := print_mpi_congr g ciL ssl L
        (pk_name text (ttls_pk_debug_item.mpi name X) junk).str
        (pk_label text (ttls_pk_debug_item.mpi name X))
        (by rw [pk_name_cstr, pk_label_no_nul]) X junk
      have htw : (ttls_pk_debug_item.mpi name X :: rest).takeWhile
            (fun item => decide (item ≠ ttls_pk_debug_item.none))
          = ttls_pk_debug_item.mpi name X
            :: rest.takeWhile (fun item => decide (item ≠ ttls_pk_debug_item.none)) := by
        simp [List.takeWhile_cons]
      rw [htw]
      unfold pk_loop pk_dump_seq pk_item_dump
      simp only [hlab]
      cases hR : ttls_debug_print_mpi g ciL ssl L
          (pk_label text (ttls_pk_debug_item.mpi name X)) X junk with
      | none => simp
      | some r =>
        simp only [Option.map_some']
        rw [ih]
        cases pk_dump_seq g ciL ssl L text junk
            (rest.takeWhile (fun item => decide (item ≠ ttls_pk_debug_item.none))) with
        | none => simp
        | some b => simp [append_lines, pk_name_lines]
    | ecp name P =>
      have hlab := print_ecp_congr g ciL ssl L
        (pk_name text (ttls_pk_debug_item.ecp name P) junk).str
        (pk_label text (ttls_pk_debug_item.ecp name P))
        (by rw [pk_name_cstr, pk_label_no_nul]) P junk
      have htw : (ttls_pk_debug_item.ecp name P :: rest).takeWhile
            (fun item => decide (item ≠ ttls_pk_debug_item.none))
          = ttls_pk_debug_item.ecp name P
            :: rest.takeWhile (fun item => decide (item ≠ ttls_pk_debug_item.none)) := by
        simp [List.takeWhile_cons]
      rw [htw]
      unfold pk_loop pk_dump_seq pk_item_dump
      simp only [hlab]
      cases hR : ttls_debug_print_ecp g ciL ssl L
          (pk_label text (ttls_pk_debug_item.ecp name P)) P junk with
      | none => simp
      | some r =>
        simp only [Option.map_some']
        rw [ih]
        cases pk_dump_seq g ciL ssl L text junk
            (rest.takeWhile (fun item => decide (item ≠ ttls_pk_debug_item.none))) with
        | none => simp
        | some b => simp [append_lines, pk_name_lines]
    | other kind name =>
      have htw : (ttls_pk_debug_item.other kind name :: rest).takeWhile
            (fun item => decide (item ≠ ttls_pk_debug_item.none))
          = ttls_pk_debug_item.other kind name
            :: rest.takeWhile (fun item => decide (item ≠ ttls_pk_debug_item.none)) := by
        simp [List.takeWhile_cons]
      rw [htw]
      unfold pk_loop pk_dump_seq pk_item_dump
      simp only []
      rw [ih]
      cases pk_dump_seq g ciL ssl L text junk
          (rest.takeWhile (fun item => decide (item ≠ ttls_pk_debug_item.none))) with
      | none => simp
      | some b => simp [append_lines, pk_name_lines]

theorem snprintf_lines (s : Scratch) (size off : Nat) (text : List Char) :
    (s.snprintf size off text).1.lines = s.lines := rfl

/-- The label buffer of `ttls_debug_print_ecp` holds the label with its suffix
when both fit in the buffer. -/
theorem ecp_label_cstr (s : Scratch) (text suffix : List Char)
    (hs : ∀ c ∈ suffix, c ≠ NUL) (hlen : (cstr text).length + suffix.length ≤ 511) :
    cstr (s.snprintf DEBUG_BUF_SIZE 0 (cstr text ++ suffix)).1.str
      = cstr (cstr text ++ suffix) := by
  have hnn : ∀ c ∈ cstr text ++ suffix, c ≠ NUL := by
    intro c hc
    rcases List.mem_append.mp hc with h | h
    · exact cstr_no_nul _ c h
    · exact hs c h
  rw [snprintf_head _ DEBUG_BUF_SIZE _ (by decide) (by decide)]
  have ht : (cstr text ++ suffix).take (DEBUG_BUF_SIZE - 1) = cstr text ++ suffix :=
    List.take_of_length_le (by rw [List.length_append]; exact hlen)
  rw [ht]
  dsimp only
  rw [cstr_append_nul _ _ hnn, cstr_of_no_nul _ hnn]

/-- The units of `ttls_debug_print_ecp` are those of `ttls_debug_print_mpi`
for `X` and then for `Y`, under the labels with `"(X)"` and `"(Y)"`. -/
theorem ecp_lines (g : Globals) (ciL : Nat) (ssl : ttls_context) (L : Int)
    (text : List Char) (P : ttls_ecp_point) (junk : List Char)
    (hlen : (cstr text).length ≤ 508) :
    (ttls_debug_print_ecp g ciL ssl L text P junk).map Rendered.lines
      = ecp_expected g ciL ssl L text P junk := by
  unfold ecp_expected
  by_cases hg : ssl.conf = none ∨ L > g.debug_threshold
  · have h1 : ttls_debug_print_ecp g ciL ssl L text P junk = some Rendered.nothing :=
      if_pos hg
    have h2 : ∀ (t : List Char) (X : ttls_mpi),
        ttls_debug_print_mpi g ciL ssl L t (some X) junk = some Rendered.nothing :=
      fun t X => if_pos hg
    rw [h1, h2, h2]
    rfl
  · unfold ttls_debug_print_ecp
    rw [if_neg hg]
    simp only []
    have hx := ecp_label_cstr ⟨stack_buf junk DEBUG_BUF_SIZE, [], []⟩ text "(X)".toList
      (by decide) (by simp only [String.toList, List.length_cons, List.length_nil]; omega)
    rw [print_mpi_congr g ciL ssl L _ (cstr text ++ "(X)".toList) hx (some P.X) junk]
    cases hX : ttls_debug_print_mpi g ciL ssl L (cstr text ++ "(X)".toList) (some P.X) junk with
    | none => rfl
    | some rx =>
      simp only []
      have hy := ecp_label_cstr
        ⟨((⟨stack_buf junk DEBUG_BUF_SIZE, [], []⟩ : Scratch).snprintf DEBUG_BUF_SIZE 0
          (cstr text ++ "(X)".toList)).1.str, [], []⟩ text "(Y)".toList
        (by decide) (by simp only [String.toList, List.length_cons, List.length_nil]; omega)
      rw [print_mpi_congr g ciL ssl L _ (cstr text ++ "(Y)".toList) hy (some P.Y) junk]
      cases hY : ttls_debug_print_mpi g ciL ssl L (cstr text ++ "(Y)".toList) (some P.Y) junk with
      | none => rfl
      | some ry =>
        simp only [Option.map_some', append_lines, Scratch.rendered, snprintf_lines,
          List.append_nil, List.nil_append]

/-! ## The key-material introspector -/

/-- C10: for every key object, label prefix and enumeration result,
`debug_print_pk` renders nothing when the enumeration reports failure;
otherwise its units are, in order, the dumps of the items before the first
terminator among the first `max_items` items, each under the prefix followed by
the item name cut to 15 characters: a big integer as `ttls_debug_print_mpi`, an
EC point as `ttls_debug_print_ecp`, nothing for any other kind.  For the items
`[big-integer "n", ec-point "Q", terminator, ...]` the units are those of the
dump of prefix+"n", then those of prefix+"Q" for `(X)` and `(Y)`, and nothing
for what follows the terminator. -/
theorem pk_dump_items (g : Globals) (ciL max_items : Nat) (ssl : ttls_context) (L : Int)
    (text : List Char) (pk : ttls_pk_context) (junk : List Char) :
    (pk.debug_ret ≠ 0 →
      debug_print_pk g ciL max_items ssl L text pk junk = some Rendered.nothing) ∧
    (debug_print_pk g ciL max_items ssl L text pk junk).map Rendered.lines
      = pk_dump_expected g ciL max_items ssl L text pk junk ∧
    (∀ (X : Option ttls_mpi) (Q : ttls_ecp_point) (more : List ttls_pk_debug_item),
      pk.debug_ret = 0 → 2 ≤ max_items →
      pk.debug_items = ttls_pk_debug_item.mpi "n".toList X
        :: ttls_pk_debug_item.ecp "Q".toList Q :: ttls_pk_debug_item.none :: more →
      (debug_print_pk g ciL max_items ssl L text pk junk).map Rendered.lines
        = match ttls_debug_print_mpi g ciL ssl L ((cstr text ++ "n".toList).take 15) X junk,
            ecp_expected g ciL ssl L ((cstr text ++ "Q".toList).take 15) Q junk with
          | some a, some b => some (a.lines ++ b)
          | _, _ => none) := by
  have hmain : (debug_print_pk g ciL max_items ssl L text pk junk).map Rendered.lines
      = pk_dump_expected g ciL max_items ssl L text pk junk := by
    unfold debug_print_pk pk_dump_expected
    by_cases hret : pk.debug_ret ≠ 0
    · rw [if_pos hret, if_pos hret]
      rfl
    · rw [if_neg hret, if_neg hret, pk_loop_lines, pk_items_takeWhile]
      cases pk_dump_seq g ciL ssl L text junk
          ((pk.debug_items.take max_items).takeWhile
            (fun item => decide (item ≠ ttls_pk_debug_item.none))) with
      | none => rfl
      | some b => rfl
  refine ⟨fun hret => if_pos hret, hmain, ?_⟩
  intro X Q more hret hmax hitems
  rw [hmain]
  unfold pk_dump_expected
  rw [if_neg (by simpa using hret), hitems]
  obtain ⟨m, rfl⟩ : ∃ m, max_items = m + 2 := ⟨max_items - 2, by omega⟩
  have htw : ((ttls_pk_debug_item.mpi "n".toList X
        :: ttls_pk_debug_item.ecp "Q".toList Q :: ttls_pk_debug_item.none :: more).take
          (m + 2)).takeWhile (fun item => decide (item ≠ ttls_pk_debug_item.none))
      = [ttls_pk_debug_item.mpi "n".toList X, ttls_pk_debug_item.ecp "Q".toList Q] := by
    cases m with
    | zero => simp [List.takeWhile_cons]
    | succ k => simp [List.take_succ_cons, List.takeWhile_cons]
  rw [htw]
  have hq : cstr ((cstr text ++ "Q".toList).take 15) = (cstr text ++ "Q".toList).take 15 :=
    pk_label_no_nul text (ttls_pk_debug_item.ecp "Q".toList Q)
  have hecp := ecp_lines g ciL ssl L ((cstr text ++ "Q".toList).take 15) Q junk
    (by rw [hq, List.length_take]; omega)
  have hn : pk_label text (ttls_pk_debug_item.mpi "n".toList X)
      = (cstr text ++ "n".toList).take 15 := rfl
  have hQ : pk_label text (ttls_pk_debug_item.ecp "Q".toList Q)
      = (cstr text ++ "Q".toList).take 15 := rfl
  unfold pk_dump_seq pk_dump_seq pk_dump_seq pk_item_dump
  simp only [hn, hQ, hecp]
  cases ttls_debug_print_mpi g ciL ssl L ((cstr text ++ "n".toList).take 15) X junk with
  | none => rfl
  | some a =>
    cases ecp_expected g ciL ssl L ((cstr text ++ "Q".toList).take 15) Q junk with
    | none => rfl
    | some b => simp

/-- C10 at a key with the items big integer `"n"`, EC point `"Q"`, terminator
and one more big integer behind the terminator, three items enumerated. -/
theorem pk_dump_items_witness :
    (debug_print_pk ⟨1⟩ 8 3 ⟨some ()⟩ 1 "crt->".toList
      ⟨0, [ttls_pk_debug_item.mpi "n".toList (some ⟨1, 1, [5]⟩),
           ttls_pk_debug_item.ecp "Q".toList ⟨⟨1, 1, [1]⟩, ⟨1, 1, [2]⟩⟩,
           ttls_pk_debug_item.none,
           ttls_pk_debug_item.mpi "d".toList (some ⟨1, 1, [7]⟩)]⟩ []).map Rendered.lines
      = match ttls_debug_print_mpi ⟨1⟩ 8 ⟨some ()⟩ 1
            ((cstr "crt->".toList ++ "n".toList).take 15) (some ⟨1, 1, [5]⟩) [],
          ecp_expected ⟨1⟩ 8 ⟨some ()⟩ 1 ((cstr "crt->".toList ++ "Q".toList).take 15)
            ⟨⟨1, 1, [1]⟩, ⟨1, 1, [2]⟩⟩ [] with
        | some a, some b => some (a.lines ++ b)
        | _, _ => none :=
  (pk_dump_items ⟨1⟩ 8 3 ⟨some ()⟩ 1 "crt->".toList
      ⟨0, [ttls_pk_debug_item.mpi "n".toList (some ⟨1, 1, [5]⟩),
           ttls_pk_debug_item.ecp "Q".toList ⟨⟨1, 1, [1]⟩, ⟨1, 1, [2]⟩⟩,
           ttls_pk_debug_item.none,
           ttls_pk_debug_item.mpi "d".toList (some ⟨1, 1, [7]⟩)]⟩ []).2.2
    _ _ _ rfl (by decide) rfl

theorem nl_positions_shift : ∀ (t : List Char) (i : Nat),
    nl_positions t i = (nl_positions t 0).map (fun p => p + i) := by
  intro t
  induction t with
  | nil => intro i; rfl
  | cons c rest ih =>
    intro i
    unfold nl_positions
    rw [ih (i + 1), ih (0 + 1)]
    by_cases hc : c = NL
    · simp [hc, List.map_map, Function.comp_def, Nat.add_comm, Nat.add_left_comm]
    · simp [hc, List.map_map, Function.comp_def, Nat.add_comm, Nat.add_left_comm]

/-- The positions `nl_positions` lists are the indices that hold a newline. -/
theorem nl_positions_filter (t : List Char) :
    nl_positions t 0 = (List.range t.length).filter (fun p => decide (t[p]? = some NL)) := by
  induction t with
  | nil => rfl
  | cons c rest ih =>
    unfold nl_positions
    rw [nl_positions_shift rest (0 + 1), ih, List.length_cons, List.range_succ_eq_map,
      List.filter_cons, List.filter_map]
    by_cases hc : c = NL
    · simp [hc, Function.comp_def]
    · simp [hc, Function.comp_def]

theorem nl_positions_length : ∀ (t : List Char) (i : Nat),
    (nl_positions t i).length = t.count NL := by
  intro t
  induction t with
  | nil => intro i; rfl
  | cons c rest ih =>
    intro i
    unfold nl_positions
    by_cases hc : c = NL
    · rw [if_pos hc, List.length_cons, ih, hc, List.count_cons_self]
    · rw [if_neg hc, ih, List.count_cons_of_ne (fun h => hc h.symm)]

theorem units_from_length (t : List Char) : ∀ (ps : List Nat) (s : Nat),
    (units_from t ps s).length = ps.length := by
  intro ps
  induction ps with
  | nil => intro s; rfl
  | cons p ps ih => intro s; simp [units_from, ih]

theorem units_from_short (t : List Char) : ∀ (ps : List Nat) (s : Nat),
    ∀ u ∈ units_from t ps s, u.length ≤ DEBUG_BUF_SIZE - 1 := by
  intro ps
  induction ps with
  | nil => intro s u hu; simp [units_from] at hu
  | cons p ps ih =>
    intro s u hu
    unfold units_from at hu
    rcases List.mem_cons.mp hu with h | h
    · rw [h, List.length_take]
      omega
    · exact ih _ u h

/-- The copy of a line into the scratch buffer, terminated, reads back as the
line. -/
theorem line_store_cstr (str u : List Char) (hu : ∀ c ∈ u, c ≠ NUL)
    (hlen : u.length < str.length) :
    cstr ((store str 0 u).set u.length NUL) = u ∧
    ((store str 0 u).set u.length NUL).length = str.length := by
  unfold store
  constructor
  · rw [List.take_zero, List.nil_append, List.set_append_right _ _ (le_refl _), Nat.sub_self,
      Nat.zero_add]
    cases hd : str.drop u.length with
    | nil =>
      have := congrArg List.length hd
      rw [List.length_drop] at this
      simp at this
      omega
    | cons x rest =>
      rw [List.set_cons_zero]
      exact cstr_append_nul u rest hu
  · simp only [List.length_set, List.length_append, List.length_take, List.length_drop]
    omega

/-- The loop of the line splitter renders the units of the newlines still
ahead of `cur`. -/
theorem line_loop_lines (text : List Char) (hnn : ∀ c ∈ text, c ≠ NUL) :
    ∀ (rest : List Char) (cur start : Nat) (s : Scratch),
      text.drop cur = rest → cur + rest.length = text.length → start ≤ cur →
      s.str.length = DEBUG_BUF_SIZE →
      (line_loop text rest cur start s).lines
        = s.lines ++ units_from text (nl_positions rest cur) start := by
  intro rest
  induction rest with
  | nil =>
    intro cur start s _ _ _ _
    simp [line_loop, nl_positions, units_from]
  | cons c rest ih =>
    intro cur start s hdrop hlen hstart hs
    have hdrop2 : text.drop (cur + 1) = rest := by
      rw [← List.drop_drop, hdrop]
      rfl
    have hlen2 : cur + 1 + rest.length = text.length := by
      rw [← hlen, List.length_cons]; omega
    unfold line_loop nl_positions
    by_cases hc : c = NL
    · rw [if_pos hc, if_pos hc]
      simp only []
      have hlenu : ((text.drop start).take
          (if cur - start + 1 > DEBUG_BUF_SIZE - 1 then DEBUG_BUF_SIZE - 1
            else cur - start + 1)).length
          = (if cur - start + 1 > DEBUG_BUF_SIZE - 1 then DEBUG_BUF_SIZE - 1
            else cur - start + 1) := by
        rw [List.length_take, List.length_drop]
        split <;> omega
      have hmin : (if cur - start + 1 > DEBUG_BUF_SIZE - 1 then DEBUG_BUF_SIZE - 1
            else cur - start + 1) = min (cur - start + 1) (DEBUG_BUF_SIZE - 1) := by
        split <;> omega
      have hst := line_store_cstr s.str ((text.drop start).take
          (if cur - start + 1 > DEBUG_BUF_SIZE - 1 then DEBUG_BUF_SIZE - 1
            else cur - start + 1))
        (fun c hc => hnn c (List.mem_of_mem_drop (List.mem_of_mem_take hc)))
        (by rw [hlenu, hs]; simp only [DEBUG_BUF_SIZE]; split <;> omega)
      rw [hlenu] at hst
      rw [ih (cur + 1) (cur + 1) _ hdrop2 hlen2 (le_refl _) (by exact hst.2.trans hs)]
      rw [hmin] at hst
      simp only [Scratch.unit_done, units_from, hmin, List.append_assoc,
        List.singleton_append, hst.1]
    · rw [if_neg hc, if_neg hc]
      exact ih (cur + 1) start s hdrop2 hlen2 (by omega) hs

/-- What `debug_print_line_by_line` renders: the units of the newlines of the
text. -/
theorem line_by_line_spec (text junk : List Char) :
    (debug_print_line_by_line text junk).lines = line_units (cstr text) := by
  unfold debug_print_line_by_line line_units
  simp only [Scratch.rendered]
  rw [line_loop_lines (cstr text) (cstr_no_nul text) (cstr text) 0 0 _ rfl (by simp)
    (le_refl _) (stack_buf_length junk DEBUG_BUF_SIZE)]
  rfl

/-! ## The line splitter -/

/-- C11: for every text (read as a C string), `debug_print_line_by_line`
renders exactly one unit per newline of the text, in order: the unit for the
newline at position `p`, with `s` the position just after the previous newline
(or `0`), is the first `min (p - s + 1) 511` characters of the text from `s`.
So there are as many units as newlines, no unit is longer than 511 characters,
a text without a newline renders nothing, and what follows the last newline is
in no unit; the text `"ab\ncd\nef"` renders `"ab\n"` and `"cd\n"`. -/
theorem line_splitter_units (text junk : List Char) :
    (debug_print_line_by_line text junk).lines
      = units_from (cstr text)
          ((List.range (cstr text).length).filter
            (fun p => decide ((cstr text)[p]? = some NL))) 0 ∧
    (debug_print_line_by_line text junk).lines.length = (cstr text).count NL ∧
    (∀ u ∈ (debug_print_line_by_line text junk).lines, u.length ≤ 511) ∧
    (NL ∉ cstr text → (debug_print_line_by_line text junk).lines = []) ∧
    (debug_print_line_by_line "ab\ncd\nef".toList junk).lines
      = ["ab\n".toList, "cd\n".toList] := by
  have hcount : (debug_print_line_by_line text junk).lines.length = (cstr text).count NL := by
    rw [line_by_line_spec]
    unfold line_units
    rw [units_from_length, nl_positions_length]
  refine ⟨?_, hcount, ?_, ?_, ?_⟩
  · rw [line_by_line_spec, ← nl_positions_filter]
    rfl
  · rw [line_by_line_spec]
    exact units_from_short _ _ _
  · intro hno
    rw [List.count_eq_zero_of_not_mem hno] at hcount
    exact List.length_eq_zero.mp hcount
  · rw [line_by_line_spec]
    decide

/-- The bounded formatter on a buffer of 512 characters. -/
theorem bounded_fmt_full (buf text : List Char) :
    bounded_fmt buf DEBUG_BUF_SIZE text
      = (text.take 511 ++ NUL :: buf.drop ((text.take 511).length + 1),
         (text.take 511).length) := by
  unfold bounded_fmt store
  rw [if_neg (show ¬ DEBUG_BUF_SIZE = 0 by decide)]
  have h : DEBUG_BUF_SIZE - 1 = 511 := rfl
  rw [h]
  simp

/-- The unit `ttls_debug_print_msg` renders for a text without terminator. -/
theorem msg_unit (text junk : List Char) (hnn : ∀ c ∈ text, c ≠ NUL) :
    cstr (msg_finish (bounded_fmt (stack_buf junk DEBUG_BUF_SIZE) DEBUG_BUF_SIZE text).1
        ((bounded_fmt (stack_buf junk DEBUG_BUF_SIZE) DEBUG_BUF_SIZE text).2 : Nat))
      = if text.length < 511 then text ++ [NL] else text.take 511 := by
  have hl := stack_buf_length junk DEBUG_BUF_SIZE
  have hN : DEBUG_BUF_SIZE = 512 := rfl
  have h512 : (DEBUG_BUF_SIZE : Int) - 1 = 511 := rfl
  rw [bounded_fmt_full]
  dsimp only
  unfold msg_finish
  rw [h512]
  by_cases hlt : text.length < 511
  · have ht : text.take 511 = text := List.take_of_length_le (le_of_lt hlt)
    rw [ht, if_pos hlt, if_pos ⟨by omega, by omega⟩, Int.toNat_ofNat]
    rw [List.set_append_right _ _ (le_refl _), Nat.sub_self, List.set_cons_zero,
      List.set_append_right _ _ (by omega)]
    have h1 : text.length + 1 - text.length = 1 := by omega
    rw [h1]
    cases hd : (stack_buf junk DEBUG_BUF_SIZE).drop (text.length + 1) with
    | nil =>
      have := congrArg List.length hd
      rw [List.length_drop, hl] at this
      simp only [List.length_nil] at this
      omega
    | cons x rest =>
      show cstr (text ++ NL :: NUL :: rest) = text ++ [NL]
      have := cstr_append_nul (text ++ [NL]) rest (fun c hc => by
        rcases List.mem_append.mp hc with h | h
        · exact hnn c h
        · have : c = NL := by simpa using h
          rw [this]; decide)
      simpa using this
  · rw [if_neg hlt, if_neg (by
      rintro ⟨_, h⟩
      rw [List.length_take] at h
      omega)]
    exact cstr_append_nul _ _ (fun c hc => hnn c (List.mem_of_mem_take hc))

/-! ## The message formatter -/

/-- C13: for every result `ret` of the bounded formatter in
`ttls_debug_print_msg` and the buffer of 512 characters it wrote: when
`0 <= ret < 511` a newline is stored at position `ret` and a terminator at
position `ret + 1`, both below 512, and every other position is unchanged; in
every other case (`ret < 0` or `ret >= 511`) the buffer is as the formatter
left it; the buffer keeps its 512 characters, so nothing is stored at index
512 or above.  With the gate open the unit rendered for a text is therefore
the text with a newline when it is shorter than 511 characters, and its first
511 characters otherwise. -/
theorem msg_newline_store (str : List Char) (ret : Int) (hlen : str.length = DEBUG_BUF_SIZE) :
    (msg_finish str ret).length = DEBUG_BUF_SIZE ∧
    ((0 ≤ ret ∧ ret < 511) →
      ret.toNat + 1 < 512 ∧
      (msg_finish str ret)[ret.toNat]? = some NL ∧
      (msg_finish str ret)[ret.toNat + 1]? = some NUL ∧
      ∀ k, k ≠ ret.toNat → k ≠ ret.toNat + 1 → (msg_finish str ret)[k]? = str[k]?) ∧
    (¬ (0 ≤ ret ∧ ret < 511) → msg_finish str ret = str) ∧
    (∀ (g : Globals) (ssl : ttls_context) (L : Int) (text junk : List Char),
      ssl.conf ≠ none → L ≤ g.debug_threshold → (∀ c ∈ text, c ≠ NUL) →
      (ttls_debug_print_msg g (some ssl) L text junk).lines
        = [if text.length < 511 then text ++ [NL] else text.take 511]) := by
  have h512 : (DEBUG_BUF_SIZE : Int) - 1 = 511 := rfl
  have hN : DEBUG_BUF_SIZE = 512 := rfl
  refine ⟨?_, ?_, ?_, ?_⟩
  · unfold msg_finish
    split
    · simp only [List.length_set, hlen]
    · exact hlen
  · intro hret
    have hpos : msg_finish str ret = (str.set ret.toNat NL).set (ret.toNat + 1) NUL :=
      if_pos (by rw [h512]; exact hret)
    have hr : ret.toNat < 511 := by omega
    rw [hpos]
    refine ⟨by omega, ?_, ?_, ?_⟩
    · rw [List.getElem?_set_ne (by omega), List.getElem?_set_self (by rw [hlen, hN]; omega)]
    · rw [List.getElem?_set_self (by rw [List.length_set, hlen, hN]; omega)]
    · intro k h1 h2
      rw [List.getElem?_set_ne (fun h => h2 h.symm), List.getElem?_set_ne (fun h => h1 h.symm)]
  · intro hret
    exact if_neg (by rw [h512]; exact hret)
  · intro g ssl L text junk hconf hlev hnn
    unfold ttls_debug_print_msg
    simp only []
    rw [if_neg (by
      rintro (h | h)
      · exact hconf h
      · exact absurd hlev (not_le.mpr h))]
    simp only [Scratch.unit_done, Scratch.rendered, List.nil_append]
    rw [msg_unit text junk hnn]

/-- C13 at `ret = 3` on a buffer of 512 characters `x`. -/
theorem msg_newline_store_witness :
    (msg_finish (List.replicate 512 'x') 3)[3]? = some NL ∧
    (msg_finish (List.replicate 512 'x') 3)[4]? = some NUL ∧
    (msg_finish (List.replicate 512 'x') 3).length = 512 := by
  have h := msg_newline_store (List.replicate 512 'x') 3 (List.length_replicate 512 'x')
  exact ⟨(h.2.1 (by decide)).2.1, (h.2.1 (by decide)).2.2.1, h.1⟩

/-- The hex columns of bytes, digit by digit. -/
theorem hexes_digits (bs : List Nat) (h : ∀ b ∈ bs, b < 256) :
    hexes bs = (bs.map (fun b => [' ', hexDigit (b / 16), hexDigit (b % 16)])).flatten := by
  induction bs with
  | nil => rfl
  | cons x t ih =>
    have hx : x < 256 := h x (by simp)
    rw [hexes, ih (fun b hb => h b (by simp [hb])), fmt_x2_byte x hx]
    simp

theorem ascii_ne_nl (b : Nat) : ascii b ≠ NL := by
  unfold ascii
  split
  · rename_i h
    obtain ⟨h1, h2⟩ := h
    interval_cases b <;> decide
  · decide

theorem chunk16_pos (bs : List Nat) (r : Nat) (hr : r < (bs.length + 15) / 16) :
    1 ≤ (chunk16 bs r).length ∧ (r + 1 < (bs.length + 15) / 16 → (chunk16 bs r).length = 16) := by
  unfold chunk16
  rw [List.length_take, List.length_drop]
  omega

/-- The data rows of `ttls_debug_print_buf`, row by row. -/
theorem buf_row_at (g : Globals) (ssl : ttls_context) (L : Int) (text : List Char)
    (buf : List Nat) (len : Nat) (junk : List Char)
    (hconf : ssl.conf ≠ none) (hlev : L ≤ g.debug_threshold)
    (hread : min len 4096 ≤ buf.length)
    (hbytes : ∀ x ∈ buf.take (min len 4096), x < 256) :
    ∃ out, ttls_debug_print_buf g ssl L text buf len junk = some out ∧
      out.lines.length = (min len 4096 + 15) / 16 + 1 ∧
      ∀ r, r < (min len 4096 + 15) / 16 →
        out.lines[r + 1]? = some (row_text (16 * r) (chunk16 (buf.take (min len 4096)) r)) := by
  obtain ⟨out, hr, hlines, _⟩ := buf_render_spec text buf len junk hread hbytes
  have hlen : (buf.take (min len 4096)).length = min len 4096 := by
    rw [List.length_take, Nat.min_eq_left hread]
  refine ⟨out, by rw [buf_gate_open g ssl L text buf len junk hconf hlev]; exact hr, ?_, ?_⟩
  · rw [hlines, List.length_cons, buf_rows_length, hlen]
  · intro r hrow
    rw [hlines, List.getElem?_cons_succ]
    unfold buf_rows
    rw [List.getElem?_map, hlen, List.getElem?_range hrow]
    rfl

/-! ## The rows of the hex buffer dump -/

/-- C14 (as the code has it): with the gate open, every full row `r` of
`ttls_debug_print_buf` (the 16 bytes at the offsets `16r .. 16r + 15`, below
`min len 4096`) is the offset `16r` as four lowercase hex digits, a colon and
one blank, then each of the 16 bytes as a blank and two lowercase hex digits
(so two blanks stand between the colon and the first byte), two blanks, the
gutter of 16 characters in which character `k` is the byte itself when
`31 < b < 127` and `'.'` otherwise, and a newline. -/
theorem buf_full_row (g : Globals) (ssl : ttls_context) (L : Int) (text : List Char)
    (buf : List Nat) (len : Nat) (junk : List Char) (r : Nat)
    (hconf : ssl.conf ≠ none) (hlev : L ≤ g.debug_threshold)
    (hread : min len 4096 ≤ buf.length)
    (hbytes : ∀ x ∈ buf.take (min len 4096), x < 256)
    (hfull : 16 * r + 16 ≤ min len 4096) :
    ∃ out, ttls_debug_print_buf g ssl L text buf len junk = some out ∧
      ((buf.drop (16 * r)).take 16).length = 16 ∧
      out.lines[r + 1]? = some (
        [hexDigit (16 * r / 4096), hexDigit (16 * r / 256 % 16), hexDigit (16 * r / 16 % 16),
          hexDigit (16 * r % 16)]
        ++ [':', ' ']
        ++ (((buf.drop (16 * r)).take 16).map
              (fun b => [' ', hexDigit (b / 16), hexDigit (b % 16)])).flatten
        ++ [' ', ' ']
        ++ ((buf.drop (16 * r)).take 16).map
              (fun b => if 31 < b ∧ b < 127 then Char.ofNat b else '.')
        ++ ['\n']) := by
  obtain ⟨out, hout, _, hrow⟩ := buf_row_at g ssl L text buf len junk hconf hlev hread hbytes
  have hchunk : chunk16 (buf.take (min len 4096)) r = (buf.drop (16 * r)).take 16 := by
    unfold chunk16
    rw [List.drop_take, List.take_take, Nat.min_eq_left (by omega)]
  have hlen16 : ((buf.drop (16 * r)).take 16).length = 16 := by
    rw [List.length_take, List.length_drop]; omega
  have hb : ∀ b ∈ (buf.drop (16 * r)).take 16, b < 256 := by
    intro b hb
    rw [← hchunk] at hb
    exact hbytes b (chunk16_mem _ _ _ hb)
  refine ⟨out, hout, hlen16, ?_⟩
  rw [hrow r (by omega), hchunk]
  unfold row_text
  rw [fmt_x4_short (16 * r) (by omega), hexes_digits _ hb, hlen16]
  have hz : List.replicate (3 * (16 - 16)) ' ' = ([] : List Char) := rfl
  rw [hz, List.append_nil]
  rfl

/-- C14 at the row of sixteen bytes `A`. -/
theorem buf_full_row_witness :
    ∃ out, ttls_debug_print_buf ⟨1⟩ ⟨some ()⟩ 1 "k".toList (List.replicate 16 65) 16 []
        = some out ∧
      out.lines[1]? = some
        "0000:  41 41 41 41 41 41 41 41 41 41 41 41 41 41 41 41  AAAAAAAAAAAAAAAA\n".toList := by
  obtain ⟨out, h1, _, h3⟩ := buf_full_row ⟨1⟩ ⟨some ()⟩ 1 "k".toList (List.replicate 16 65)
    16 [] 0 (by decide) (by decide) (by decide) (by decide) (by decide)
  exact ⟨out, h1, by rw [h3]; decide⟩

/-- C14 as stated fails at the row of sixteen bytes `A`: the rendered row has
two blanks between the colon and the first byte, the form stated has one. -/
theorem buf_row_two_blanks :
    ∃ out, ttls_debug_print_buf ⟨1⟩ ⟨some ()⟩ 1 "k".toList (List.replicate 16 65) 16 []
        = some out ∧
      out.lines[1]? = some
        "0000:  41 41 41 41 41 41 41 41 41 41 41 41 41 41 41 41  AAAAAAAAAAAAAAAA\n".toList ∧
      row_as_claimed 0 (List.replicate 16 65)
        = "0000: 41 41 41 41 41 41 41 41 41 41 41 41 41 41 41 41  AAAAAAAAAAAAAAAA".toList ∧
      out.lines[1]? ≠ some (row_as_claimed 0 (List.replicate 16 65)) ∧
      out.lines[1]? ≠ some (row_as_claimed 0 (List.replicate 16 65) ++ ['\n']) := by
  obtain ⟨out, hout, _, hrow⟩ := buf_row_at ⟨1⟩ ⟨some ()⟩ 1 "k".toList (List.replicate 16 65)
    16 [] (by decide) (by decide) (by decide) (by decide)
  have h1 : out.lines[1]? = some
      "0000:  41 41 41 41 41 41 41 41 41 41 41 41 41 41 41 41  AAAAAAAAAAAAAAAA\n".toList := by
    rw [hrow 0 (by decide)]
    decide
  refine ⟨out, hout, h1, by decide, ?_, ?_⟩
  · rw [h1]; decide
  · rw [h1]; decide

/-- C15: with the gate open, for every non-empty buffer, every data row of
`ttls_debug_print_buf` holds between 1 and 16 bytes (16 in every row but the
last); its first 56 characters are the offset, the hex columns of its bytes and
three blanks for each of the missing columns, then two blanks, so the gutter
starts at column 56 in every row; the gutter has exactly as many characters as
the row has bytes, none of them a newline or a terminator, and is followed by
the newline that ends the row. -/
theorem buf_gutter_aligned (g : Globals) (ssl : ttls_context) (L : Int) (text : List Char)
    (buf : List Nat) (len : Nat) (junk : List Char)
    (hconf : ssl.conf ≠ none) (hlev : L ≤ g.debug_threshold)
    (hpos : 0 < len) (hread : min len 4096 ≤ buf.length)
    (hbytes : ∀ x ∈ buf.take (min len 4096), x < 256) :
    ∃ out, ttls_debug_print_buf g ssl L text buf len junk = some out ∧
      out.lines.length = (min len 4096 + 15) / 16 + 1 ∧
      1 ≤ (min len 4096 + 15) / 16 ∧
      ∀ r, r < (min len 4096 + 15) / 16 →
        ∃ row bytes gutter, out.lines[r + 1]? = some row ∧
          bytes = (buf.drop (16 * r)).take (min 16 (min len 4096 - 16 * r)) ∧
          1 ≤ bytes.length ∧ bytes.length ≤ 16 ∧
          (r + 1 < (min len 4096 + 15) / 16 → bytes.length = 16) ∧
          row.take 56 = fmt_x 4 (16 * r) ++ ": ".toList ++ hexes bytes
            ++ List.replicate (3 * (16 - bytes.length)) ' ' ++ "  ".toList ∧
          (row.take 56).length = 56 ∧
          (hexes bytes).length = 3 * bytes.length ∧
          row.drop 56 = gutter ++ ['\n'] ∧
          gutter = bytes.map ascii ∧
          gutter.length = bytes.length ∧
          ∀ c ∈ gutter, c ≠ NL ∧ c ≠ NUL := by
  obtain ⟨out, hout, hcount, hrow⟩ :=
    buf_row_at g ssl L text buf len junk hconf hlev hread hbytes
  refine ⟨out, hout, hcount, by omega, ?_⟩
  intro r hr
  have hlen : (buf.take (min len 4096)).length = min len 4096 := by
    rw [List.length_take, Nat.min_eq_left hread]
  have hchunk : chunk16 (buf.take (min len 4096)) r
      = (buf.drop (16 * r)).take (min 16 (min len 4096 - 16 * r)) := by
    unfold chunk16
    rw [List.drop_take, List.take_take]
  obtain ⟨hc1, hc2⟩ := chunk16_pos (buf.take (min len 4096)) r (by rw [hlen]; exact hr)
  have hc3 := chunk16_length (buf.take (min len 4096)) r
  have hb : ∀ b ∈ chunk16 (buf.take (min len 4096)) r, b < 256 :=
    fun b hb => hbytes b (chunk16_mem _ _ _ hb)
  rw [hlen] at hc2
  have hpre : (fmt_x 4 (16 * r) ++ ": ".toList ++ hexes (chunk16 (buf.take (min len 4096)) r)
      ++ List.replicate (3 * (16 - (chunk16 (buf.take (min len 4096)) r).length)) ' '
      ++ "  ".toList).length = 56 := by
    rw [fmt_x4_short (16 * r) (by omega)]
    simp only [List.length_append, hexes_length _ hb, List.length_replicate,
      String.toList, List.length_cons, List.length_nil]
    omega
  have hsplit : row_text (16 * r) (chunk16 (buf.take (min len 4096)) r)
      = (fmt_x 4 (16 * r) ++ ": ".toList ++ hexes (chunk16 (buf.take (min len 4096)) r)
          ++ List.replicate (3 * (16 - (chunk16 (buf.take (min len 4096)) r).length)) ' '
          ++ "  ".toList)
        ++ ((chunk16 (buf.take (min len 4096)) r).map ascii ++ ['\n']) := by
    unfold row_text
    simp only [List.append_assoc]
    rfl
  refine ⟨_, chunk16 (buf.take (min len 4096)) r, (chunk16 (buf.take (min len 4096)) r).map ascii,
    hrow r hr, hchunk, hc1, hc3, hc2, ?_, ?_, hexes_length _ hb, ?_, rfl,
    List.length_map _ _, ?_⟩
  · rw [hsplit, List.take_append_of_le_length (le_of_eq hpre.symm), ← hpre, List.take_length]
  · rw [hsplit, List.take_append_of_le_length (le_of_eq hpre.symm), ← hpre, List.take_length]
  · rw [hsplit]
    nth_rewrite 1 [← hpre]
    rw [List.drop_left]
  · intro c hc
    obtain ⟨b, _, rfl⟩ := List.mem_map.mp hc
    exact ⟨ascii_ne_nl b, ascii_ne_nul b⟩

/-- C15 at a buffer of eighteen bytes: the second row holds two bytes, and its
gutter of two characters starts at column 56. -/
theorem buf_gutter_aligned_witness :
    ∃ out row, ttls_debug_print_buf ⟨1⟩ ⟨some ()⟩ 0 "in".toList
        [0, 1, 2, 3, 4, 5, 6, 7, 8, 9, 10, 11, 12, 13, 14, 15, 97, 255] 18 [] = some out ∧
      out.lines[2]? = some row ∧ (row.take 56).length = 56 ∧ row.drop 56 = ['a', '.', '\n'] := by
  obtain ⟨out, h1, _, _, h4⟩ :=
    buf_gutter_aligned ⟨1⟩ ⟨some ()⟩ 0 "in".toList
      [0, 1, 2, 3, 4, 5, 6, 7, 8, 9, 10, 11, 12, 13, 14, 15, 97, 255] 18 []
      (by decide) (by decide) (by decide) (by decide) (by decide)
  obtain ⟨row, bytes, gutter, hrow, hbytes, _, _, _, _, hlen, _, hdrop, hg, _, _⟩ :=
    h4 1 (by decide)
  refine ⟨out, row, h1, hrow, hlen, ?_⟩
  rw [hdrop, hg, hbytes]
  decide

theorem mpi_dump_bytes_lt (ciL : Nat) (p : List Nat) : ∀ b ∈ mpi_dump_bytes ciL p, b < 256 := by
  intro b hb
  unfold mpi_dump_bytes at hb
  split at hb
  · have : b = 0 := by simpa using hb
    omega
  · exact pending_lt true _ (limbs_be_lt ciL p) b hb

theorem mpi_dump_bytes_pos (ciL : Nat) (p : List Nat) : 1 ≤ (mpi_dump_bytes ciL p).length := by
  unfold mpi_dump_bytes
  split
  · exact le_refl _
  · rename_i h
    exact List.length_pos.mpr h

/-- The body lines of `ttls_debug_print_mpi`, line by line. -/
theorem mpi_row_at (bs : List Nat) (hb : ∀ b ∈ bs, b < 256) (r : Nat)
    (hr : r < (bs.length + 15) / 16) :
    (mpi_rows bs)[r]? = some ((((bs.drop (16 * r)).take 16).map
        (fun b => [' ', hexDigit (b / 16), hexDigit (b % 16)])).flatten ++ ['\n']) ∧
    1 ≤ ((bs.drop (16 * r)).take 16).length ∧ ((bs.drop (16 * r)).take 16).length ≤ 16 ∧
    (r + 1 < (bs.length + 15) / 16 → ((bs.drop (16 * r)).take 16).length = 16) ∧
    (r + 1 = (bs.length + 15) / 16 →
      ((bs.drop (16 * r)).take 16).length = bs.length - 16 * ((bs.length + 15) / 16 - 1)) := by
  refine ⟨?_, ?_, ?_, ?_, ?_⟩
  · unfold mpi_rows
    rw [List.getElem?_map, List.getElem?_range hr]
    show some (hexes (chunk16 bs r) ++ "\n".toList) = _
    rw [hexes_digits _ (fun b h => hb b (chunk16_mem _ _ _ h))]
    rfl
  · rw [List.length_take, List.length_drop]; omega
  · rw [List.length_take, List.length_drop]; omega
  · intro h; rw [List.length_take, List.length_drop]; omega
  · intro h; rw [List.length_take, List.length_drop]; omega

/-! ## The lines of the big-integer dump -/

/-- C16 (where the byte counter `int j` does not overflow): with the gate
open, for every big integer with at least one limb and fewer than `2 ^ 31`
bytes to render, the bytes rendered in the body of the dump of
`ttls_debug_print_mpi` (read back from the body lines) are `m >= 1` bytes, and
the body is exactly
`ceil(m / 16)` lines: line `r` is the bytes `16r ..` of them, each as a blank
and two lowercase hex digits, followed by a newline; every line but the last
holds 16 bytes, the last holds `m - 16 * (ceil(m / 16) - 1)` bytes, and every
line holds between 1 and 16 bytes, so no line is empty. -/
theorem mpi_body_lines (g : Globals) (ciL : Nat) (ssl : ttls_context) (L : Int)
    (text : List Char) (X : ttls_mpi) (junk : List Char)
    (hconf : ssl.conf ≠ none) (hlev : L ≤ g.debug_threshold)
    (hn : 1 ≤ X.n) (hp : X.p.length = X.n) (hsz : X.n < SIZE_MOD)
    (hsmall : (mpi_dump_bytes ciL X.p).length < 2 ^ 31) :
    ∃ out D, ttls_debug_print_mpi g ciL ssl L text (some X) junk = some out ∧
      (out.lines.tail.map parse_cols).flatten = D ∧
      1 ≤ D.length ∧
      out.lines.tail.length = (D.length + 15) / 16 ∧
      ∀ r, r < (D.length + 15) / 16 →
        out.lines.tail[r]? = some ((((D.drop (16 * r)).take 16).map
          (fun b => [' ', hexDigit (b / 16), hexDigit (b % 16)])).flatten ++ ['\n']) ∧
        1 ≤ ((D.drop (16 * r)).take 16).length ∧ ((D.drop (16 * r)).take 16).length ≤ 16 ∧
        (r + 1 < (D.length + 15) / 16 → ((D.drop (16 * r)).take 16).length = 16) ∧
        (r + 1 = (D.length + 15) / 16 →
          ((D.drop (16 * r)).take 16).length = D.length - 16 * ((D.length + 15) / 16 - 1)) := by
  obtain ⟨t, v, _, _, _, _, cs, hr, _⟩ := mpi_render_spec ciL text X junk hn hp hsz hsmall
  have hb := mpi_dump_bytes_lt ciL (X.p.take (t + 1))
  refine ⟨_, mpi_dump_bytes ciL (X.p.take (t + 1)),
    by rw [mpi_gate_open g ciL ssl L text X junk hconf hlev]; exact hr, ?_,
    mpi_dump_bytes_pos ciL _, ?_, ?_⟩
  · exact mpi_rows_bytes _ hb
  · show (mpi_rows _).length = _
    unfold mpi_rows
    rw [List.length_map, List.length_range]
  · intro r hrow
    exact mpi_row_at _ hb r hrow

/-- C16 at the three-limb value `2 ^ 128` with limbs of eight bytes. -/
theorem mpi_body_lines_witness :
    ∃ out D, ttls_debug_print_mpi ⟨1⟩ 8 ⟨some ()⟩ 1 "X".toList (some ⟨1, 3, [0, 0, 1]⟩) []
        = some out ∧
      (out.lines.tail.map parse_cols).flatten = D ∧ 1 ≤ D.length ∧
      out.lines.tail.length = (D.length + 15) / 16 := by
  obtain ⟨out, D, h1, h2, h3, h4, _⟩ := mpi_body_lines ⟨1⟩ 8 ⟨some ()⟩ 1 "X".toList
    ⟨1, 3, [0, 0, 1]⟩ [] (by decide) (by decide) (by decide) (by decide) (by decide)
    (by decide)
  exact ⟨out, D, h1, h2, h3, h4⟩

/-! ## The EC point dump -/

/-- C17: with the gate open, for every EC point `(X, Y)` and every label of at
most 508 characters, the units of `ttls_debug_print_ecp` are the units of
`ttls_debug_print_mpi` on the coordinate `X` under the label `"<label>(X)"`
followed by the units of `ttls_debug_print_mpi` on the coordinate `Y` under
the label `"<label>(Y)"`, and nothing else; it fails exactly when one of the
two dumps fails. -/
theorem ecp_is_two_dumps (g : Globals) (ciL : Nat) (ssl : ttls_context) (L : Int)
    (text : List Char) (P : ttls_ecp_point) (junk : List Char)
    (hconf : ssl.conf ≠ none) (hlev : L ≤ g.debug_threshold)
    (hlen : (cstr text).length ≤ 508) :
    (ttls_debug_print_ecp g ciL ssl L text P junk).map Rendered.lines
      = ecp_expected g ciL ssl L text P junk ∧
    (∀ rx ry : Rendered,
      ttls_debug_print_mpi g ciL ssl L (cstr text ++ "(X)".toList) (some P.X) junk = some rx →
      ttls_debug_print_mpi g ciL ssl L (cstr text ++ "(Y)".toList) (some P.Y) junk = some ry →
      ∃ r, ttls_debug_print_ecp g ciL ssl L text P junk = some r ∧
        r.lines = rx.lines ++ ry.lines) ∧
    (1 ≤ P.X.n → P.X.p.length = P.X.n → P.X.n < SIZE_MOD →
      1 ≤ P.Y.n → P.Y.p.length = P.Y.n → P.Y.n < SIZE_MOD →
      ∃ r rx ry, ttls_debug_print_ecp g ciL ssl L text P junk = some r ∧
        ttls_debug_print_mpi g ciL ssl L (cstr text ++ "(X)".toList) (some P.X) junk = some rx ∧
        ttls_debug_print_mpi g ciL ssl L (cstr text ++ "(Y)".toList) (some P.Y) junk = some ry ∧
        r.lines = rx.lines ++ ry.lines) := by
  have hmain := ecp_lines g ciL ssl L text P junk hlen
  have hpair : ∀ rx ry : Rendered,
      ttls_debug_print_mpi g ciL ssl L (cstr text ++ "(X)".toList) (some P.X) junk = some rx →
      ttls_debug_print_mpi g ciL ssl L (cstr text ++ "(Y)".toList) (some P.Y) junk = some ry →
      ∃ r, ttls_debug_print_ecp g ciL ssl L text P junk = some r ∧
        r.lines = rx.lines ++ ry.lines := by
    intro rx ry hx hy
    unfold ecp_expected at hmain
    rw [hx, hy] at hmain
    cases hr : ttls_debug_print_ecp g ciL ssl L text P junk with
    | none => rw [hr] at hmain; simp at hmain
    | some r =>
      rw [hr] at hmain
      exact ⟨r, rfl, by simpa using hmain⟩
  refine ⟨hmain, hpair, ?_⟩
  intro hx1 hx2 hx3 hy1 hy2 hy3
  obtain ⟨_, hrx⟩ := mpi_render_some ciL (cstr text ++ "(X)".toList) P.X junk hx1 hx2 hx3
  obtain ⟨_, hry⟩ := mpi_render_some ciL (cstr text ++ "(Y)".toList) P.Y junk hy1 hy2 hy3
  rw [← mpi_gate_open g ciL ssl L _ P.X junk hconf hlev] at hrx
  rw [← mpi_gate_open g ciL ssl L _ P.Y junk hconf hlev] at hry
  obtain ⟨r, hr, hl⟩ := hpair _ _ hrx hry
  exact ⟨r, _, _, hr, hrx, hry, hl⟩

/-- C17 at the point `(1, 2)` under the label `"Q"`. -/
theorem ecp_is_two_dumps_witness :
    ∃ r rx ry, ttls_debug_print_ecp ⟨1⟩ 8 ⟨some ()⟩ 1 "Q".toList ⟨⟨1, 1, [1]⟩, ⟨1, 1, [2]⟩⟩ []
        = some r ∧
      ttls_debug_print_mpi ⟨1⟩ 8 ⟨some ()⟩ 1 (cstr "Q".toList ++ "(X)".toList)
        (some ⟨1, 1, [1]⟩) [] = some rx ∧
      ttls_debug_print_mpi ⟨1⟩ 8 ⟨some ()⟩ 1 (cstr "Q".toList ++ "(Y)".toList)
        (some ⟨1, 1, [2]⟩) [] = some ry ∧
      r.lines = rx.lines ++ ry.lines :=
  (ecp_is_two_dumps ⟨1⟩ 8 ⟨some ()⟩ 1 "Q".toList ⟨⟨1, 1, [1]⟩, ⟨1, 1, [2]⟩⟩ []
    (by decide) (by decide) (by decide)).2.2
    (by decide) (by decide) (by decide) (by decide) (by decide) (by decide)

theorem ret_text_no_nul (text : List Char) (ret : Int) : ∀ c ∈ ret_text text ret, c ≠ NUL := by
  intro c hc
  unfold ret_text at hc
  simp only [List.mem_append] at hc
  rcases hc with ((((h | h) | h) | h) | h) | h
  · exact cstr_no_nul _ c h
  · revert c; decide
  · exact fmt_d_no_nul _ c h
  · revert c; decide
  · exact fmt_x_no_nul _ _ c h
  · revert c; decide

/-- What `ttls_debug_print_ret` renders when it renders. -/
theorem ret_open_lines (g : Globals) (want_read : Int) (ssl : ttls_context) (L : Int)
    (text : List Char) (ret : Int) (junk : List Char)
    (h : ¬ (ssl.conf = none ∨ L > g.debug_threshold ∨ ret = want_read)) :
    (ttls_debug_print_ret g want_read ssl L text ret junk).lines
      = [(ret_text text ret).take 511] := by
  unfold ttls_debug_print_ret
  rw [if_neg (fun hg => h (by rcases hg with hg | hg; exact Or.inl hg; exact Or.inr (Or.inl hg))),
    if_neg (fun hr => h (Or.inr (Or.inr hr)))]
  exact (head_unit junk DEBUG_BUF_SIZE (ret_text text ret) (by decide) (by decide)
    (ret_text_no_nul text ret)).1

/-! ## The return-code formatter -/

/-- C18 (as the code has it): for every session, level, text and return code
`ret`, `ttls_debug_print_ret` renders nothing if and only if the session has
no config attached, or the level is above the threshold, or `ret` equals
`TTLS_ERR_WANT_READ`; in every other case it renders exactly one unit, the text
`"<text>() returned <ret> (-0x<hex>)\n"` cut to the 511 characters the scratch
buffer holds (the whole line when it is that short), where `<hex>` is `-ret`
as `unsigned int` in at least four lowercase hex digits.  For `ret = -28800`
under the text `"f"` the unit is `"f() returned -28800 (-0x7080)\n"`. -/
theorem ret_line (g : Globals) (want_read : Int) (ssl : ttls_context) (L : Int)
    (text : List Char) (ret : Int) (junk : List Char) :
    ((ttls_debug_print_ret g want_read ssl L text ret junk).lines = [] ↔
      (ssl.conf = none ∨ L > g.debug_threshold ∨ ret = want_read)) ∧
    ((ssl.conf = none ∨ L > g.debug_threshold ∨ ret = want_read) →
      ttls_debug_print_ret g want_read ssl L text ret junk = Rendered.nothing) ∧
    (¬ (ssl.conf = none ∨ L > g.debug_threshold ∨ ret = want_read) →
      (ttls_debug_print_ret g want_read ssl L text ret junk).lines
        = [(ret_text text ret).take 511]) ∧
    ((ret_text text ret).length ≤ 511 → (ret_text text ret).take 511 = ret_text text ret) ∧
    ret_text text ret = cstr text ++ "() returned ".toList ++ fmt_d ret ++ " (-0x".toList
      ++ fmt_x 4 (int_to_uint (-ret)) ++ ")\n".toList ∧
    4 ≤ (fmt_x 4 (int_to_uint (-ret))).length ∧
    (ttls_debug_print_ret ⟨1⟩ want_read ⟨some ()⟩ 1 "f".toList (-28800) junk).lines
      = (if want_read = -28800 then [] else ["f() returned -28800 (-0x7080)\n".toList]) := by
  have hclosed : (ssl.conf = none ∨ L > g.debug_threshold ∨ ret = want_read) →
      ttls_debug_print_ret g want_read ssl L text ret junk = Rendered.nothing := by
    intro h
    unfold ttls_debug_print_ret
    by_cases hg : ssl.conf = none ∨ L > g.debug_threshold
    · rw [if_pos hg]
    · rw [if_neg hg, if_pos (by
        rcases h with h | h | h
        · exact absurd (Or.inl h) hg
        · exact absurd (Or.inr h) hg
        · exact h)]
  refine ⟨⟨?_, fun h => by rw [hclosed h]; rfl⟩, hclosed,
    ret_open_lines g want_read ssl L text ret junk,
    fun h => List.take_of_length_le h, rfl, ?_, ?_⟩
  · intro h
    by_contra hopen
    rw [ret_open_lines g want_read ssl L text ret junk hopen] at h
    exact absurd h (by simp)
  · unfold fmt_x zeroPad
    rw [List.length_append, List.length_replicate]
    omega
  · by_cases hw : want_read = -28800
    · rw [if_pos hw]
      unfold ttls_debug_print_ret
      rw [if_neg (by decide), if_pos hw.symm]
      rfl
    · rw [if_neg hw, ret_open_lines ⟨1⟩ want_read ⟨some ()⟩ 1 "f".toList (-28800) junk (by
        rintro (h | h | h)
        · exact absurd h (by decide)
        · exact absurd h (by decide)
        · exact hw h.symm)]
      decide

/-- C18 as stated fails for a text of 600 characters: the unit rendered is the
first 511 characters of the line, which is neither the line nor the line
without its newline. -/
theorem ret_line_cut :
    (ttls_debug_print_ret ⟨0⟩ (-26880) ⟨some ()⟩ 0 (List.replicate 600 'a') (-1) []).lines
      = [(ret_text (List.replicate 600 'a') (-1)).take 511] ∧
    (ret_text (List.replicate 600 'a') (-1)).length = 625 ∧
    (ttls_debug_print_ret ⟨0⟩ (-26880) ⟨some ()⟩ 0 (List.replicate 600 'a') (-1) []).lines
      ≠ [ret_text (List.replicate 600 'a') (-1)] ∧
    (ttls_debug_print_ret ⟨0⟩ (-26880) ⟨some ()⟩ 0 (List.replicate 600 'a') (-1) []).lines
      ≠ [(ret_text (List.replicate 600 'a') (-1)).dropLast] := by
  have hl := ret_open_lines ⟨0⟩ (-26880) ⟨some ()⟩ 0 (List.replicate 600 'a') (-1) []
    (by decide)
  have hc : cstr (List.replicate 600 'a') = List.replicate 600 'a' :=
    cstr_of_no_nul _ (fun c hc => by rw [(List.mem_replicate.mp hc).2]; decide)
  have hd : fmt_d (-1) = ['-', '1'] := by decide
  have hx : fmt_x 4 (int_to_uint (- (-1))) = ['0', '0', '0', '1'] := by decide
  have hlen : (ret_text (List.replicate 600 'a') (-1)).length = 625 := by
    unfold ret_text
    rw [hc, hd, hx]
    simp only [List.length_append, List.length_replicate]
    rfl
  have htl : ((ret_text (List.replicate 600 'a') (-1)).take 511).length = 511 := by
    rw [List.length_take, hlen]; decide
  refine ⟨hl, hlen, ?_, ?_⟩
  · rw [hl]
    intro h
    have := congrArg (fun l => (l.map List.length)) h
    simp only [List.map_cons, List.map_nil, htl, hlen] at this
    exact absurd this (by decide)
  · rw [hl]
    intro h
    have := congrArg (fun l => (l.map List.length)) h
    simp only [List.map_cons, List.map_nil, htl, List.length_dropLast, hlen] at this
    exact absurd this (by decide)

theorem mpi_top_congr (X Y : ttls_mpi) : ∀ m, (∀ i, i ≤ m → Y.limb i = X.limb i) →
    mpi_top Y m = mpi_top X m := by
  intro m
  induction m with
  | zero => intro _; rfl
  | succ m ih =>
    intro h
    unfold mpi_top
    rw [h (m + 1) (le_refl _), ih (fun i hi => h i (by omega))]

theorem mpi_msb_congr (X Y : ttls_mpi) (n : Nat) (h : Y.limb n = X.limb n) : ∀ k,
    mpi_msb Y n k = mpi_msb X n k := by
  intro k
  induction k with
  | zero => rfl
  | succ k ih =>
    unfold mpi_msb
    rw [h, ih]

/-- The search for the top limb passes over zero limbs appended at the most
significant end. -/
theorem mpi_top_zeros (X : ttls_mpi) (k : Nat) (hn : 1 ≤ X.n) (hp : X.p.length = X.n) :
    ∀ j, j ≤ k →
      mpi_top ⟨X.s, X.n + k, X.p ++ List.replicate k 0⟩ (X.n - 1 + j)
        = mpi_top ⟨X.s, X.n + k, X.p ++ List.replicate k 0⟩ (X.n - 1) := by
  intro j
  induction j with
  | zero => intro _; rfl
  | succ j ih =>
    intro hj
    have hlimb : (⟨X.s, X.n + k, X.p ++ List.replicate k 0⟩ : ttls_mpi).limb (X.n - 1 + j + 1)
        = some 0 := by
      unfold ttls_mpi.limb
      dsimp only
      rw [if_pos (by omega), List.getElem?_append_right (by omega),
        List.getElem?_replicate, if_pos (by omega)]
    have hstep : mpi_top ⟨X.s, X.n + k, X.p ++ List.replicate k 0⟩ (X.n - 1 + j + 1)
        = mpi_top ⟨X.s, X.n + k, X.p ++ List.replicate k 0⟩ (X.n - 1 + j) := by
      rw [mpi_top, hlimb]
      simp
    rw [← Nat.add_assoc, hstep, ih (by omega)]

theorem limb_append_zeros (X : ttls_mpi) (k i : Nat) (hp : X.p.length = X.n) (hi : i < X.n) :
    (⟨X.s, X.n + k, X.p ++ List.replicate k 0⟩ : ttls_mpi).limb i = X.limb i := by
  unfold ttls_mpi.limb
  dsimp only
  rw [if_pos (by omega), if_pos hi, List.getElem?_append_left (by omega)]

/-- The dump behind the gate is unchanged by zero limbs appended at the most
significant end. -/
theorem mpi_render_zeros (ciL : Nat) (text : List Char) (X : ttls_mpi) (k : Nat)
    (junk : List Char) (hn : 1 ≤ X.n) (hp : X.p.length = X.n) (hsz : X.n + k < SIZE_MOD) :
    mpi_render ciL text ⟨X.s, X.n + k, X.p ++ List.replicate k 0⟩ junk
      = mpi_render ciL text X junk := by
  obtain ⟨t, ht, htle, _, _⟩ := mpi_top_spec X (X.n - 1) (by omega) (by omega)
  have e1 : mpi_top X (size_sub X.n 1) = some t := by
    rw [size_sub_of_le hn (by omega)]; exact ht
  have e1z : mpi_top ⟨X.s, X.n + k, X.p ++ List.replicate k 0⟩
      (size_sub (X.n + k) 1) = some t := by
    rw [size_sub_of_le (by omega) hsz]
    have : X.n + k - 1 = X.n - 1 + k := Nat.sub_add_comm hn
    rw [this, mpi_top_zeros X k hn hp k (le_refl _),
      mpi_top_congr X _ (X.n - 1) (fun i hi => limb_append_zeros X k i hp (by omega))]
    exact ht
  have e2 : mpi_msb ⟨X.s, X.n + k, X.p ++ List.replicate k 0⟩ t (ciL <<< 3)
      = mpi_msb X t (ciL <<< 3) :=
    mpi_msb_congr X _ t (limb_append_zeros X k t hp (by omega)) _
  have e3 : ∀ st, mpi_limbs ciL ⟨X.s, X.n + k, X.p ++ List.replicate k 0⟩ (t + 1) st
      = mpi_limbs ciL X (t + 1) st := by
    intro st
    rw [mpi_limbs_eq ciL X (t + 1) st (by omega) (by omega),
      mpi_limbs_eq ciL _ (t + 1) st (by dsimp only; omega)
        (by dsimp only; rw [List.length_append]; omega)]
    dsimp only
    rw [List.take_append_of_le_length (by omega)]
  unfold mpi_render
  dsimp only
  rw [e1, e1z]
  simp only [e2, e3]

theorem mpi_value_zeros (ciL : Nat) (X : ttls_mpi) (k : Nat) (hp : X.p.length = X.n) :
    mpi_value ciL ⟨X.s, X.n + k, X.p ++ List.replicate k 0⟩ = mpi_value ciL X := by
  unfold mpi_value
  dsimp only
  rw [List.take_of_length_le (by rw [List.length_append, List.length_replicate]; omega),
    List.take_of_length_le (by omega), Nat.ofDigits_append,
    ofDigits_zeros _ _ (fun x hx => (List.mem_replicate.mp hx).2)]
  simp

/-! ## The dump of a big integer depends on its value -/

/-- C19: for every big integer `X` with at least one limb and every `k`,
appending `k` all-zero limbs at the most significant end of `X` leaves the
value unchanged and leaves the whole result of `ttls_debug_print_mpi` (the
header with its bit count, every body line and every formatter call)
unchanged. -/
theorem mpi_zero_limbs_appended (g : Globals) (ciL : Nat) (ssl : ttls_context) (L : Int)
    (text : List Char) (X : ttls_mpi) (k : Nat) (junk : List Char)
    (hn : 1 ≤ X.n) (hp : X.p.length = X.n) (hsz : X.n + k < SIZE_MOD) :
    ttls_debug_print_mpi g ciL ssl L text
        (some ⟨X.s, X.n + k, X.p ++ List.replicate k 0⟩) junk
      = ttls_debug_print_mpi g ciL ssl L text (some X) junk ∧
    mpi_value ciL ⟨X.s, X.n + k, X.p ++ List.replicate k 0⟩ = mpi_value ciL X := by
  refine ⟨?_, mpi_value_zeros ciL X k hp⟩
  show (if ssl.conf = none ∨ L > g.debug_threshold then some Rendered.nothing
      else mpi_render ciL text ⟨X.s, X.n + k, X.p ++ List.replicate k 0⟩ junk)
    = (if ssl.conf = none ∨ L > g.debug_threshold then some Rendered.nothing
      else mpi_render ciL text X junk)
  rw [mpi_render_zeros ciL text X k junk hn hp hsz]

/-- C19 at the two-limb value `10 * 2 ^ 64 + 258` with three zero limbs
appended. -/
theorem mpi_zero_limbs_appended_witness :
    ttls_debug_print_mpi ⟨1⟩ 8 ⟨some ()⟩ 1 "X".toList (some ⟨1, 5, [258, 10, 0, 0, 0]⟩) []
      = ttls_debug_print_mpi ⟨1⟩ 8 ⟨some ()⟩ 1 "X".toList (some ⟨1, 2, [258, 10]⟩) [] :=
  (mpi_zero_limbs_appended ⟨1⟩ 8 ⟨some ()⟩ 1 "X".toList ⟨1, 2, [258, 10]⟩ 3 []
    (by decide) (by decide) (by decide)).1

theorem mpi_pow_limbs_top (m : Nat) : (mpi_pow_limbs m).p[m]? = some 1 := by
  unfold mpi_pow_limbs
  dsimp only
  rw [List.getElem?_append_right (by rw [List.length_replicate]), List.length_replicate,
    Nat.sub_self]
  rfl

theorem mpi_pow_limbs_wf (m : Nat) (hm : m + 1 < SIZE_MOD) :
    mpi_wf 8 (mpi_pow_limbs m) ∧ ∃ v ∈ (mpi_pow_limbs m).p, v ≠ 0 := by
  refine ⟨⟨by unfold mpi_pow_limbs; dsimp only; omega, ?_, hm, ?_⟩, 1, ?_, by decide⟩
  · unfold mpi_pow_limbs
    dsimp only
    rw [List.length_append, List.length_replicate]
    rfl
  · intro v hv
    unfold mpi_pow_limbs at hv
    dsimp only at hv
    rcases List.mem_append.mp hv with h | h
    · rw [(List.mem_replicate.mp h).2]
      exact Nat.two_pow_pos _
    · rw [List.mem_singleton.mp h]
      exact Nat.one_lt_two_pow (by decide)
  · unfold mpi_pow_limbs
    dsimp only
    exact List.mem_append_right _ (List.mem_singleton.mpr rfl)

/-- C11 at a text without a newline: nothing is rendered. -/
theorem line_splitter_units_witness :
    (debug_print_line_by_line "no newline".toList []).lines = [] :=
  (line_splitter_units "no newline".toList []).2.2.2.1 (by decide)

/-- C18 at the return code `-28800` with the gate open. -/
theorem ret_line_witness :
    (ttls_debug_print_ret ⟨1⟩ (-26880) ⟨some ()⟩ 1 "f".toList (-28800) []).lines
      = [(ret_text "f".toList (-28800)).take 511] :=
  (ret_line ⟨1⟩ (-26880) ⟨some ()⟩ 1 "f".toList (-28800) []).2.2.1 (by decide)

/-! ## The byte counter of the big-integer dump at `INT_MAX` -/

/-- A formatter call at an offset inside the buffer, whatever the text: the
buffer keeps its size, the offset stays inside, and a terminator is stored
where the text ends. -/
theorem snprintf_any (s : Scratch) (off : Nat) (text : List Char)
    (hlen : s.str.length = DEBUG_BUF_SIZE) (hoff : off ≤ 511) :
    (s.snprintf DEBUG_BUF_SIZE off text).1.str.length = DEBUG_BUF_SIZE ∧
    off + (s.snprintf DEBUG_BUF_SIZE off text).2 ≤ 511 ∧
    (s.snprintf DEBUG_BUF_SIZE off text).1.lines = s.lines ∧
    (s.snprintf DEBUG_BUF_SIZE off text).1.calls
      = s.calls ++ [FmtCall.mk off (DEBUG_BUF_SIZE - off) text.length] ∧
    (s.snprintf DEBUG_BUF_SIZE off text).1.str[off + (s.snprintf DEBUG_BUF_SIZE off text).2]?
      = some NUL := by
  have hN : DEBUG_BUF_SIZE = 512 := rfl
  have hcap : size_sub DEBUG_BUF_SIZE off = DEBUG_BUF_SIZE - off :=
    size_sub_of_le (by omega) buf_size_lt
  have h0 : ¬ (DEBUG_BUF_SIZE - off = 0) := by omega
  unfold Scratch.snprintf bounded_fmt store
  simp only [hcap, h0, if_false]
  refine ⟨?_, ?_, trivial, trivial, ?_⟩
  · simp only [List.length_append, List.length_take, List.length_drop, List.length_cons,
      List.length_nil, hlen]
    omega
  · simp only [List.length_take]
    omega
  · rw [List.getElem?_append_right (by rw [List.length_take]; omega)]
    simp only [List.take_zero, List.nil_append, List.length_take, hlen, List.append_assoc]
    have e : off + min (DEBUG_BUF_SIZE - off - 1) text.length - min off DEBUG_BUF_SIZE
        = (List.take (DEBUG_BUF_SIZE - off - 1) text).length := by
      rw [List.length_take]; omega
    rw [e, List.getElem?_append_right (le_refl _), Nat.sub_self]
    simp

theorem cstr_le_of_nul : ∀ (l : List Char) (k : Nat), l[k]? = some NUL →
    (cstr l).length ≤ k := by
  intro l
  induction l with
  | nil => intro k h; simp at h
  | cons c t ih =>
    intro k h
    unfold cstr
    cases k with
    | zero =>
      have hc : c = NUL := by simpa using h
      simp [List.takeWhile_cons, hc]
    | succ k =>
      have ht : t[k]? = some NUL := by simpa using h
      have := ih k ht
      unfold cstr at this
      rw [List.takeWhile_cons]
      split
      · simp only [List.length_cons]; omega
      · simp

theorem parse_cols_length : ∀ (n : Nat) (l : List Char), l.length ≤ n →
    3 * (parse_cols l).length ≤ l.length := by
  intro n
  induction n using Nat.strong_induction_on with
  | _ n ih =>
    intro l hl
    match l with
    | [] => simp [parse_cols]
    | [_] => simp [parse_cols]
    | [_, _] => simp [parse_cols]
    | _ :: a :: b :: rest =>
      have hr := ih rest.length (by simp only [List.length_cons] at hl; omega) rest (le_refl _)
      unfold parse_cols
      split
      · simp only [List.length_cons]; omega
      · simp only [List.length_cons]; omega

/-- Rendering one byte while the counter is not positive: no line is finished,
the offset stays inside the buffer and the calls made before remain. -/
theorem mpi_emit_wrapped (st : MpiSt) (b : Nat) (hj : st.j ≤ 0)
    (hlen : st.s.str.length = DEBUG_BUF_SIZE) (hidx : st.idx ≤ 511) :
    (mpi_emit st b).s.str.length = DEBUG_BUF_SIZE ∧ (mpi_emit st b).idx ≤ 511 ∧
    (mpi_emit st b).s.lines = st.s.lines ∧
    (mpi_emit st b).s.calls
      = st.s.calls ++ [FmtCall.mk st.idx (DEBUG_BUF_SIZE - st.idx) (' ' :: fmt_x 2 b).length] ∧
    (mpi_emit st b).j = st.j + 1 := by
  obtain ⟨h1, h2, h3, h4, _⟩ := snprintf_any st.s st.idx (' ' :: fmt_x 2 b) hlen hidx
  rw [mpi_emit_plain st b (by omega)]
  refine ⟨h1, h2, h3, h4, ?_⟩
  show int_succ st.j = st.j + 1
  unfold int_succ
  rw [if_neg (by omega)]

theorem mpi_foldl_wrapped : ∀ (bs : List Nat) (st : MpiSt),
    st.j + (bs.length : Int) ≤ 1 → st.s.str.length = DEBUG_BUF_SIZE → st.idx ≤ 511 →
    (bs.foldl mpi_emit st).s.str.length = DEBUG_BUF_SIZE ∧ (bs.foldl mpi_emit st).idx ≤ 511 ∧
    (bs.foldl mpi_emit st).s.lines = st.s.lines ∧
    ∃ e, (bs.foldl mpi_emit st).s.calls = st.s.calls ++ e := by
  intro bs
  induction bs with
  | nil => intro st _ hlen hidx; exact ⟨hlen, hidx, rfl, [], by simp⟩
  | cons b t ih =>
    intro st hj hlen hidx
    rw [List.length_cons] at hj
    obtain ⟨h1, h2, h3, h4, h5⟩ := mpi_emit_wrapped st b (by omega) hlen hidx
    obtain ⟨g1, g2, g3, e, g4⟩ := ih (mpi_emit st b) (by rw [h5]; push_cast at hj ⊢; omega) h1 h2
    rw [List.foldl_cons]
    exact ⟨g1, g2, by rw [g3, h3], _, by rw [g4, h4, List.append_assoc]⟩

/-- The end of the dump after at least one byte was rendered: one more unit of
at most 511 characters, after one more call at the offset reached. -/
theorem mpi_finish_any (st : MpiSt) (hz : st.zeros = false)
    (hlen : st.s.str.length = DEBUG_BUF_SIZE) (hidx : st.idx ≤ 511) :
    ∃ last, (mpi_finish st).lines = st.s.lines ++ [last] ∧ last.length ≤ 511 ∧
      (mpi_finish st).calls
        = st.s.calls ++ [FmtCall.mk st.idx (DEBUG_BUF_SIZE - st.idx) "\n".toList.length] := by
  obtain ⟨h1, h2, h3, h4, h5⟩ := snprintf_any st.s st.idx "\n".toList hlen hidx
  unfold mpi_finish
  rw [if_neg (by rw [hz]; decide)]
  refine ⟨cstr (st.s.snprintf DEBUG_BUF_SIZE st.idx "\n".toList).1.str, ?_, ?_, ?_⟩
  · simp only [Scratch.rendered, Scratch.unit_done, h3]
  · exact le_trans (cstr_le_of_nul _ _ h5) h2
  · simp only [Scratch.rendered, Scratch.unit_done, h4]

theorem int_succ_max : int_succ 2147483647 = -2147483648 := by
  unfold int_succ
  rw [if_pos rfl]

/-- The state of the dump when `2 ^ 31` bytes have been rendered: the lines
before are in order, sixteen bytes are in the buffer, and the counter has
wrapped to `INT_MIN`. -/
theorem mpi_overflow_state (hdr : List Char) (c0 : FmtCall) (D : List Nat)
    (hbytes : ∀ x ∈ D, x < 256) (st0 : MpiSt)
    (hinv0 : MpiInv hdr c0 D ([] : List Nat).length st0) (hj0 : st0.j = 0)
    (hlen : 2147483648 ≤ D.length) :
    MpiInv hdr c0 D 2147483648 ((D.take 2147483648).foldl mpi_emit st0) ∧
    ((D.take 2147483648).foldl mpi_emit st0).j = -2147483648 := by
  have hb : 2147483647 < D.length := by omega
  have hsplit : D = [] ++ (D.take 2147483647 ++ D.drop 2147483647) := by simp
  have hl1 : (D.take 2147483647).length = 2147483647 := by rw [List.length_take]; omega
  obtain ⟨h1, j1⟩ := mpi_foldl_inv hdr c0 D hbytes (D.take 2147483647) []
    (D.drop 2147483647) st0 hsplit (by rw [hl1]; simp) hinv0 (by rw [hj0]; rfl)
  rw [List.length_nil, Nat.zero_add, hl1] at h1 j1
  have hget : D[2147483647]? = some D[2147483647] := List.getElem?_eq_getElem hb
  have h2 := mpi_emit_inv_mid hdr c0 D 2147483647 _ _ (by decide) hget hbytes h1 j1
  have htake : D.take (2147483647 + 1) = D.take 2147483647 ++ [D[2147483647]] := by
    rw [List.take_succ, hget]; rfl
  have htake2 : D.take 2147483648 = D.take 2147483647 ++ [D[2147483647]] := htake
  rw [htake2, List.foldl_append]
  refine ⟨h2, ?_⟩
  simp only [List.foldl_cons, List.foldl_nil]
  rw [mpi_emit_j, j1]
  exact int_succ_max

theorem rows_readback_len (D : List Nat) (hbytes : ∀ x ∈ D, x < 256) : ∀ R, 16 * R ≤ D.length →
    ((((List.range R).map (fun r => hexes (chunk16 D r) ++ "\n".toList)).map
      parse_cols).flatten).length = 16 * R := by
  intro R
  induction R with
  | zero => intro _; rfl
  | succ R ih =>
    intro h
    have hc : (chunk16 D R).length = 16 := by
      unfold chunk16
      rw [List.length_take, List.length_drop]
      omega
    rw [List.range_succ, List.map_append, List.map_append, List.flatten_append,
      List.length_append, ih (by omega)]
    simp only [List.map_cons, List.map_nil, List.flatten_cons, List.flatten_nil,
      List.append_nil]
    rw [parse_cols_line _ (fun b hb => hbytes b (chunk16_mem D R b hb)), hc]
    omega

/-- The dump of `2 ^ 31 + 1` bytes: byte `2 ^ 31` is rendered with the counter
at `INT_MIN`, so no line is finished before it; the last line holds seventeen
bytes and the last call is made at offset `51`. -/
theorem mpi_line_of_17 (hdr : List Char) (c0 : FmtCall) (D : List Nat)
    (hbytes : ∀ x ∈ D, x < 256) (st0 : MpiSt)
    (hinv0 : MpiInv hdr c0 D ([] : List Nat).length st0) (hj0 : st0.j = 0)
    (hlen : D.length = 2147483649) :
    ∃ last e, (mpi_finish (D.foldl mpi_emit st0)).lines
        = (hdr :: (List.range 134217727).map (fun r => hexes (chunk16 D r) ++ "\n".toList))
          ++ [last] ∧
      (parse_cols last).length = 17 ∧
      (mpi_finish (D.foldl mpi_emit st0)).calls = e ++ [FmtCall.mk 51 (DEBUG_BUF_SIZE - 51) 1] := by
  obtain ⟨h2, j2⟩ := mpi_overflow_state hdr c0 D hbytes st0 hinv0 hj0 (by omega)
  have hb : 2147483648 < D.length := by omega
  have hget : D[2147483648]? = some D[2147483648] := List.getElem?_eq_getElem hb
  have hD : D = D.take 2147483648 ++ [D[2147483648]] := by
    have h1 : D.take (2147483648 + 1) = D.take 2147483648 ++ [D[2147483648]] := by
      rw [List.take_succ, hget]; rfl
    rw [← h1]
    exact (List.take_of_length_le (by omega)).symm
  have hb256 : D[2147483648] < 256 := hbytes _ (List.getElem?_mem hget)
  have eR : (2147483648 - 1) / 16 = 134217727 := by decide
  have hcurlen := cur_length D 2147483648 (16 * ((2147483648 - 1) / 16)) (by omega)
  have hcur16 : ((D.take 2147483648).drop (16 * ((2147483648 - 1) / 16))).length = 16 := by
    rw [hcurlen]
  have hcurb : ∀ x ∈ (D.take 2147483648).drop (16 * ((2147483648 - 1) / 16)), x < 256 :=
    fun x hx => hbytes x (List.mem_of_mem_take (List.mem_of_mem_drop hx))
  have hprelen := hexes_length _ hcurb
  rw [hcur16] at hprelen
  have htext : (' ' :: fmt_x 2 D[2147483648]).length = 3 := by simp [fmt_x2_byte _ hb256]
  have hfold : D.foldl mpi_emit st0
      = mpi_emit ((D.take 2147483648).foldl mpi_emit st0) D[2147483648] := by
    conv_lhs => rw [hD]
    rw [List.foldl_append]
    rfl
  obtain ⟨rest1, a1, a2, a3, a4, a5⟩ :=
    snprintf_put ((D.take 2147483648).foldl mpi_emit st0).s DEBUG_BUF_SIZE
      ((D.take 2147483648).foldl mpi_emit st0).idx _ (' ' :: fmt_x 2 D[2147483648])
      h2.str h2.len h2.idx buf_size_lt (by rw [hprelen, htext]; decide)
  have hplain := mpi_emit_plain ((D.take 2147483648).foldl mpi_emit st0) D[2147483648]
    (by rw [j2]; decide)
  have hidx3 : ((D.take 2147483648).foldl mpi_emit st0).idx
      + (((D.take 2147483648).foldl mpi_emit st0).s.snprintf DEBUG_BUF_SIZE
          ((D.take 2147483648).foldl mpi_emit st0).idx (' ' :: fmt_x 2 D[2147483648])).2
      = 51 := by
    rw [a3, h2.idx, hprelen, htext]
  obtain ⟨rest2, b1, _, _, b4, b5⟩ :=
    snprintf_put (((D.take 2147483648).foldl mpi_emit st0).s.snprintf DEBUG_BUF_SIZE
        ((D.take 2147483648).foldl mpi_emit st0).idx (' ' :: fmt_x 2 D[2147483648])).1
      DEBUG_BUF_SIZE 51
      (hexes ((D.take 2147483648).drop (16 * ((2147483648 - 1) / 16)))
        ++ ' ' :: fmt_x 2 D[2147483648])
      "\n".toList ⟨_, a1⟩ a2 (by rw [List.length_append, hprelen, htext])
      buf_size_lt (by rw [List.length_append, hprelen, htext]; decide)
  have hnn : ∀ c ∈ (hexes ((D.take 2147483648).drop (16 * ((2147483648 - 1) / 16)))
      ++ ' ' :: fmt_x 2 D[2147483648]) ++ "\n".toList, c ≠ NUL := by
    intro c hc
    rcases List.mem_append.mp hc with h | h
    · rcases List.mem_append.mp h with h' | h'
      · exact hexes_no_nul _ c h'
      · rcases List.mem_cons.mp h' with h'' | h''
        · rw [h'']; decide
        · exact fmt_x_no_nul _ _ c h''
    · have : c = '\n' := by simpa using h
      rw [this]; decide
  have hlines := h2.lines
  rw [eR] at hlines
  have hlast : hexes ((D.take 2147483648).drop (16 * ((2147483648 - 1) / 16)))
      ++ ' ' :: fmt_x 2 D[2147483648]
      = hexes ((D.take 2147483648).drop (16 * ((2147483648 - 1) / 16)) ++ [D[2147483648]]) := by
    rw [hexes_append]; simp [hexes]
  refine ⟨(hexes ((D.take 2147483648).drop (16 * ((2147483648 - 1) / 16)))
      ++ ' ' :: fmt_x 2 D[2147483648]) ++ "\n".toList,
    ((D.take 2147483648).foldl mpi_emit st0).s.calls
      ++ [FmtCall.mk ((D.take 2147483648).foldl mpi_emit st0).idx
          (DEBUG_BUF_SIZE - ((D.take 2147483648).foldl mpi_emit st0).idx)
          (' ' :: fmt_x 2 D[2147483648]).length], ?_, ?_, ?_⟩
  · rw [hfold, hplain]
    unfold mpi_finish
    rw [if_neg Bool.false_ne_true]
    simp only [Scratch.rendered, Scratch.unit_done, hidx3]
    rw [b5, a5, b1, cstr_append_nul _ _ hnn, hlines]
  · rw [hlast, parse_cols_line _ (by
      intro b hb
      rcases List.mem_append.mp hb with h | h
      · exact hcurb b h
      · rw [List.mem_singleton.mp h]; exact hb256),
      List.length_append, hcur16]
    rfl
  · rw [hfold, hplain]
    unfold mpi_finish
    rw [if_neg Bool.false_ne_true]
    simp only [Scratch.rendered, Scratch.unit_done, hidx3]
    rw [b4, a4]
    rfl

/-- The dump of more than `2 ^ 31` bytes: after byte `2 ^ 31` no line is
finished before the end, so the bytes past the end of the buffer are not in
the output, and fewer than `2 ^ 31 + 155` bytes can be read back. -/
theorem mpi_readback_short (hdr : List Char) (c0 : FmtCall) (D : List Nat)
    (hbytes : ∀ x ∈ D, x < 256) (st0 : MpiSt)
    (hinv0 : MpiInv hdr c0 D ([] : List Nat).length st0) (hj0 : st0.j = 0)
    (hlo : 2147483648 ≤ D.length) (hhi : D.length ≤ 4294967296) :
    (((mpi_finish (D.foldl mpi_emit st0)).lines.tail.map parse_cols).flatten).length
      ≤ 2147483802 := by
  obtain ⟨h2, j2⟩ := mpi_overflow_state hdr c0 D hbytes st0 hinv0 hj0 hlo
  have eR : (2147483648 - 1) / 16 = 134217727 := by decide
  have hcurlen := cur_length D 2147483648 (16 * ((2147483648 - 1) / 16)) hlo
  have hcurb : ∀ x ∈ (D.take 2147483648).drop (16 * ((2147483648 - 1) / 16)), x < 256 :=
    fun x hx => hbytes x (List.mem_of_mem_take (List.mem_of_mem_drop hx))
  have hprelen := hexes_length _ hcurb
  rw [hcurlen] at hprelen
  have hidx : ((D.take 2147483648).foldl mpi_emit st0).idx ≤ 511 := by
    rw [h2.idx, hprelen]
    decide
  have hfold : D.foldl mpi_emit st0
      = (D.drop 2147483648).foldl mpi_emit ((D.take 2147483648).foldl mpi_emit st0) := by
    conv_lhs => rw [← List.take_append_drop 2147483648 D]
    rw [List.foldl_append]
  obtain ⟨g1, g2, g3, _⟩ := mpi_foldl_wrapped (D.drop 2147483648)
    ((D.take 2147483648).foldl mpi_emit st0)
    (by rw [j2, List.length_drop]; omega) h2.len hidx
  have hz : (D.foldl mpi_emit st0).zeros = false := by
    rw [foldl_emit_zeros]
    have : D.isEmpty = false := by
      cases D with
      | nil => simp at hlo
      | cons _ _ => rfl
    rw [this, Bool.and_false]
  rw [← hfold] at g1 g2 g3
  obtain ⟨last, hl, hlast, _⟩ := mpi_finish_any (D.foldl mpi_emit st0) hz g1 g2
  have hp := parse_cols_length last.length last (le_refl _)
  have hrows := rows_readback_len D hbytes 134217727 (by omega)
  rw [hl, g3, h2.lines, eR, List.cons_append, List.tail_cons, List.map_append,
    List.flatten_append, List.length_append, hrows]
  simp only [List.map_cons, List.map_nil, List.flatten_cons, List.flatten_nil, List.append_nil]
  omega

theorem limb_be_one : limb_be 1 8 = [0, 0, 0, 0, 0, 0, 0, 1] := by decide

/-- The dump of `2 ^ (64 * m)` held in `m + 1` limbs, whatever its size: the
header is formatted, then the `8 * m + 1` bytes of the value are rendered one
by one. -/
theorem mpi_pow_limbs_closed (text junk : List Char) (m : Nat) (hm : m + 1 < SIZE_MOD) :
    ∃ D, mpi_render 8 text (mpi_pow_limbs m) junk
        = some (mpi_finish (D.foldl mpi_emit (mpi_start text junk (mpi_bits 8 m 0)))) ∧
      D.length = 8 * m + 1 ∧ (∀ x ∈ D, x < 256) ∧
      D = (Nat.digits 256 (mpi_value 8 (mpi_pow_limbs m))).reverse ∧
      D = mpi_dump_bytes 8 (mpi_pow_limbs m).p := by
  obtain ⟨⟨hn, hp, hsz, hlimbs⟩, _⟩ := mpi_pow_limbs_wf m hm
  obtain ⟨t, v, htn, hget, hzero, ht0, hr⟩ :=
    mpi_render_closed 8 text (mpi_pow_limbs m) junk hn hp hsz
  have hnm : (mpi_pow_limbs m).n = m + 1 := rfl
  have htm : t = m := by
    by_contra hne
    have hlt : t < m := by omega
    have h0 := hzero m hlt (by omega)
    rw [mpi_pow_limbs_top m] at h0
    exact absurd (Option.some.inj h0) (by decide)
  subst htm
  have hv1 : v = 1 := by
    rw [mpi_pow_limbs_top t] at hget
    exact (Option.some.inj hget).symm
  subst hv1
  have htb : top_bit (8 <<< 3) 1 = 0 := by
    rw [top_bit_log 8 1 (Nat.one_lt_two_pow (by decide)) (by decide), Nat.log_one_right]
    rfl
  rw [htb] at hr
  have htake : (mpi_pow_limbs t).p.take (t + 1) = (mpi_pow_limbs t).p :=
    List.take_of_length_le (by rw [hp]; exact le_of_eq hnm)
  have hD : pending true (limbs_be 8 (mpi_pow_limbs t).p)
      = 1 :: limbs_be 8 (List.replicate t 0) := by
    show pending true (limbs_be 8 (List.replicate t 0 ++ [1])) = _
    rw [limbs_be_snoc, limb_be_one]
    simp [pending]
  have hne : pending true (limbs_be 8 (mpi_pow_limbs t).p) ≠ [] := by
    rw [hD]; exact List.cons_ne_nil _ _
  rw [htake] at hr
  refine ⟨_, hr, ?_, pending_lt true _ (limbs_be_lt 8 _), ?_, ?_⟩
  · rw [hD, List.length_cons, limbs_be_length, List.length_replicate]
  · have := mpi_pending_digits 8 (mpi_pow_limbs t) t hp hlimbs hzero
    rw [htake] at this
    exact this
  · unfold mpi_dump_bytes
    rw [if_neg hne]

/-- C9 as stated fails at the value `2 ^ (2 ^ 34)` held in `2 ^ 28 + 1` limbs
of eight bytes, which has `2 ^ 31 + 1` bytes to render: the counter `int j` is
at `INT_MIN` when the last byte is rendered, the line is not finished before
it, and the last formatter call is made at offset `51`, above `48`. -/
theorem mpi_offset_past_48 :
    mpi_wf 8 (mpi_pow_limbs (2 ^ 28)) ∧
    (mpi_dump_bytes 8 (mpi_pow_limbs (2 ^ 28)).p).length = 2147483649 ∧
    ∃ out, ttls_debug_print_mpi ⟨1⟩ 8 ⟨some ()⟩ 1 "X".toList
        (some (mpi_pow_limbs (2 ^ 28))) [] = some out ∧
      (∃ c ∈ out.calls, c.off = 51) ∧ ¬ scratch_ok 48 out := by
  have hm : 2 ^ 28 + 1 < SIZE_MOD := by decide
  obtain ⟨D, hr, hlen, hb, _, hdump⟩ := mpi_pow_limbs_closed "X".toList [] (2 ^ 28) hm
  have hlen2 : D.length = 2147483649 := by rw [hlen]; norm_num
  obtain ⟨last, e, _, _, hcalls⟩ := mpi_line_of_17 _ _ D hb _
    (mpi_start_inv "X".toList [] (mpi_bits 8 (2 ^ 28) 0) D) rfl hlen2
  have hmem : ∃ c ∈ (mpi_finish (D.foldl mpi_emit
      (mpi_start "X".toList [] (mpi_bits 8 (2 ^ 28) 0)))).calls, c.off = 51 :=
    ⟨FmtCall.mk 51 (DEBUG_BUF_SIZE - 51) 1, by rw [hcalls]; simp, rfl⟩
  refine ⟨(mpi_pow_limbs_wf _ hm).1, by rw [← hdump]; exact hlen2, _, ?_, hmem, ?_⟩
  · rw [mpi_gate_open ⟨1⟩ 8 ⟨some ()⟩ 1 _ _ _ (by decide) (by decide)]
    exact hr
  · intro hok
    obtain ⟨c, hc, hoff⟩ := hmem
    have := (hok.1 c hc).1
    omega

/-- C16 as stated fails at the value `2 ^ (2 ^ 34)` held in `2 ^ 28 + 1` limbs
of eight bytes: `2 ^ 31 + 1` bytes are rendered, in `2 ^ 27` body lines and not
the `2 ^ 27 + 1` of sixteen bytes a line, and the last line holds seventeen
bytes. -/
theorem mpi_body_line_too_long :
    mpi_wf 8 (mpi_pow_limbs (2 ^ 28)) ∧
    ∃ out last, ttls_debug_print_mpi ⟨1⟩ 8 ⟨some ()⟩ 1 "X".toList
        (some (mpi_pow_limbs (2 ^ 28))) [] = some out ∧
      ((out.lines.tail.map parse_cols).flatten).length = 2147483649 ∧
      out.lines.tail.length = 134217728 ∧
      out.lines.tail.length ≠ (((out.lines.tail.map parse_cols).flatten).length + 15) / 16 ∧
      out.lines.getLast? = some last ∧ (parse_cols last).length = 17 := by
  have hm : 2 ^ 28 + 1 < SIZE_MOD := by decide
  obtain ⟨D, hr, hlen, hb, _, _⟩ := mpi_pow_limbs_closed "X".toList [] (2 ^ 28) hm
  have hlen2 : D.length = 2147483649 := by rw [hlen]; norm_num
  obtain ⟨last, e, hlines, hlast, _⟩ := mpi_line_of_17 _ _ D hb _
    (mpi_start_inv "X".toList [] (mpi_bits 8 (2 ^ 28) 0) D) rfl hlen2
  have hrows := rows_readback_len D hb 134217727 (by omega)
  have hback : (((mpi_finish (D.foldl mpi_emit
      (mpi_start "X".toList [] (mpi_bits 8 (2 ^ 28) 0)))).lines.tail.map parse_cols).flatten).length
      = 2147483649 := by
    rw [hlines, List.cons_append, List.tail_cons, List.map_append, List.flatten_append,
      List.length_append, hrows]
    simp only [List.map_cons, List.map_nil, List.flatten_cons, List.flatten_nil,
      List.append_nil, hlast]
  have hcount : (mpi_finish (D.foldl mpi_emit
      (mpi_start "X".toList [] (mpi_bits 8 (2 ^ 28) 0)))).lines.tail.length = 134217728 := by
    rw [hlines, List.cons_append, List.tail_cons, List.length_append, List.length_map,
      List.length_range]
    rfl
  refine ⟨(mpi_pow_limbs_wf _ hm).1, _, last, ?_, hback, hcount, ?_, ?_, hlast⟩
  · rw [mpi_gate_open ⟨1⟩ 8 ⟨some ()⟩ 1 _ _ _ (by decide) (by decide)]
    exact hr
  · rw [hback, hcount]
    decide
  · rw [hlines, List.getLast?_append]
    rfl

/-- C2 as stated fails at the value `2 ^ (64 * (2 ^ 28 + 32))` held in
`2 ^ 28 + 33` limbs of eight bytes: its big-endian bytes without leading zero
bytes are `2 ^ 31 + 257` bytes, and fewer than `2 ^ 31 + 155` bytes can be read
back from the body, because after byte `2 ^ 31` the counter `int j` is
negative, no line is finished and the bytes that do not fit in the buffer are
dropped. -/
theorem mpi_bytes_lost :
    mpi_wf 8 (mpi_pow_limbs (2 ^ 28 + 32)) ∧
    (∃ v ∈ (mpi_pow_limbs (2 ^ 28 + 32)).p, v ≠ 0) ∧
    ∃ out, ttls_debug_print_mpi ⟨1⟩ 8 ⟨some ()⟩ 1 "X".toList
        (some (mpi_pow_limbs (2 ^ 28 + 32))) [] = some out ∧
      ((out.lines.tail.map parse_cols).flatten).length ≤ 2147483802 ∧
      (Nat.digits 256 (mpi_value 8 (mpi_pow_limbs (2 ^ 28 + 32)))).reverse.length
        = 2147483905 ∧
      (out.lines.tail.map parse_cols).flatten
        ≠ (Nat.digits 256 (mpi_value 8 (mpi_pow_limbs (2 ^ 28 + 32)))).reverse := by
  have hm : 2 ^ 28 + 32 + 1 < SIZE_MOD := by decide
  obtain ⟨D, hr, hlen, hb, hdig, _⟩ := mpi_pow_limbs_closed "X".toList [] (2 ^ 28 + 32) hm
  have hlen2 : D.length = 2147483905 := by rw [hlen]; norm_num
  have hshort := mpi_readback_short _ _ D hb _
    (mpi_start_inv "X".toList [] (mpi_bits 8 (2 ^ 28 + 32) 0) D) rfl (by omega) (by omega)
  refine ⟨(mpi_pow_limbs_wf _ hm).1, (mpi_pow_limbs_wf _ hm).2, _, ?_, hshort, ?_, ?_⟩
  · rw [mpi_gate_open ⟨1⟩ 8 ⟨some ()⟩ 1 _ _ _ (by decide) (by decide)]
    exact hr
  · rw [← hdig]; exact hlen2
  · intro h
    have := congrArg List.length h
    rw [← hdig, hlen2] at this
    omega

end Tempesta
